import Mathlib

/-!
# Ttracker: scan engine, ignore filter, parsers, annotation store and watcher

A shallow embedding of the Go packages `internal/ignore`, `internal/store`,
`internal/scan` and `internal/watcher`, together with the parts of the Go standard
library they call (`strings`, `unicode/utf8`, `path/filepath`, `encoding/json`, `os`,
`regexp`, `fmt`), followed by the theorems that relate the embedding to the written
specification.

Conventions.
* A Go `string` is an immutable byte sequence, here a list of byte values.
* The target platform is Unix: the path separator is `/`; an `int` has 64 bits.
* A Go `map[string]V` is an association list read by first match; `nil` maps and
  `nil` slices are `none`.
* Effects of the outside world (directory contents, what a parser returns for a
  file, whether a write fails, the time of day) are explicit inputs; a goroutine
  that is started is an entry of a log.
-/

namespace Ttracker

/-! ## Go strings and `unicode/utf8` -/

/-- A Go string: a sequence of bytes, not necessarily valid UTF-8. -/
abbrev GoString := List Nat

namespace utf8

/-- The constant `utf8.RuneError` (U+FFFD). -/
def RuneError : Nat := 0xFFFD

/-- The constant `utf8.RuneSelf`: bytes below it are single-byte runes. -/
def RuneSelf : Nat := 0x80

/-- The function `utf8.EncodeRune`: surrogates and values above U+10FFFF are encoded
as U+FFFD. -/
def EncodeRune (r : Nat) : GoString :=
  if r < 0x80 then [r]
  else if r < 0x800 then [0xC0 + r / 64, 0x80 + r % 64]
  else if 0xD800 ≤ r ∧ r ≤ 0xDFFF then [0xEF, 0xBF, 0xBD]
  else if r < 0x10000 then [0xE0 + r / 4096, 0x80 + (r / 64) % 64, 0x80 + r % 64]
  else if r ≤ 0x10FFFF then
    [0xF0 + r / 262144, 0x80 + (r / 4096) % 64, 0x80 + (r / 64) % 64, 0x80 + r % 64]
  else [0xEF, 0xBF, 0xBD]

/-- Continuation byte test (`locb ≤ b ≤ hicb`). -/
def isCont (b : Nat) : Bool := 0x80 ≤ b && b ≤ 0xBF

/-- The function `utf8.DecodeRuneInString`: the first rune of `s` and its width in
bytes; `(RuneError, 0)` for the empty string and `(RuneError, 1)` for an invalid or
truncated encoding. The `first`/`acceptRanges` tables are written out as ranges. -/
def DecodeRune : GoString → Nat × Nat
  | [] => (RuneError, 0)
  | s0 :: rest =>
    if s0 < 0x80 then (s0, 1)
    else if s0 < 0xC2 then (RuneError, 1)
    else if s0 ≤ 0xDF then
      match rest with
      | s1 :: _ => if isCont s1 then ((s0 % 32) * 64 + s1 % 64, 2) else (RuneError, 1)
      | _ => (RuneError, 1)
    else if s0 ≤ 0xEF then
      match rest with
      | s1 :: s2 :: _ =>
        let lo := if s0 = 0xE0 then 0xA0 else 0x80
        let hi := if s0 = 0xED then 0x9F else 0xBF
        if s1 < lo ∨ hi < s1 then (RuneError, 1)
        else if !isCont s2 then (RuneError, 1)
        else ((s0 % 16) * 4096 + (s1 % 64) * 64 + s2 % 64, 3)
      | _ => (RuneError, 1)
    else if s0 ≤ 0xF4 then
      match rest with
      | s1 :: s2 :: s3 :: _ =>
        let lo := if s0 = 0xF0 then 0x90 else 0x80
        let hi := if s0 = 0xF4 then 0x8F else 0xBF
        if s1 < lo ∨ hi < s1 then (RuneError, 1)
        else if !isCont s2 then (RuneError, 1)
        else if !isCont s3 then (RuneError, 1)
        else ((s0 % 8) * 262144 + (s1 % 64) * 4096 + (s2 % 64) * 64 + s3 % 64, 4)
      | _ => (RuneError, 1)
    else (RuneError, 1)

/-- Loop of `utf8.ValidString`, bounded by the length of the input. -/
def validLoop : Nat → GoString → Bool
  | 0, s => s.isEmpty
  | fuel + 1, s =>
    match s with
    | [] => true
    | _ :: _ =>
      let (r, n) := DecodeRune s
      if r = RuneError ∧ n = 1 then false else validLoop fuel (s.drop n)

/-- The function `utf8.ValidString`: no position decodes to an encoding error. -/
def ValidString (s : GoString) : Bool := validLoop s.length s

end utf8

/-- The bytes of a source-code string literal (its UTF-8 encoding). -/
def lit (s : String) : GoString := (s.toList.map (fun c => utf8.EncodeRune c.toNat)).flatten

/-! ## Package `strings` -/

namespace strings

/-- The function `strings.HasPrefix`. -/
def HasPrefix (s pre : GoString) : Bool := pre.isPrefixOf s

/-- The function `strings.HasSuffix`. -/
def HasSuffix (s suffix : GoString) : Bool := suffix.isSuffixOf s

/-- The function `strings.TrimSuffix`: `s` without the trailing `suffix`, if present. -/
def TrimSuffix (s suffix : GoString) : GoString :=
  if HasSuffix s suffix then s.take (s.length - suffix.length) else s

/-- The function `strings.Split(s, sep)` for a one-byte separator: the pieces of `s`
between occurrences of `sep` (always at least one piece). -/
def Split (s : GoString) (sep : Nat) : List GoString :=
  match s with
  | [] => [[]]
  | c :: cs =>
    if c = sep then [] :: Split cs sep
    else
      match Split cs sep with
      | [] => [[c]]
      | piece :: pieces => (c :: piece) :: pieces

/-- The function `strings.Contains` for a one-byte substring. -/
def ContainsByte (s : GoString) (b : Nat) : Bool := s.contains b

/-- The predicate `unicode.IsSpace`. -/
def IsSpace (r : Nat) : Bool :=
  r = 0x09 || r = 0x0A || r = 0x0B || r = 0x0C || r = 0x0D || r = 0x20 ||
  r = 0x85 || r = 0xA0 || r = 0x1680 || (0x2000 ≤ r && r ≤ 0x200A) ||
  r = 0x2028 || r = 0x2029 || r = 0x202F || r = 0x205F || r = 0x3000

/-- The function `strings.TrimLeftFunc(s, unicode.IsSpace)`, bounded by the length. -/
def trimLeftSpace : Nat → GoString → GoString
  | 0, s => s
  | fuel + 1, s =>
    match s with
    | [] => []
    | _ :: _ =>
      let (r, n) := utf8.DecodeRune s
      if IsSpace r then trimLeftSpace fuel (s.drop n) else s

/-- The function `utf8.DecodeLastRuneInString` on the reversed string `rs`
(last byte first): the last rune of the string and its width. -/
def DecodeLastRune (rs : GoString) : Nat × Nat :=
  match rs with
  | [] => (utf8.RuneError, 0)
  | b :: before =>
    if b < utf8.RuneSelf then (b, 1)
    else
      -- walk back over at most three more bytes to a byte that is not a continuation
      let isStart := fun (x : Nat) => !(utf8.isCont x)
      let back : Nat :=
        match before with
        | [] => 0
        | b1 :: before1 =>
          if isStart b1 then 1
          else match before1 with
            | [] => 1
            | b2 :: before2 =>
              if isStart b2 then 2
              else match before2 with
                | [] => 2
                | _ :: _ => 3
      let tail := (rs.take (back + 1)).reverse
      let (r, size) := utf8.DecodeRune tail
      if size ≠ back + 1 then (utf8.RuneError, 1) else (r, size)

/-- The function `strings.TrimRightFunc(s, unicode.IsSpace)` on the reversed string. -/
def trimRightSpaceRev : Nat → GoString → GoString
  | 0, rs => rs
  | fuel + 1, rs =>
    match rs with
    | [] => []
    | _ :: _ =>
      let (r, n) := DecodeLastRune rs
      if IsSpace r then trimRightSpaceRev fuel (rs.drop n) else rs

/-- The function `strings.TrimSpace`: `s` without leading and trailing white space,
as defined by Unicode. -/
def TrimSpace (s : GoString) : GoString :=
  let l := trimLeftSpace s.length s
  (trimRightSpaceRev l.length l.reverse).reverse

/-- ASCII lower-casing of one byte. -/
def lowerByte (c : Nat) : Nat := if 0x41 ≤ c ∧ c ≤ 0x5A then c + 0x20 else c

/-- The function `strings.ToLower`. A string of ASCII bytes is lower-cased byte by
byte; on any other string Go maps `unicode.ToLower` over the runes, which depends on
the Unicode case tables and is taken as the parameter `unicodeLower`. -/
def ToLower (unicodeLower : GoString → GoString) (s : GoString) : GoString :=
  if s.all (fun c => c < utf8.RuneSelf) then s.map lowerByte else unicodeLower s

end strings

/-! ## Package `path/filepath` (Unix) -/

namespace filepath

/-- The constant `filepath.Separator`. -/
def Separator : Nat := 0x2F

/-- The function `filepath.ToSlash`. -/
def ToSlash (path : GoString) : GoString :=
  if Separator = 0x2F then path
  else path.map (fun c => if c = Separator then 0x2F else c)

/-- The function `filepath.Base`: the last element of `path`, after removing trailing
separators; `.` for the empty path and `/` for a path of separators only. -/
def Base (path : GoString) : GoString :=
  if path = [] then lit "."
  else
    let stripped := path.reverse.dropWhile (fun c => c = Separator)
    let last := (stripped.takeWhile (fun c => c ≠ Separator)).reverse
    if last = [] then [Separator] else last

/-- Loop of `filepath.Ext` over the reversed path. `acc` holds the bytes already
passed (in path order). -/
def extLoop : GoString → GoString → GoString
  | [], _ => []
  | c :: before, acc =>
    if c = Separator then []
    else if c = 0x2E then c :: acc
    else extLoop before (c :: acc)

/-- The function `filepath.Ext`: the suffix beginning at the final dot in the final
element of `path`; empty if there is no dot. -/
def Ext (path : GoString) : GoString := extLoop path.reverse []

/-- Scan loop of `scanChunk`: the chunk up to the first star outside a character
class, and the rest of the pattern. -/
def scanLoop (inrange : Bool) : GoString → GoString × GoString
  | [] => ([], [])
  | c :: cs =>
    if c = 0x5C then
      match cs with
      | [] => ([c], [])
      | d :: ds => let (chunk, rest) := scanLoop inrange ds; (c :: d :: chunk, rest)
    else if c = 0x5B then
      let (chunk, rest) := scanLoop true cs; (c :: chunk, rest)
    else if c = 0x5D then
      let (chunk, rest) := scanLoop false cs; (c :: chunk, rest)
    else if c = 0x2A then
      if !inrange then ([], c :: cs)
      else let (chunk, rest) := scanLoop inrange cs; (c :: chunk, rest)
    else
      let (chunk, rest) := scanLoop inrange cs; (c :: chunk, rest)

/-- The function `scanChunk`: the next segment of the pattern, a non-star string
possibly preceded by stars. -/
def scanChunk (pattern : GoString) : Bool × GoString × GoString :=
  let star := pattern.head? = some 0x2A
  let (chunk, rest) := scanLoop false (pattern.dropWhile (fun c => c = 0x2A))
  (star, chunk, rest)

/-- The function `getEsc`: a possibly escaped character of a character class, and
the rest of the chunk; `none` is `ErrBadPattern`. -/
def getEsc (chunk : GoString) : Option (Nat × GoString) :=
  match chunk with
  | [] => none
  | c :: cs =>
    if c = 0x2D ∨ c = 0x5D then none
    else
      let chunk1 := if c = 0x5C then cs else chunk
      if chunk1 = [] then none
      else
        let (r, n) := utf8.DecodeRune chunk1
        if r = utf8.RuneError ∧ n = 1 then none
        else
          let nchunk := chunk1.drop n
          if nchunk = [] then none else some (r, nchunk)

/-- Range loop of a character class in `matchChunk`: consumes ranges up to the
closing bracket and reports whether `r` lies in one of them. -/
def classLoop : Nat → GoString → Nat → Nat → Bool → Option (Bool × GoString)
  | 0, _, _, _, _ => none
  | fuel + 1, chunk, r, nrange, isMatch =>
    match chunk with
    | 0x5D :: cs =>
      if nrange > 0 then some (isMatch, cs)
      else none
    | _ =>
      match getEsc chunk with
      | none => none
      | some (lo, chunk1) =>
        match chunk1 with
        | 0x2D :: cs1 =>
          match getEsc cs1 with
          | none => none
          | some (hi, chunk2) =>
            classLoop fuel chunk2 r (nrange + 1) (isMatch || (lo ≤ r && r ≤ hi))
        | _ => classLoop fuel chunk1 r (nrange + 1) (isMatch || (lo ≤ r && r ≤ lo))

/-- Outcome of `matchChunk`. -/
inductive ChunkResult where
  | ok (rest : GoString)
  | noMatch
  | badPattern
  deriving DecidableEq, Repr

/-- Loop of `matchChunk`, bounded by the length of the chunk. -/
def matchChunkLoop : Nat → GoString → GoString → Bool → ChunkResult
  | 0, _, _, _ => ChunkResult.badPattern
  | fuel + 1, chunk, s, failed0 =>
    match chunk with
    | [] => if failed0 then ChunkResult.noMatch else ChunkResult.ok s
    | c :: cs =>
      let failed := failed0 || s.isEmpty
      if c = 0x5B then
        let (r, s1) :=
          if !failed then let (r, n) := utf8.DecodeRune s; (r, s.drop n) else (0, s)
        let negated := cs.head? = some 0x5E
        let cs1 := if negated then cs.drop 1 else cs
        match classLoop (cs1.length + 1) cs1 r 0 false with
        | none => ChunkResult.badPattern
        | some (isMatch, cs2) =>
          matchChunkLoop fuel cs2 s1 (failed || (isMatch == negated))
      else if c = 0x3F then
        if !failed then
          let (_, n) := utf8.DecodeRune s
          matchChunkLoop fuel cs (s.drop n) (s.head? = some Separator)
        else matchChunkLoop fuel cs s failed
      else
        let lit? : Option (Nat × GoString) :=
          if c = 0x5C then
            match cs with
            | [] => none
            | d :: ds => some (d, ds)
          else some (c, cs)
        match lit? with
        | none => ChunkResult.badPattern
        | some (d, ds) =>
          if !failed then matchChunkLoop fuel ds (s.drop 1) (s.head? ≠ some d)
          else matchChunkLoop fuel ds s failed

/-- The function `matchChunk`: whether `chunk` matches the beginning of `s`, and the
remainder of `s` after the match. -/
def matchChunk (chunk s : GoString) : ChunkResult :=
  matchChunkLoop (chunk.length + 1) chunk s false

/-- The inner loop of `Match` after a star: try the chunk after skipping `i + 1`
bytes of `name`, never skipping a separator. `some t` is the remainder of the name
after a successful match; the flag tells whether a bad pattern stopped the search. -/
def starLoop (chunk : GoString) (lastChunk : Bool) : GoString → Option GoString × Bool
  | [] => (none, false)
  | c :: cs =>
    if c = Separator then (none, false)
    else
      match matchChunk chunk cs with
      | ChunkResult.ok t =>
        if lastChunk ∧ t ≠ [] then starLoop chunk lastChunk cs else (some t, false)
      | ChunkResult.badPattern => (none, true)
      | ChunkResult.noMatch => starLoop chunk lastChunk cs

/-- Pattern loop of `Match`, bounded by the length of the pattern. -/
def matchLoop : Nat → GoString → GoString → Bool
  | 0, _, _ => false
  | fuel + 1, pattern, name =>
    match pattern with
    | [] => name.isEmpty
    | _ :: _ =>
      let (star, chunk, rest) := scanChunk pattern
      if star ∧ chunk = [] then !(strings.ContainsByte name Separator)
      else
        let r := matchChunk chunk name
        let direct : Option GoString :=
          match r with
          | ChunkResult.ok t => if t = [] ∨ rest ≠ [] then some t else none
          | _ => none
        match direct with
        | some t => matchLoop fuel rest t
        | none =>
          if r = ChunkResult.badPattern then false
          else if star then
            match starLoop chunk (rest = []) name with
            | (some t, _) => matchLoop fuel rest t
            | (none, _) => false
          else false

/-- The `matched` result of `filepath.Match(pattern, name)`. A malformed pattern
(`ErrBadPattern`) reports `false`; the error value itself is not modelled because
the caller discards it. -/
def Match (pattern name : GoString) : Bool :=
  matchLoop (pattern.length + 1) pattern name

/-- One step of `filepath.Clean` on a path element: empty and `.` elements are
dropped, `..` removes the last real element (or, in a relative path with nothing to
remove, is kept), any other element is appended. -/
def cleanStep (rooted : Bool) (out : List GoString) (elem : GoString) : List GoString :=
  if elem = [] ∨ elem = lit "." then out
  else if elem = lit ".." then
    match out.getLast? with
    | some last => if last = lit ".." then out ++ [elem] else out.dropLast
    | none => if rooted then out else out ++ [elem]
  else out ++ [elem]

/-- The function `filepath.Clean`: the shortest path name equivalent to `path` by
purely lexical processing, computed element by element. -/
def Clean (path : GoString) : GoString :=
  let rooted := path.head? = some Separator
  let elems := (strings.Split path Separator).foldl (cleanStep rooted) []
  let body := [Separator].intercalate elems
  if rooted then Separator :: body
  else if body = [] then lit "." else body

/-- The function `filepath.Join` for two elements. -/
def Join (a b : GoString) : GoString :=
  if a ≠ [] then Clean (a ++ Separator :: b)
  else if b ≠ [] then Clean b
  else []

end filepath

/-! ## Package `internal/ignore` -/

namespace ignore

/-- The type `IgnorePattern`: a single ignore pattern. -/
structure IgnorePattern where
  Pattern : GoString
  IsDir : Bool
  deriving DecidableEq, Repr

/-- The type `IgnoreManager`: the ignore patterns of a project, in insertion order. -/
structure IgnoreManager where
  patterns : List IgnorePattern
  deriving DecidableEq, Repr

/-- The function `NewIgnoreManager`. -/
def NewIgnoreManager : IgnoreManager := { patterns := [] }

/-- The method `AddPattern`. -/
def IgnoreManager.AddPattern (im : IgnoreManager) (pattern : GoString) (isDir : Bool) :
    IgnoreManager :=
  { patterns := im.patterns ++ [{ Pattern := pattern, IsDir := isDir }] }

/-- Body of the loop of `LoadFromFile` for one line: the manager after the line. -/
def loadLine (im : IgnoreManager) (line0 : GoString) : IgnoreManager :=
  let line := strings.TrimSpace line0
  if line = [] ∨ strings.HasPrefix line (lit "#") then im
  else
    let isDir := strings.HasSuffix line (lit "/")
    let line1 := if isDir then strings.TrimSuffix line (lit "/") else line
    { patterns := im.patterns ++ [{ Pattern := line1, IsDir := isDir }] }

/-- The loop of `LoadFromFile` over the lines of the file. -/
def loadLines (im : IgnoreManager) : List GoString → IgnoreManager
  | [] => im
  | line :: lines => loadLines (loadLine im line) lines

/-- The method `LoadFromFile`. `content` is what `os.ReadFile` returns for the path,
`none` when the read fails. The result is the manager afterwards and whether an
error is returned. -/
def IgnoreManager.LoadFromFile (im : IgnoreManager) (content : Option GoString) :
    IgnoreManager × Bool :=
  match content with
  | none => (im, true)
  | some c => (loadLines im (strings.Split c 0x0A), false)

/-- The loop of `ShouldIgnore` over the patterns, on the slash-converted path. -/
def shouldIgnoreLoop (path : GoString) : List IgnorePattern → Bool
  | [] => false
  | pattern :: rest =>
    if pattern.IsDir then
      if strings.HasSuffix path pattern.Pattern then true
      else shouldIgnoreLoop path rest
    else
      if filepath.Match pattern.Pattern (filepath.Base path) then true
      else shouldIgnoreLoop path rest

/-- The method `ShouldIgnore`. -/
def IgnoreManager.ShouldIgnore (im : IgnoreManager) (path : GoString) : Bool :=
  shouldIgnoreLoop (filepath.ToSlash path) im.patterns

/-- The function `GetDefaultPatterns`. -/
def GetDefaultPatterns : List IgnorePattern :=
  [ { Pattern := lit ".git", IsDir := true },
    { Pattern := lit "node_modules", IsDir := true },
    { Pattern := lit "vendor", IsDir := true },
    { Pattern := lit "dist", IsDir := true },
    { Pattern := lit "build", IsDir := true },
    { Pattern := lit ".DS_Store", IsDir := false },
    { Pattern := lit "*.log", IsDir := false },
    { Pattern := lit "*.tmp", IsDir := false } ]

/-- The loop `for _, pattern := range ignore.GetDefaultPatterns() { AddPattern }` of
`RunScan` and `NewProjectWatcher`. -/
def addPatterns (im : IgnoreManager) : List IgnorePattern → IgnoreManager
  | [] => im
  | p :: ps => addPatterns (im.AddPattern p.Pattern p.IsDir) ps

/-- The ignore manager `RunScan` builds: the defaults, then the project's `.ttignore`
(a failed read is only logged). -/
def scanIgnoreManager (ttignore : Option GoString) : IgnoreManager :=
  ((addPatterns NewIgnoreManager GetDefaultPatterns).LoadFromFile ttignore).1

/-- The ignore manager of a `ProjectWatcher` after `NewProjectWatcher` and one
`watchProject` per tracked project: the defaults, then each project's `.ttignore`
in turn, all in the one manager. -/
def watcherIgnoreManager (ttignores : List (Option GoString)) : IgnoreManager :=
  ttignores.foldl (fun im c => (im.LoadFromFile c).1)
    (addPatterns NewIgnoreManager GetDefaultPatterns)

/-- What the specification says a single rule does, tested on its own: a directory
rule matches when the slash-normalised full path ends with the pattern, a file rule
when the shell glob matches the base name. -/
def ruleMatches (r : IgnorePattern) (p : GoString) : Bool :=
  if r.IsDir then (r.Pattern).isSuffixOf (filepath.ToSlash p)
  else filepath.Match r.Pattern (filepath.Base (filepath.ToSlash p))

/-- The rule the specification's wording of the ignore file gives for a line that is
kept: directory rule iff the line ends with the separator, which is stripped. -/
def specRuleOfLine (line : GoString) : IgnorePattern :=
  if strings.HasSuffix line (lit "/") then
    { Pattern := strings.TrimSuffix line (lit "/"), IsDir := true }
  else { Pattern := line, IsDir := false }

/-- The lines the specification's wording keeps: neither blank nor starting with `#`. -/
def specKeepsLine (line : GoString) : Bool :=
  !(line.all strings.IsSpace) && !(strings.HasPrefix line (lit "#"))

/-- The lines `LoadFromFile` keeps, stated on the trimmed line. -/
def keepsTrimmed (line : GoString) : Bool :=
  !(strings.TrimSpace line = []) && !(strings.HasPrefix (strings.TrimSpace line) (lit "#"))

end ignore

/-! ## Package `internal/store` -/

namespace store

/-- The type `Todo`: a TODO comment found in source code. -/
structure Todo where
  Comment : GoString
  FilePath : GoString
  LineNumber : Int
  Function : GoString
  deriving DecidableEq, Repr

/-- A Go slice `[]Todo`: `none` is the nil slice. -/
abbrev TodoSlice := Option (List Todo)

/-- The elements of a slice, as a sequence (a nil slice has none). -/
def elems (s : TodoSlice) : List Todo := s.getD []

/-- A Go `map[string][]Todo` that is not nil, as an association list read by first
match. -/
abbrev ProjectMap := List (GoString × TodoSlice)

/-- Map index expression `m[key]` with the comma-ok form. -/
def mapGet (m : ProjectMap) (key : GoString) : Option TodoSlice :=
  match m with
  | [] => none
  | (k, v) :: rest => if k = key then some v else mapGet rest key

/-- Map assignment `m[key] = value`. -/
def mapSet (m : ProjectMap) (key : GoString) (value : TodoSlice) : ProjectMap :=
  match m with
  | [] => [(key, value)]
  | (k, v) :: rest => if k = key then (k, value) :: rest else (k, v) :: mapSet rest key value

/-- The builtin `delete(m, key)`. -/
def mapDelete (m : ProjectMap) (key : GoString) : ProjectMap :=
  m.filter (fun kv => kv.1 ≠ key)

/-- The type `Store`: TODOs for each project. `Projects = none` is the nil map. -/
structure Store where
  Projects : Option ProjectMap
  deriving DecidableEq, Repr

/-- The function `NewStore`. -/
def NewStore : Store := { Projects := some [] }

/-- The method `UpdateProject`. Assignment to an entry of a nil map is a run-time
panic, rendered as `none`. -/
def Store.UpdateProject (s : Store) (projectName : GoString) (todos : TodoSlice) :
    Option Store :=
  match s.Projects with
  | none => none
  | some m => some { Projects := some (mapSet m projectName todos) }

/-- The method `AddProject`. -/
def Store.AddProject (s : Store) (projectName : GoString) (todos : TodoSlice) :
    Option Store :=
  match s.Projects with
  | none => none
  | some m => some { Projects := some (mapSet m projectName todos) }

/-- The method `GetProject`: the project's slice and whether the project exists
(reading a nil map finds nothing). -/
def Store.GetProject (s : Store) (projectName : GoString) : TodoSlice × Bool :=
  match s.Projects with
  | none => (none, false)
  | some m =>
    match mapGet m projectName with
    | none => (none, false)
    | some todos => (todos, true)

/-- The method `RemoveProject`. -/
def Store.RemoveProject (s : Store) (projectName : GoString) : Store :=
  match s.Projects with
  | none => s
  | some m => { Projects := some (mapDelete m projectName) }

end store

/-! ## Package `encoding/json`, as used on `Store` -/

namespace json

/-- Lower-case hexadecimal digit of a value below 16 (the table `hex`). -/
def hexDigit (n : Nat) : Nat := if n < 10 then 0x30 + n else 0x61 + (n - 10)

/-- The table `htmlSafeSet`: the ASCII bytes written into a JSON string as they are. -/
def htmlSafe (b : Nat) : Bool :=
  0x20 ≤ b && b < 0x80 && b ≠ 0x22 && b ≠ 0x5C && b ≠ 0x3C && b ≠ 0x3E && b ≠ 0x26

/-- The escape `appendString` writes for an ASCII byte outside `htmlSafeSet` (backspace
and form feed as in Go 1.22 and later; earlier releases write the six-byte unicode
escapes for them, which the decoder reads as the same bytes). -/
def escapeByte (b : Nat) : GoString :=
  if b = 0x5C ∨ b = 0x22 then [0x5C, b]
  else if b = 0x08 then lit "\\b"
  else if b = 0x0C then lit "\\f"
  else if b = 0x0A then lit "\\n"
  else if b = 0x0D then lit "\\r"
  else if b = 0x09 then lit "\\t"
  else lit "\\u00" ++ [hexDigit (b / 16), hexDigit (b % 16)]

/-- The loop of `appendString` (with `escapeHTML`), bounded by the length of the
string: the content of the JSON string literal for `s`. Bytes that do not decode as
UTF-8 are written as `�`. -/
def escapeLoop : Nat → GoString → GoString
  | 0, _ => []
  | fuel + 1, s =>
    match s with
    | [] => []
    | b :: rest =>
      if b < utf8.RuneSelf then
        (if htmlSafe b then [b] else escapeByte b) ++ escapeLoop fuel rest
      else
        let (c, size) := utf8.DecodeRune s
        if c = utf8.RuneError ∧ size = 1 then lit "\\ufffd" ++ escapeLoop fuel rest
        else if c = 0x2028 ∨ c = 0x2029 then
          lit "\\u202" ++ [hexDigit (c % 16)] ++ escapeLoop fuel (s.drop size)
        else s.take size ++ escapeLoop fuel (s.drop size)

/-- The function `appendString`: the quoted JSON string literal for `s`. -/
def appendString (s : GoString) : GoString :=
  0x22 :: (escapeLoop s.length s ++ [0x22])

/-- The loop of the coercion to valid UTF-8 that the encoder applies to a string:
each byte that does not decode is replaced by U+FFFD, every other rune is kept. -/
def coerceLoop : Nat → GoString → GoString
  | 0, _ => []
  | fuel + 1, s =>
    match s with
    | [] => []
    | _ :: rest =>
      let (c, size) := utf8.DecodeRune s
      if c = utf8.RuneError ∧ size = 1 then [0xEF, 0xBF, 0xBD] ++ coerceLoop fuel rest
      else s.take size ++ coerceLoop fuel (s.drop size)

/-- The string a JSON document carries for the Go string `s`. -/
def coerceUTF8 (s : GoString) : GoString := coerceLoop s.length s

/-- Decimal digits of a natural number, most significant first, pushed onto `acc`. -/
def decDigits : Nat → Nat → GoString → GoString
  | 0, _, acc => acc
  | fuel + 1, n, acc =>
    if n / 10 = 0 then (0x30 + n % 10) :: acc
    else decDigits fuel (n / 10) ((0x30 + n % 10) :: acc)

/-- The function `strconv.AppendInt(_, i, 10)`. -/
def formatInt (i : Int) : GoString :=
  if i < 0 then 0x2D :: decDigits (i.natAbs + 1) i.natAbs []
  else decDigits (i.natAbs + 1) i.natAbs []

/-- Byte-wise order of strings (`strings.Compare(a, b) < 0`). -/
def strLess : GoString → GoString → Bool
  | [], [] => false
  | [], _ :: _ => true
  | _ :: _, [] => false
  | a :: as, b :: bs => if a < b then true else if b < a then false else strLess as bs

/-- Insertion of a key into a sorted list of distinct keys. -/
def insertKey (k : GoString) : List GoString → List GoString
  | [] => [k]
  | x :: xs =>
    if k = x then x :: xs
    else if strLess k x then k :: x :: xs
    else x :: insertKey k xs

/-- The keys of a map, sorted as the encoder sorts them. -/
def sortedKeys (m : store.ProjectMap) : List GoString :=
  m.foldr (fun kv acc => insertKey kv.1 acc) []

/-- The line break `Indent` writes: a newline and `depth` copies of the two-space
indent (the prefix is empty). -/
def newline (depth : Nat) : GoString := 0x0A :: List.replicate (2 * depth) 0x20

/-- One member of an object as `Indent` lays it out: the quoted key, a colon, a
blank and the value. -/
def encodeMember (key value : GoString) : GoString :=
  appendString key ++ lit ": " ++ value

/-- The items of an object or array after the first, each preceded by a comma and a
line break. -/
def joinMore (depth : Nat) : List GoString → GoString
  | [] => []
  | x :: xs => lit "," ++ newline depth ++ x ++ joinMore depth xs

/-- An object or array whose opening bracket is at `depth`, as `Indent` lays it out:
the brackets alone when there is no item, otherwise each item on a line of its own
one level deeper and the closing bracket on a line of its own. -/
def encodeBlock (opening closing : Nat) (depth : Nat) : List GoString → GoString
  | [] => [opening, closing]
  | x :: xs =>
    [opening] ++ newline (depth + 1) ++ x ++ joinMore (depth + 1) xs ++ newline depth ++
      [closing]

/-- The encoding of a `Todo` whose opening brace is at `depth`. -/
def encodeTodo (depth : Nat) (t : store.Todo) : GoString :=
  encodeBlock 0x7B 0x7D depth
    [ encodeMember (lit "comment") (appendString t.Comment),
      encodeMember (lit "file_path") (appendString t.FilePath),
      encodeMember (lit "line_number") (formatInt t.LineNumber),
      encodeMember (lit "function") (appendString t.Function) ]

/-- The encoding of a `[]Todo` whose opening bracket is at `depth`: `null` for the
nil slice. -/
def encodeSlice (depth : Nat) : store.TodoSlice → GoString
  | none => lit "null"
  | some ts => encodeBlock 0x5B 0x5D depth (ts.map (encodeTodo (depth + 1)))

/-- The encoding of the `map[string][]Todo` whose opening brace is at `depth`: `null`
for the nil map, otherwise the entries by sorted key. -/
def encodeMap (depth : Nat) : Option store.ProjectMap → GoString
  | none => lit "null"
  | some m =>
    encodeBlock 0x7B 0x7D depth
      ((sortedKeys m).map
        (fun k => encodeMember k (encodeSlice (depth + 1) ((store.mapGet m k).getD none))))

/-- The call `json.MarshalIndent(s, "", "  ")` on a `*Store`. It cannot fail. -/
def MarshalIndent (s : store.Store) : GoString :=
  encodeBlock 0x7B 0x7D 0 [encodeMember (lit "projects") (encodeMap 1 s.Projects)]

/-- A JSON value as the decoder reads it: numbers keep their literal, strings are
unquoted. -/
inductive JValue where
  | null
  | bool (b : Bool)
  | number (literal : GoString)
  | string (s : GoString)
  | array (elems : List JValue)
  | object (members : List (GoString × JValue))
  deriving Repr

/-- The constant `maxNestingDepth`. -/
def maxNestingDepth : Nat := 10000

/-- The function `isSpace` of the scanner. -/
def isSpace (c : Nat) : Bool := c = 0x20 || c = 0x09 || c = 0x0D || c = 0x0A

/-- Skip the white space between tokens. -/
def skipSpace : GoString → GoString
  | [] => []
  | c :: cs => if isSpace c then skipSpace cs else c :: cs

/-- Value of a hexadecimal digit, upper or lower case. -/
def hexValue (c : Nat) : Option Nat :=
  if 0x30 ≤ c ∧ c ≤ 0x39 then some (c - 0x30)
  else if 0x61 ≤ c ∧ c ≤ 0x66 then some (c - 0x61 + 10)
  else if 0x41 ≤ c ∧ c ≤ 0x46 then some (c - 0x41 + 10)
  else none

/-- The function `getu4` on the four bytes after `\u`: the code unit, and the input
after it. -/
def getu4 (s : GoString) : Option (Nat × GoString) :=
  match s with
  | a :: b :: c :: d :: rest =>
    match hexValue a, hexValue b, hexValue c, hexValue d with
    | some x, some y, some z, some w => some (x * 4096 + y * 256 + z * 16 + w, rest)
    | _, _, _, _ => none
  | _ => none

/-- The string scanner and `unquote` in one pass over the input after the opening
quote: the unquoted bytes and the input after the closing quote. Escapes are
resolved, a surrogate pair becomes one rune, a lone surrogate and bytes that are
not UTF-8 become U+FFFD; a control character or an unknown escape is a syntax
error. -/
def parseString : Nat → GoString → Option (GoString × GoString)
  | 0, _ => none
  | fuel + 1, s =>
    match s with
    | [] => none
    | c :: r =>
      if c = 0x22 then some ([], r)
      else if c = 0x5C then
        match r with
        | [] => none
        | e :: r1 =>
          let simple : Option Nat :=
            if e = 0x22 ∨ e = 0x5C ∨ e = 0x2F then some e
            else if e = 0x62 then some 0x08
            else if e = 0x66 then some 0x0C
            else if e = 0x6E then some 0x0A
            else if e = 0x72 then some 0x0D
            else if e = 0x74 then some 0x09
            else none
          match simple with
          | some b => (parseString fuel r1).map (fun p => (b :: p.1, p.2))
          | none =>
            if e = 0x75 then
              match getu4 r1 with
              | none => none
              | some (rr, r2) =>
                if 0xD800 ≤ rr ∧ rr < 0xE000 then
                  let pair : Option (Nat × GoString) :=
                    match r2 with
                    | 0x5C :: 0x75 :: r3 =>
                      match getu4 r3 with
                      | some (rr1, r4) =>
                        if rr < 0xDC00 ∧ 0xDC00 ≤ rr1 ∧ rr1 < 0xE000 then
                          some ((rr - 0xD800) * 1024 + (rr1 - 0xDC00) + 0x10000, r4)
                        else none
                      | none => none
                    | _ => none
                  match pair with
                  | some (dec, r4) =>
                    (parseString fuel r4).map (fun p => (utf8.EncodeRune dec ++ p.1, p.2))
                  | none =>
                    (parseString fuel r2).map
                      (fun p => (utf8.EncodeRune utf8.RuneError ++ p.1, p.2))
                else (parseString fuel r2).map (fun p => (utf8.EncodeRune rr ++ p.1, p.2))
            else none
      else if c < 0x20 then none
      else if c < utf8.RuneSelf then (parseString fuel r).map (fun p => (c :: p.1, p.2))
      else
        let (rr, size) := utf8.DecodeRune s
        (parseString fuel (s.drop size)).map (fun p => (utf8.EncodeRune rr ++ p.1, p.2))

/-- Whether the byte is a decimal digit. -/
def isDigit (c : Nat) : Bool := 0x30 ≤ c && c ≤ 0x39

/-- The longest run of decimal digits at the start of the input. -/
def spanDigits : GoString → GoString × GoString
  | [] => ([], [])
  | c :: cs => if isDigit c then let p := spanDigits cs; (c :: p.1, p.2) else ([], c :: cs)

/-- The number scanner: the literal `-? (0 | [1-9][0-9]*) (. [0-9]+)? ([eE] [+-]? [0-9]+)?`
at the start of the input, and the input after it. -/
def parseNumber (s : GoString) : Option (GoString × GoString) :=
  let sign : GoString := if s.head? = some 0x2D then [0x2D] else []
  let s1 := s.drop sign.length
  let intPart : Option (GoString × GoString) :=
    if s1.head? = some 0x30 then some ([0x30], s1.drop 1)
    else if (spanDigits s1).1 = [] then none
    else some (spanDigits s1)
  match intPart with
  | none => none
  | some (ip, s2) =>
    let frac : Option (GoString × GoString) :=
      if s2.head? = some 0x2E then
        if (spanDigits (s2.drop 1)).1 = [] then none
        else some (0x2E :: (spanDigits (s2.drop 1)).1, (spanDigits (s2.drop 1)).2)
      else some ([], s2)
    match frac with
    | none => none
    | some (fp, s3) =>
      let exp : Option (GoString × GoString) :=
        if s3.head? = some 0x65 ∨ s3.head? = some 0x45 then
          let r := s3.drop 1
          let sg : GoString := if r.head? = some 0x2B ∨ r.head? = some 0x2D then r.take 1 else []
          let p := spanDigits (r.drop sg.length)
          if p.1 = [] then none else some (s3.take 1 ++ sg ++ p.1, p.2)
        else some ([], s3)
      match exp with
      | none => none
      | some (ep, s4) => some (sign ++ ip ++ fp ++ ep, s4)

mutual
/-- The scanner and decoder reading one JSON value at the start of the input (white
space already skipped): the value and the input after it; `none` is a syntax error.
`depth` is the number of arrays and objects currently open. -/
def parseValue : Nat → Nat → GoString → Option (JValue × GoString)
  | 0, _, _ => none
  | fuel + 1, depth, s =>
    match s with
    | [] => none
    | c :: r =>
      if c = 0x22 then
        (parseString (r.length + 1) r).map (fun p => (JValue.string p.1, p.2))
      else if c = 0x7B then
        if depth ≥ maxNestingDepth then none
        else if (skipSpace r).head? = some 0x7D then some (JValue.object [], (skipSpace r).drop 1)
        else
          (parseMembers fuel (depth + 1) (skipSpace r)).map (fun p => (JValue.object p.1, p.2))
      else if c = 0x5B then
        if depth ≥ maxNestingDepth then none
        else if (skipSpace r).head? = some 0x5D then some (JValue.array [], (skipSpace r).drop 1)
        else
          (parseElems fuel (depth + 1) (skipSpace r)).map (fun p => (JValue.array p.1, p.2))
      else if c = 0x74 then
        if (lit "rue").isPrefixOf r then some (JValue.bool true, r.drop 3) else none
      else if c = 0x66 then
        if (lit "alse").isPrefixOf r then some (JValue.bool false, r.drop 4) else none
      else if c = 0x6E then
        if (lit "ull").isPrefixOf r then some (JValue.null, r.drop 3) else none
      else if c = 0x2D ∨ isDigit c then
        (parseNumber s).map (fun p => (JValue.number p.1, p.2))
      else none
/-- The members of an object from the first key to the closing brace. -/
def parseMembers : Nat → Nat → GoString → Option (List (GoString × JValue) × GoString)
  | 0, _, _ => none
  | fuel + 1, depth, s =>
    if s.head? = some 0x22 then
      match parseString s.length (s.drop 1) with
      | none => none
      | some (key, r1) =>
        if (skipSpace r1).head? = some 0x3A then
          match parseValue fuel depth (skipSpace ((skipSpace r1).drop 1)) with
          | none => none
          | some (v, r3) =>
            if (skipSpace r3).head? = some 0x2C then
              (parseMembers fuel depth (skipSpace ((skipSpace r3).drop 1))).map
                (fun p => ((key, v) :: p.1, p.2))
            else if (skipSpace r3).head? = some 0x7D then
              some ([(key, v)], (skipSpace r3).drop 1)
            else none
        else none
    else none
/-- The elements of an array from the first element to the closing bracket. -/
def parseElems : Nat → Nat → GoString → Option (List JValue × GoString)
  | 0, _, _ => none
  | fuel + 1, depth, s =>
    match parseValue fuel depth s with
    | none => none
    | some (v, r1) =>
      if (skipSpace r1).head? = some 0x2C then
        (parseElems fuel depth (skipSpace ((skipSpace r1).drop 1))).map
          (fun p => (v :: p.1, p.2))
      else if (skipSpace r1).head? = some 0x5D then some ([v], (skipSpace r1).drop 1)
      else none
end

/-- The syntax phase of `json.Unmarshal`: one value surrounded by optional white
space, nothing else. The bound on the recursion is never reached: every call
consumes a byte at least every second step. -/
def parseDocument (data : GoString) : Option JValue :=
  match parseValue (2 * data.length + 1) 0 (skipSpace data) with
  | none => none
  | some (v, rest) => if skipSpace rest = [] then some v else none

/-- The function `strconv.ParseInt(s, 10, 64)` on a JSON number literal: the value
when the literal is an optional minus sign and decimal digits within the range of
`int64`. -/
def parseInt64 (literal : GoString) : Option Int :=
  let neg : Bool := literal.head? = some 0x2D
  let digits := if neg then literal.drop 1 else literal
  if digits = [] ∨ !(digits.all isDigit) then none
  else
    let n : Nat := digits.foldl (fun acc d => acc * 10 + (d - 0x30)) 0
    let v : Int := if neg then -(n : Int) else (n : Int)
    if -(2 ^ 63 : Int) ≤ v ∧ v < (2 ^ 63 : Int) then some v else none

/-- The function `foldName` on a key, as far as it can produce ASCII: ASCII letters
go to upper case, U+017F (long s) to `S` and U+212A (Kelvin sign) to `K`, the ASCII
members of their fold sets. -/
def foldName : Nat → GoString → GoString
  | 0, _ => []
  | fuel + 1, s =>
    match s with
    | [] => []
    | c :: r =>
      if c < utf8.RuneSelf then
        (if 0x61 ≤ c ∧ c ≤ 0x7A then c - 0x20 else c) :: foldName fuel r
      else
        let (rr, size) := utf8.DecodeRune s
        (if rr = 0x17F then [0x53] else if rr = 0x212A then [0x4B] else s.take size) ++
          foldName fuel (s.drop size)

/-- Whether an object key selects the struct field with JSON name `name`: an exact
match or a match under case folding. The field names of `Store` and `Todo` are
pairwise distinct under folding, so the order of the two tests does not matter. -/
def keyMatches (name key : GoString) : Bool :=
  key = name || foldName key.length key = foldName name.length name

/-- Decoding a JSON value into a `string` variable holding `cur`: a string is stored,
`null` leaves the variable, anything else is an `UnmarshalTypeError`. -/
def decodeString (cur : GoString) : JValue → Option GoString
  | JValue.string s => some s
  | JValue.null => some cur
  | _ => none

/-- Decoding a JSON value into an `int` variable holding `cur`. -/
def decodeInt (cur : Int) : JValue → Option Int
  | JValue.number literal => parseInt64 literal
  | JValue.null => some cur
  | _ => none

/-- Decoding one member of an object into the `Todo` held so far. Unknown keys are
skipped. -/
def decodeTodoMember (cur : store.Todo) (key : GoString) (v : JValue) : Option store.Todo :=
  if keyMatches (lit "comment") key then
    (decodeString cur.Comment v).map (fun s => { cur with Comment := s })
  else if keyMatches (lit "file_path") key then
    (decodeString cur.FilePath v).map (fun s => { cur with FilePath := s })
  else if keyMatches (lit "line_number") key then
    (decodeInt cur.LineNumber v).map (fun n => { cur with LineNumber := n })
  else if keyMatches (lit "function") key then
    (decodeString cur.Function v).map (fun s => { cur with Function := s })
  else some cur

/-- The members of an object decoded in order into a `Todo`. -/
def decodeTodoMembers (cur : store.Todo) : List (GoString × JValue) → Option store.Todo
  | [] => some cur
  | (key, v) :: rest =>
    match decodeTodoMember cur key v with
    | none => none
    | some next => decodeTodoMembers next rest

/-- Decoding a JSON value into a fresh `Todo` element of a slice. -/
def decodeTodo : JValue → Option store.Todo
  | JValue.object members =>
    decodeTodoMembers { Comment := [], FilePath := [], LineNumber := 0, Function := [] } members
  | JValue.null => some { Comment := [], FilePath := [], LineNumber := 0, Function := [] }
  | _ => none

/-- The elements of an array decoded into `Todo`s. -/
def decodeTodos : List JValue → Option (List store.Todo)
  | [] => some []
  | v :: vs =>
    match decodeTodo v, decodeTodos vs with
    | some t, some ts => some (t :: ts)
    | _, _ => none

/-- Decoding a JSON value into a fresh `[]Todo` map element: an array gives a
non-nil slice, `null` the nil slice. -/
def decodeSlice : JValue → Option store.TodoSlice
  | JValue.array elems => (decodeTodos elems).map some
  | JValue.null => some none
  | _ => none

/-- The members of an object stored in order into the map. -/
def decodeMapMembers (cur : store.ProjectMap) :
    List (GoString × JValue) → Option store.ProjectMap
  | [] => some cur
  | (key, v) :: rest =>
    match decodeSlice v with
    | none => none
    | some slice => decodeMapMembers (store.mapSet cur key slice) rest

/-- Decoding a JSON value into the field `Projects` holding `cur`: an object is
stored into the existing map (allocated when nil), `null` sets the nil map. -/
def decodeMap (cur : Option store.ProjectMap) : JValue → Option (Option store.ProjectMap)
  | JValue.object members => (decodeMapMembers (cur.getD []) members).map some
  | JValue.null => some none
  | _ => none

/-- The members of the top-level object decoded in order into the `Store`. -/
def decodeStoreMembers (cur : store.Store) : List (GoString × JValue) → Option store.Store
  | [] => some cur
  | (key, v) :: rest =>
    if keyMatches (lit "projects") key then
      match decodeMap cur.Projects v with
      | none => none
      | some m => decodeStoreMembers { Projects := m } rest
    else decodeStoreMembers cur rest

/-- Decoding the document value into the zero `Store`. -/
def decodeStore : JValue → Option store.Store
  | JValue.object members => decodeStoreMembers { Projects := none } members
  | JValue.null => some { Projects := none }
  | _ => none

/-- The call `json.Unmarshal(data, &s)` for `var s Store`: the decoded store, `none`
when an error is returned. -/
def Unmarshal (data : GoString) : Option store.Store :=
  match parseDocument data with
  | none => none
  | some v => decodeStore v

/-! ### The JSON value of a store (used to state what the decoder reads back) -/

/-- The JSON value the encoder writes for a `Todo`. -/
def todoValue (t : store.Todo) : JValue :=
  JValue.object
    [ (lit "comment", JValue.string (coerceUTF8 t.Comment)),
      (lit "file_path", JValue.string (coerceUTF8 t.FilePath)),
      (lit "line_number", JValue.number (formatInt t.LineNumber)),
      (lit "function", JValue.string (coerceUTF8 t.Function)) ]

/-- The JSON value the encoder writes for a `[]Todo`. -/
def sliceValue : store.TodoSlice → JValue
  | none => JValue.null
  | some ts => JValue.array (ts.map todoValue)

/-- The JSON value the encoder writes for the project map. -/
def mapValue : Option store.ProjectMap → JValue
  | none => JValue.null
  | some m =>
    JValue.object
      ((sortedKeys m).map (fun k => (coerceUTF8 k, sliceValue ((store.mapGet m k).getD none))))

/-- The JSON value the encoder writes for a `Store`. -/
def storeValue (s : store.Store) : JValue :=
  JValue.object [(lit "projects", mapValue s.Projects)]

/-- The text that follows a value inside an indented document: a comma or a line
break. -/
def GoodNext (X : GoString) : Prop := ∃ c X', X = c :: X' ∧ (c = 0x2C ∨ c = 0x0A)

/-- The text `V` is read as the value `v` whatever follows it. -/
def ParsesAny (V : GoString) (v : JValue) (depth : Nat) : Prop :=
  (∀ X, skipSpace (V ++ X) = V ++ X) ∧
  ∀ X f, 2 * (V ++ X).length ≤ f → parseValue f depth (V ++ X) = some (v, X)

/-- The text `V` is read as the value `v` when a comma or a line break follows. -/
def ParsesTo (V : GoString) (v : JValue) (depth : Nat) : Prop :=
  (∀ X, skipSpace (V ++ X) = V ++ X) ∧
  ∀ X f, GoodNext X → 2 * (V ++ X).length ≤ f → parseValue f depth (V ++ X) = some (v, X)

/-- A `Todo` whose strings are valid UTF-8 and whose line number is a 64-bit `int`. -/
def todoOK (t : store.Todo) : Bool :=
  utf8.ValidString t.Comment && utf8.ValidString t.FilePath &&
  utf8.ValidString t.Function &&
  decide (-(2 ^ 63 : Int) ≤ t.LineNumber) && decide (t.LineNumber < (2 ^ 63 : Int))

/-- A store in which every project name and every string of every annotation is
valid UTF-8 and every line number is a 64-bit `int`. -/
def storeOK (s : store.Store) : Bool :=
  match s.Projects with
  | none => true
  | some m => m.all (fun kv => utf8.ValidString kv.1 && (store.elems kv.2).all todoOK)

end json

/-! ## The store file: `os.ReadFile`, `os.WriteFile`, `Save`, `LoadStore` -/

namespace os

/-- The state of one path of the file system. -/
inductive FileState where
  | absent
  | unreadable
  | data (content : GoString)
  deriving DecidableEq, Repr

/-- The function `os.ReadFile`: the content, `none` when an error is returned. -/
def ReadFile : FileState → Option GoString
  | FileState.data content => some content
  | _ => none

/-- Whether `os.Stat` returns an error for which `os.IsNotExist` holds. -/
def statNotExist : FileState → Bool
  | FileState.absent => true
  | _ => false

/-- How a call of `os.WriteFile` goes: the open fails, the write stops with an error
after `written` bytes, or everything succeeds. -/
inductive WriteOutcome where
  | openFails
  | writeFails (written : Nat)
  | succeeds
  deriving DecidableEq, Repr

/-- The function `os.WriteFile(name, data, perm)`: open with
`O_WRONLY|O_CREATE|O_TRUNC`, write, close. The result is the state of the file
afterwards and whether an error is returned. -/
def WriteFile (f : FileState) (data : GoString) : WriteOutcome → FileState × Bool
  | WriteOutcome.openFails => (f, true)
  | WriteOutcome.writeFails written => (FileState.data (data.take written), true)
  | WriteOutcome.succeeds => (FileState.data data, false)

end os

namespace store

/-- The method `Save`: marshal, then `os.WriteFile`. -/
def Store.Save (s : Store) (f : os.FileState) (outcome : os.WriteOutcome) :
    os.FileState × Bool :=
  os.WriteFile f (json.MarshalIndent s) outcome

/-- The function `LoadStore`: `none` when an error is returned. -/
def LoadStore (f : os.FileState) : Option Store :=
  match os.ReadFile f with
  | none => none
  | some data => json.Unmarshal data

end store

/-! ## Package `internal/scan`: parsers and dispatch -/

namespace scan

/-- The two implementations of the interface `Scanner`. -/
inductive Scanner where
  | GoParser
  | ExternalParser (Command : GoString) (ExtensionsSupported : List GoString)
  deriving DecidableEq, Repr

/-- The method `SupportedExtensions` of both implementations. -/
def Scanner.SupportedExtensions : Scanner → List GoString
  | Scanner.GoParser => [lit ".go"]
  | Scanner.ExternalParser _ exts => exts

/-- The type `Manager`. -/
structure Manager where
  Parsers : List Scanner
  deriving DecidableEq, Repr

/-- The type `plugin.PluginConfig`. -/
structure PluginConfig where
  ID : GoString
  Language : GoString
  Command : GoString
  Extensions : List GoString
  deriving DecidableEq, Repr

/-- The loop of `NewManager` that appends one external parser per plugin. -/
def addExternal (parsers : List Scanner) : List PluginConfig → List Scanner
  | [] => parsers
  | cfg :: cfgs => addExternal (parsers ++ [Scanner.ExternalParser cfg.Command cfg.Extensions]) cfgs

/-- The function `NewManager`. `plugins` is the plugin list `LoadPlugins` leaves in the
plugin manager, `none` when loading fails; the manager is returned in both cases,
with a flag for the error. -/
def NewManager (plugins : Option (List PluginConfig)) : Manager × Bool :=
  let manager : Manager := { Parsers := [Scanner.GoParser] }
  match plugins with
  | none => (manager, true)
  | some cfgs => ({ Parsers := addExternal manager.Parsers cfgs }, false)

/-- Inner loop of `GetParser`: does the parser list the extension. -/
def supportsLoop (ext : GoString) : List GoString → Bool
  | [] => false
  | supported :: rest => if supported = ext then true else supportsLoop ext rest

/-- Outer loop of `GetParser`. -/
def getParserLoop (ext : GoString) : List Scanner → Option Scanner
  | [] => none
  | parser :: rest =>
    if supportsLoop ext parser.SupportedExtensions then some parser
    else getParserLoop ext rest

/-- The method `GetParser`: `none` is the error "no parsers available". -/
def Manager.GetParser (unicodeLower : GoString → GoString) (m : Manager) (path : GoString) :
    Option Scanner :=
  getParserLoop (strings.ToLower unicodeLower (filepath.Ext path)) m.Parsers

/-! ## The file tree and `filepath.Walk` -/

/-- A file-system object as `os.Lstat` and `readDirNames` show it to `filepath.Walk`.
The entries of a directory are listed in the order `readDirNames` returns them
(sorted by name). -/
inductive Node where
  | file
  | dir (entries : List (GoString × Node))
  | unreadableDir
  | lstatError
  deriving Repr

/-- The method `IsDir` of the `FileInfo` of a node. -/
def Node.IsDir : Node → Bool
  | Node.dir _ => true
  | Node.unreadableDir => true
  | _ => false

/-- The error values a `WalkFunc` returns besides `nil`. -/
inductive WalkErr where
  | SkipDir
  | SkipAll
  | other
  deriving DecidableEq, Repr

/-- The type `filepath.WalkFunc` over an explicit state: the arguments are the path,
the `IsDir` of the `FileInfo` (`none` for a nil `FileInfo`) and whether the error
argument is non-nil; the result is the new state and the returned error. -/
abbrev WalkFunc (σ : Type) := σ → GoString → Option Bool → Bool → σ × Option WalkErr

mutual
/-- The function `walk` of `path/filepath`: recursively descends `path`. It is only
called on a node whose `Lstat` succeeded. -/
def walk {σ : Type} (fn : WalkFunc σ) (path : GoString) : Node → σ → σ × Option WalkErr
  | Node.file, st => fn st path (some false) false
  | Node.lstatError, st => fn st path none true
  | Node.unreadableDir, st => fn st path (some true) true
  | Node.dir entries, st =>
    let r := fn st path (some true) false
    if r.2 ≠ none then r else walkEntries fn path entries r.1
/-- The loop of `walk` over the names of a directory. -/
def walkEntries {σ : Type} (fn : WalkFunc σ) (path : GoString) :
    List (GoString × Node) → σ → σ × Option WalkErr
  | [], st => (st, none)
  | (name, node) :: rest, st =>
    let filename := filepath.Join path name
    match node with
    | Node.lstatError =>
      let r := fn st filename none true
      if r.2 ≠ none ∧ r.2 ≠ some WalkErr.SkipDir then r else walkEntries fn path rest r.1
    | _ =>
      let r := walk fn filename node st
      if r.2 ≠ none ∧ (!node.IsDir ∨ r.2 ≠ some WalkErr.SkipDir) then r
      else walkEntries fn path rest r.1
end

/-- The function `filepath.Walk`. -/
def Walk {σ : Type} (fn : WalkFunc σ) (root : GoString) (tree : Node) (st : σ) :
    σ × Option WalkErr :=
  let r :=
    match tree with
    | Node.lstatError => fn st root none true
    | _ => walk fn root tree st
  if r.2 = some WalkErr.SkipDir ∨ r.2 = some WalkErr.SkipAll then (r.1, none) else r

/-! ## The scan engine -/

/-- The variables the walk callback of `RunScan` updates, and the log of the calls
it makes to `ParseFile`. -/
structure ScanState where
  currentTodos : List store.Todo
  todoCount : Nat
  fileCount : Nat
  parsed : List GoString
  deriving DecidableEq, Repr

/-- What `RunScan` reads from the outside world besides the store file. -/
structure ScanEnv where
  /-- The project tree under `projectPath`. -/
  tree : Node
  /-- The content of `<projectPath>/.ttignore`, `none` when it cannot be read. -/
  ttignore : Option GoString
  /-- The plugin list in the plugin configuration, `none` when it cannot be loaded. -/
  plugins : Option (List PluginConfig)
  /-- The result of `ParseFile` of a parser on a path, `none` when it returns an error. -/
  parseFile : Scanner → GoString → Option (List store.Todo)
  /-- The mapping `unicode.ToLower` over a non-ASCII string. -/
  unicodeLower : GoString → GoString

/-- The callback `RunScan` passes to `filepath.Walk`. -/
def scanCallback (env : ScanEnv) (mgr : Manager) (ignoreMgr : ignore.IgnoreManager) :
    WalkFunc ScanState :=
  fun st path info err =>
    if err then (st, none)
    else if ignoreMgr.ShouldIgnore path then
      if info = some true then (st, some WalkErr.SkipDir) else (st, none)
    else if info = some true then (st, none)
    else if filepath.Ext path = [] then (st, none)
    else
      let st1 := { st with fileCount := st.fileCount + 1 }
      match mgr.GetParser env.unicodeLower path with
      | none => (st1, none)
      | some parser =>
        let st2 := { st1 with parsed := st1.parsed ++ [path] }
        match env.parseFile parser path with
        | none => (st2, none)
        | some todos =>
          ({ st2 with
              todoCount := if todos.length > 0 then st2.todoCount + todos.length else st2.todoCount,
              currentTodos := st2.currentTodos ++ todos }, none)

/-- The walk of `RunScan`: manager, ignore manager and `filepath.Walk` over the
project, from the empty collection. -/
def scanWalk (env : ScanEnv) (projectPath : GoString) : ScanState × Option WalkErr :=
  Walk (scanCallback env (NewManager env.plugins).1 (ignore.scanIgnoreManager env.ttignore))
    projectPath env.tree
    { currentTodos := [], todoCount := 0, fileCount := 0, parsed := [] }

mutual
/-- The files the walk reaches, in traversal order: every non-directory entry that is
not below a directory rejected by the ignore filter. -/
def visitedFiles (ign : ignore.IgnoreManager) (path : GoString) : Node → List GoString
  | Node.file => [path]
  | Node.dir entries =>
    if ign.ShouldIgnore path then [] else visitedEntries ign path entries
  | Node.unreadableDir => []
  | Node.lstatError => []
/-- The files the walk reaches among the entries of a directory. -/
def visitedEntries (ign : ignore.IgnoreManager) (path : GoString) :
    List (GoString × Node) → List GoString
  | [] => []
  | (name, node) :: rest =>
    visitedFiles ign (filepath.Join path name) node ++ visitedEntries ign path rest
end

/-- The parse result a visited file contributes according to the specification: the
result of its parser when the file is not ignored, has an extension, a parser is
resolved and the parse succeeds; nothing otherwise. -/
def contribution (env : ScanEnv) (mgr : Manager) (ign : ignore.IgnoreManager)
    (path : GoString) : List store.Todo :=
  if ign.ShouldIgnore path then []
  else if filepath.Ext path = [] then []
  else
    match mgr.GetParser env.unicodeLower path with
    | none => []
    | some parser => (env.parseFile parser path).getD []

/-- Whether the specification lets a visited file contribute: not ignored, non-empty
extension, a parser is resolved, and its parse succeeds. -/
def contributes (env : ScanEnv) (mgr : Manager) (ign : ignore.IgnoreManager)
    (path : GoString) : Bool :=
  !(ign.ShouldIgnore path) && !(filepath.Ext path = []) &&
    (match mgr.GetParser env.unicodeLower path with
     | none => false
     | some parser => (env.parseFile parser path).isSome)

/-- The parse result of a file: what the parser resolved for it returns. -/
def parseResult (env : ScanEnv) (mgr : Manager) (path : GoString) : List store.Todo :=
  match mgr.GetParser env.unicodeLower path with
  | none => []
  | some parser => (env.parseFile parser path).getD []

/-- Whether a visited file is handed to a parser: not ignored, non-empty extension,
and a parser is resolved. -/
def parsable (env : ScanEnv) (mgr : Manager) (ign : ignore.IgnoreManager)
    (path : GoString) : Bool :=
  !(ign.ShouldIgnore path) && !(filepath.Ext path = []) &&
    (mgr.GetParser env.unicodeLower path).isSome

mutual
/-- All files of a tree with the directories above them (the root included when it is
a directory), outermost first. -/
def filesWithAncestors (path : GoString) (above : List GoString) :
    Node → List (GoString × List GoString)
  | Node.file => [(path, above)]
  | Node.dir entries => entriesWithAncestors path (above ++ [path]) entries
  | Node.unreadableDir => []
  | Node.lstatError => []
/-- All files below the entries of a directory, with the directories above them. -/
def entriesWithAncestors (path : GoString) (above : List GoString) :
    List (GoString × Node) → List (GoString × List GoString)
  | [] => []
  | (name, node) :: rest =>
    filesWithAncestors (filepath.Join path name) above node ++
      entriesWithAncestors path above rest
end

/-- How a call of `RunScan` ends. -/
inductive Outcome where
  | ok
  | error
  | panic
  deriving DecidableEq, Repr

/-- The part of the world `RunScan` touches besides the project tree. -/
structure StoreWorld where
  /-- Whether `os.MkdirAll` of the store directory fails. -/
  mkdirFails : Bool
  /-- The store file before the call. -/
  storeFile : os.FileState
  /-- How the final `os.WriteFile` goes. -/
  write : os.WriteOutcome

/-- The project name `RunScan` uses: the directory name when none is provided. -/
def effectiveName (projectPath projectName : GoString) : GoString :=
  if projectName = [] then filepath.Base projectPath else projectName

/-- The store `RunScan` starts from and the flag `storeExists`: the loaded store when
the file is there and loads, a new store otherwise. -/
def loadOrNew (storeFile : os.FileState) : store.Store × Bool :=
  if !(os.statNotExist storeFile) then
    match store.LoadStore storeFile with
    | some existingStore => (existingStore, true)
    | none => (store.NewStore, false)
  else (store.NewStore, false)

/-- The store update at the end of `RunScan`. -/
def storeUpdate (st : store.Store) (storeExists : Bool) (projectName : GoString)
    (currentTodos : List store.Todo) : Option store.Store :=
  if storeExists then st.UpdateProject projectName (some currentTodos)
  else st.AddProject projectName (some currentTodos)

/-- The result of `RunScan`: how it ends, the store file afterwards, and the store
value it handed to `Save` (if it got that far). -/
structure RunResult where
  outcome : Outcome
  storeFile : os.FileState
  saved : Option store.Store

/-- The function `RunScan(projectPath, projectName, pluginConfigPath, storeFile)`. The
store file and what the call reads besides it are the states `w` and `env`; the
parameter `pluginConfigPath` is not used by the code (`NewManager` ignores it). -/
def RunScan (env : ScanEnv) (w : StoreWorld) (projectPath projectName0 : GoString) :
    RunResult :=
  let projectName := effectiveName projectPath projectName0
  if w.mkdirFails then { outcome := Outcome.error, storeFile := w.storeFile, saved := none }
  else
    let (st, storeExists) := loadOrNew w.storeFile
    let walked := scanWalk env projectPath
    if walked.2 ≠ none then
      { outcome := Outcome.error, storeFile := w.storeFile, saved := none }
    else
      match storeUpdate st storeExists projectName walked.1.currentTodos with
      | none => { outcome := Outcome.panic, storeFile := w.storeFile, saved := none }
      | some st1 =>
        let r := st1.Save w.storeFile w.write
        { outcome := if r.2 then Outcome.error else Outcome.ok,
          storeFile := r.1, saved := some st1 }

/-! ### Concrete inputs used to instantiate the theorems -/

/-- A project with one Go file, no plugins and no ignore file; the Go parser reports
one annotation in every file it is given. -/
def demoEnv : ScanEnv :=
  { tree := Node.dir [(lit "a.go", Node.file), (lit "notes", Node.file)],
    ttignore := none,
    plugins := none,
    parseFile := fun _ p => some [{ Comment := lit "// TODO: x", FilePath := p, LineNumber := 3,
                                    Function := lit "main" }],
    unicodeLower := fun s => s }

/-- The same project with a second Go file inside a `build` directory. -/
def prunedEnv : ScanEnv :=
  { demoEnv with
    tree := Node.dir [(lit "a.go", Node.file), (lit "build", Node.dir [(lit "b.go", Node.file)])] }

/-- A store file holding one other project, and a write that succeeds. -/
def demoWorld : StoreWorld :=
  { mkdirFails := false,
    storeFile := os.FileState.data (lit "\x7b\"projects\": \x7b\"other\": []\x7d\x7d"),
    write := os.WriteOutcome.succeeds }

/-- A store with a nil slice, an empty slice and non-ASCII text. -/
def demoStore : store.Store :=
  { Projects := some
      [ (lit "zeta", some []),
        (lit "alpha", some [{ Comment := lit "// TODO: café <b> \"q\"", FilePath := lit "/p/a.go",
                              LineNumber := 10, Function := lit "Foo" }]),
        (lit "nil", none) ] }

/-- A store whose one annotation has a comment that is not valid UTF-8 (the single
byte 0xFF). -/
def badStore : store.Store :=
  { Projects := some
      [ (lit "p", some [{ Comment := [0xFF], FilePath := lit "a.go", LineNumber := 1,
                          Function := [] }]) ] }

end scan

/-! ## Package `internal/store`: incremental addition -/

namespace store

/-- The loop of `AddTodo` that looks for an annotation with the same file path and
line number. -/
def hasSameKey (todo : Todo) : List Todo → Bool
  | [] => false
  | existing :: rest =>
    if existing.FilePath = todo.FilePath ∧ existing.LineNumber = todo.LineNumber then true
    else hasSameKey todo rest

/-- The method `AddTodo`: adds a Todo to the given project, avoiding duplicates. A
missing project is first given the empty slice, which on a nil map is a run-time
panic (`none`). -/
def Store.AddTodo (s : Store) (projectName : GoString) (todo : Todo) : Option Store :=
  match s.Projects with
  | none => none
  | some m =>
    let m1 := if (mapGet m projectName).isNone then mapSet m projectName (some []) else m
    let current := (mapGet m1 projectName).getD none
    if hasSameKey todo (elems current) then some { Projects := some m1 }
    else some { Projects := some (mapSet m1 projectName (some (elems current ++ [todo]))) }

/-- The identity key of an annotation: file path and line number. -/
def Todo.key (t : Todo) : GoString × Int := (t.FilePath, t.LineNumber)

end store

/-! ## Package `regexp`

The two patterns of the program use literals, character classes, `.`, greedy `*` and
`+` over a single character, alternation and capture groups. The matcher below is the
backtracking search whose first result `regexp` promises for patterns compiled with
`MustCompile` (leftmost-first matching). It works on bytes: every class of the two
patterns either holds ASCII characters only or holds every byte of a non-ASCII
character, so the byte-wise match has the same extent as the rune-wise one. -/

namespace regexp

/-- The syntax of a pattern. -/
inductive Regex where
  | empty
  | char (c : Nat)
  | cls (p : Nat → Bool)
  | star (p : Nat → Bool)
  | plus (p : Nat → Bool)
  | seq (a b : Regex)
  | alt (a b : Regex)
  | group (i : Nat) (a : Regex)

/-- A literal string as a pattern. -/
def word : GoString → Regex
  | [] => Regex.empty
  | c :: cs => Regex.seq (Regex.char c) (word cs)

/-- The class of `.`: any character but the line feed. -/
def dot (c : Nat) : Bool := c ≠ 0x0A

/-- The class `\s`: tab, line feed, form feed, carriage return, blank. -/
def perlSpace (c : Nat) : Bool := c = 0x09 || c = 0x0A || c = 0x0C || c = 0x0D || c = 0x20

/-- The text captured so far for each group number (latest first). -/
abbrev Captures := List (Nat × GoString)

/-- Greedy repetition of a class: the longest run first, then shorter ones. -/
def starLoop {β : Type} (p : Nat → Bool) (k : GoString → Option β) : GoString → Option β
  | [] => k []
  | c :: t =>
    if p c then
      match starLoop p k t with
      | some r => some r
      | none => k (c :: t)
    else k (c :: t)

/-- Matches the pattern at the start of `s` and hands the rest of the input to the
continuation; alternatives are tried in priority order and the first success is
the result. -/
def run {β : Type} : Regex → GoString → Captures → (GoString → Captures → Option β) → Option β
  | Regex.empty, s, caps, k => k s caps
  | Regex.char c, s, caps, k =>
    match s with
    | [] => none
    | x :: t => if x = c then k t caps else none
  | Regex.cls p, s, caps, k =>
    match s with
    | [] => none
    | x :: t => if p x then k t caps else none
  | Regex.star p, s, caps, k => starLoop p (fun r => k r caps) s
  | Regex.plus p, s, caps, k =>
    match s with
    | [] => none
    | x :: t => if p x then starLoop p (fun r => k r caps) t else none
  | Regex.seq a b, s, caps, k => run a s caps (fun r caps1 => run b r caps1 k)
  | Regex.alt a b, s, caps, k =>
    match run a s caps k with
    | some r => some r
    | none => run b s caps k
  | Regex.group i a, s, caps, k =>
    run a s caps (fun r caps1 => k r ((i, s.take (s.length - r.length)) :: caps1))

/-- A match that starts at the first byte of `s`: the captures, group 0 being the whole
match. -/
def matchHere (re : Regex) (s : GoString) : Option Captures :=
  run (Regex.group 0 re) s [] (fun _ caps => some caps)

/-- The leftmost match of an unanchored pattern. -/
def search (re : Regex) : GoString → Option Captures
  | [] => matchHere re []
  | c :: t =>
    match matchHere re (c :: t) with
    | some caps => some caps
    | none => search re t

/-- The text of a group in a match (empty when the group took no part). -/
def groupText (caps : Captures) (i : Nat) : GoString :=
  match caps.find? (fun g => g.1 = i) with
  | some g => g.2
  | none => []

/-- The method `MatchString`. -/
def MatchString (re : Regex) (s : GoString) : Bool := (search re s).isSome

/-- The method `FindStringSubmatch` of a pattern with `n` groups: the whole match and
the groups, or nil (the empty list) when there is no match. -/
def FindStringSubmatch (re : Regex) (n : Nat) (s : GoString) : List GoString :=
  match search re s with
  | none => []
  | some caps => (List.range (n + 1)).map (groupText caps)

end regexp

/-! ## Package `fmt`: scanning a decimal integer -/

namespace fmt

/-- The predicate `isSpace` of the scanner (its own table of Unicode spaces). -/
def isSpace (r : Nat) : Bool :=
  (0x0009 ≤ r && r ≤ 0x000D) || r = 0x0020 || r = 0x0085 || r = 0x00A0 || r = 0x1680 ||
  (0x2000 ≤ r && r ≤ 0x200A) || (0x2028 ≤ r && r ≤ 0x2029) || r = 0x202F || r = 0x205F ||
  r = 0x3000

/-- The method `SkipSpace` of the scan state for `Sscanf`, where a line feed is not a
space but an error (`none`). -/
def SkipSpace : Nat → GoString → Option GoString
  | 0, s => some s
  | fuel + 1, s =>
    match s with
    | [] => some []
    | _ :: _ =>
      let (r, n) := utf8.DecodeRune s
      if r = 0x0A then none
      else if isSpace r then SkipSpace fuel (s.drop n) else some s

/-- Whether a byte is a decimal digit. -/
def isDigit (c : Nat) : Bool := 0x30 ≤ c && c ≤ 0x39

/-- The value of a string of decimal digits. -/
def digitsValue (ds : GoString) : Nat := ds.foldl (fun acc d => 10 * acc + (d - 0x30)) 0

/-- The method `scanInt` for the verb `%d` and a 64-bit `int`: white space, an optional
sign, one or more decimal digits; the token is converted by `strconv.ParseInt(tok, 10,
64)`, which fails outside the range of `int64`. `none` is a scan error. -/
def scanInt (s : GoString) : Option Int :=
  match SkipSpace s.length s with
  | none => none
  | some s1 =>
    match s1 with
    | [] => none
    | c :: rest =>
      let negative := c = 0x2D
      let afterSign := if c = 0x2B ∨ c = 0x2D then rest else s1
      let digits := afterSign.takeWhile isDigit
      if digits = [] then none
      else
        let v := digitsValue digits
        if negative then (if v ≤ 2 ^ 63 then some (-(v : Int)) else none)
        else (if v < 2 ^ 63 then some (v : Int) else none)

/-- The call `Sscanf(str, "%d", &num)` on a variable holding `num0`: the value of the
variable afterwards (unchanged when the scan fails). -/
def SscanfInt (str : GoString) (num0 : Int) : Int :=
  match scanInt str with
  | some v => v
  | none => num0

end fmt

namespace strings

/-- The function `strings.SplitN(s, sep, 2)` for a one-byte separator: `s` cut at the
first occurrence of `sep`, or `s` alone when there is none. -/
def SplitN2 (s : GoString) (sep : Nat) : List GoString :=
  if s.contains sep then
    [s.takeWhile (fun c => c ≠ sep), (s.dropWhile (fun c => c ≠ sep)).drop 1]
  else [s]

/-- A byte that white-space trimming may remove: an ASCII space or a byte of a
multi-byte character. -/
def trimmable (x : Nat) : Prop := IsSpace x = true ∨ 0x80 ≤ x

end strings

/-! ## Package `internal/scan`: the external and the built-in parser -/

namespace scan

/-- The part `\s+\[in function\s+([^\]]+)\]` of the pattern of the function suffix. -/
def functionSuffix : regexp.Regex :=
  regexp.Regex.seq (regexp.Regex.plus regexp.perlSpace)
    (regexp.Regex.seq (regexp.word (lit "[in function"))
      (regexp.Regex.seq (regexp.Regex.plus regexp.perlSpace)
        (regexp.Regex.seq (regexp.Regex.group 2 (regexp.Regex.plus (fun c => c ≠ 0x5D)))
          (regexp.Regex.char 0x5D))))

/-- The pattern of the function suffix, written `(.*)\s+\[in function\s+([^\]]+)\]` in
the source. -/
def functionRegex : regexp.Regex :=
  regexp.Regex.seq (regexp.Regex.group 1 (regexp.Regex.star regexp.dot)) functionSuffix

/-- The function `parseLineNumber`. -/
def parseLineNumber (line : GoString) : Int := fmt.SscanfInt line 0

/-- The annotation `ExternalParser.ParseFile` builds from the two parts of an output
line. -/
def lineTodo (filePath : GoString) (part0 part1 : GoString) : store.Todo :=
  let lineNumber := parseLineNumber part0
  let commentText := strings.TrimSpace part1
  let functionMatch := regexp.FindStringSubmatch functionRegex 2 commentText
  if functionMatch.length = 3 then
    store.Todo.mk (strings.TrimSpace (functionMatch.getD 1 [])) filePath lineNumber
      (functionMatch.getD 2 [])
  else store.Todo.mk commentText filePath lineNumber []

/-- One round of the loop of `ExternalParser.ParseFile` over the output lines. -/
def externalLine (filePath : GoString) (todos : List store.Todo) (line0 : GoString) :
    List store.Todo :=
  let line := strings.TrimSpace line0
  if line = [] then todos
  else
    let parts := strings.SplitN2 line 0x3A
    if parts.length ≠ 2 then todos
    else todos ++ [lineTodo filePath (parts.getD 0 []) (parts.getD 1 [])]

/-- The annotation that `ExternalParser.ParseFile` appends for an output line it keeps:
the line is trimmed and cut at the first colon. -/
def annotationOfLine (filePath line0 : GoString) : store.Todo :=
  lineTodo filePath ((strings.SplitN2 (strings.TrimSpace line0) 0x3A).getD 0 [])
    ((strings.SplitN2 (strings.TrimSpace line0) 0x3A).getD 1 [])

/-- The method `ExternalParser.ParseFile`. `output` is what the command prints on its
standard output, `none` when running it fails (the method then returns an error,
`none`). -/
def ExternalParser.ParseFile (output : Option GoString) (filePath : GoString) :
    Option (List store.Todo) :=
  match output with
  | none => none
  | some out => some ((strings.Split out 0x0A).foldl (externalLine filePath) [])

/-- The variable `todoRegex`, written `.*\s(TODO|FIXME)[\s:\(\[]` in the source. -/
def todoRegex : regexp.Regex :=
  regexp.Regex.seq (regexp.Regex.star regexp.dot)
    (regexp.Regex.seq (regexp.Regex.cls regexp.perlSpace)
      (regexp.Regex.seq
        (regexp.Regex.group 1
          (regexp.Regex.alt (regexp.word (lit "TODO")) (regexp.word (lit "FIXME"))))
        (regexp.Regex.cls (fun c => regexp.perlSpace c || c = 0x3A || c = 0x28 || c = 0x5B))))

/-- A comment of the syntax tree (`ast.Comment`): its text as written in the file,
comment markers included, the position of its first character, and the line the
file set gives for that position. -/
structure Comment where
  Text : GoString
  Slash : Nat
  Line : Int
  deriving DecidableEq, Repr

/-- A top-level declaration (`ast.Decl`): a function declaration with its name and
the positions `Pos()` and `End()`, or any other declaration. Function declarations
occur nowhere else in a syntax tree. -/
inductive Decl where
  | FuncDecl (Name : GoString) (Pos End : Nat)
  | other
  deriving DecidableEq, Repr

/-- What `ParseFile` reads of the syntax tree (`ast.File`) that `parser.ParseFile`
returns: the comment groups and the declarations, in source order. -/
structure File where
  Comments : List (List Comment)
  Decls : List Decl
  deriving DecidableEq, Repr

/-- The function `findEnclosingFunction`. `ast.Inspect` calls the function literal on
every node; at a function declaration whose span holds the position it assigns the
name and returns false, which skips the children of that declaration and goes on
with the next one. -/
def findEnclosingFunction (node : File) (pos : Nat) : GoString :=
  node.Decls.foldl
    (fun funcName d =>
      match d with
      | Decl.FuncDecl name p e => if p ≤ pos ∧ pos ≤ e then name else funcName
      | Decl.other => funcName)
    []

/-- One round of the inner loop of `GoParser.ParseFile`. -/
def goComment (node : File) (filePath : GoString) (todos : List store.Todo) (c : Comment) :
    List store.Todo :=
  if regexp.MatchString todoRegex c.Text then
    todos ++ [store.Todo.mk c.Text filePath c.Line (findEnclosingFunction node c.Slash)]
  else todos

/-- The method `GoParser.ParseFile`. `parsed` is the syntax tree `parser.ParseFile`
returns for the file, `none` when it returns an error. -/
def GoParser.ParseFile (parsed : Option File) (filePath : GoString) :
    Option (List store.Todo) :=
  match parsed with
  | none => none
  | some node =>
    some (node.Comments.foldl (fun todos cg => cg.foldl (goComment node filePath) todos) [])

/-- A Go file with the comment `// TODO: fix this` on line 10, inside the function
`Foo` that spans the positions 100 to 200. -/
def fooFile : File :=
  File.mk [[Comment.mk (lit "// TODO: fix this") 150 10]] [Decl.FuncDecl (lit "Foo") 100 200]

end scan

/-! ## Package `path/filepath`: relative paths -/

namespace filepath

/-- The function `filepath.IsAbs` (Unix). -/
def IsAbs (path : GoString) : Bool := strings.HasPrefix path [Separator]

/-- The function `filepath.Abs`. `cwd` is what `os.Getwd` returns, `none` when it
fails; the result is `none` when an error is returned. -/
def Abs (cwd : Option GoString) (path : GoString) : Option GoString :=
  if IsAbs path then some (Clean path)
  else
    match cwd with
    | none => none
    | some wd => some (Join wd path)

/-- The end of `filepath.Rel`, after the loop has stopped with `base` and `targ` cut
down to their parts from `b0` and `t0` on; `elem` is `base[b0:bi]`. -/
def relFinish (base elem targ : GoString) : Option GoString :=
  if elem = lit ".." then none
  else if base ≠ [] then
    some (lit ".." ++
      (List.replicate (base.count Separator) (Separator :: lit "..")).flatten ++
      (if targ ≠ [] then Separator :: targ else []))
  else some targ

/-- The loop of `filepath.Rel` that skips the leading elements `base` and `targ` have
in common. The arguments are `base[b0:]` and `targ[t0:]`. -/
def relLoop : Nat → GoString → GoString → Option GoString
  | 0, base, targ => relFinish base [] targ
  | fuel + 1, base, targ =>
    if base ≠ [] ∧ targ ≠ [] then
      let belem := base.takeWhile (fun c => c ≠ Separator)
      let telem := targ.takeWhile (fun c => c ≠ Separator)
      if telem ≠ belem then relFinish base belem targ
      else relLoop fuel (base.drop (belem.length + 1)) (targ.drop (telem.length + 1))
    else relFinish base [] targ

/-- The function `filepath.Rel` (Unix): a relative path that is lexically equivalent
to `targpath` when joined to `basepath`; `none` when an error is returned. -/
def Rel (basepath targpath : GoString) : Option GoString :=
  let base := Clean basepath
  let targ := Clean targpath
  if targ = base then some (lit ".")
  else
    let base1 := if base = lit "." then [] else base
    let baseSlashed := base1.head? = some Separator
    let targSlashed := targ.head? = some Separator
    if baseSlashed ≠ targSlashed then none
    else relLoop (base1.length + 1) base1 targ

end filepath

/-! ## The walk: what it reaches -/

namespace scan

mutual
/-- The entries on which a walk that prunes ignored directories calls its callback
without an error and goes on: every file it comes to (`false`) and every directory
that is not ignored (`true`), in traversal order. -/
def reached (ign : ignore.IgnoreManager) (path : GoString) : Node → List (GoString × Bool)
  | Node.file => [(path, false)]
  | Node.dir entries =>
    if ign.ShouldIgnore path then [] else (path, true) :: reachedEntries ign path entries
  | Node.unreadableDir => []
  | Node.lstatError => []
/-- The entries reached below a directory. -/
def reachedEntries (ign : ignore.IgnoreManager) (path : GoString) :
    List (GoString × Node) → List (GoString × Bool)
  | [] => []
  | (name, node) :: rest =>
    reached ign (filepath.Join path name) node ++ reachedEntries ign path rest
end

mutual
/-- The paths of all directories of a tree. -/
def allDirs (path : GoString) : Node → List GoString
  | Node.file => []
  | Node.dir entries => path :: allDirsEntries path entries
  | Node.unreadableDir => [path]
  | Node.lstatError => []
/-- The paths of all directories below a directory. -/
def allDirsEntries (path : GoString) : List (GoString × Node) → List GoString
  | [] => []
  | (name, node) :: rest => allDirs (filepath.Join path name) node ++ allDirsEntries path rest
end

mutual
/-- All files of a tree, each with the directory that holds it (`none` for the root). -/
def filesWithParent (path : GoString) (parent : Option GoString) :
    Node → List (GoString × Option GoString)
  | Node.file => [(path, parent)]
  | Node.dir entries => entriesWithParent path entries
  | Node.unreadableDir => []
  | Node.lstatError => []
/-- All files below a directory, each with the directory that holds it. -/
def entriesWithParent (path : GoString) :
    List (GoString × Node) → List (GoString × Option GoString)
  | [] => []
  | (name, node) :: rest =>
    filesWithParent (filepath.Join path name) (some path) node ++ entriesWithParent path rest
end

/-- Whether the directory that holds a file is in the watch set. -/
def parentWatched (watched : List GoString) (fp : GoString × Option GoString) : Bool :=
  match fp.2 with
  | some d => decide (d ∈ watched)
  | none => false

/-- The files of a tree whose containing directory is in the watch set. -/
def filesInWatched (watched : List GoString) (root : GoString) (tree : Node) : List GoString :=
  ((filesWithParent root none tree).filter (parentWatched watched)).map Prod.fst

/-- A walk callback that also keeps a log of the files it is called on. -/
def traceFiles {σ : Type} (fn : WalkFunc σ) : WalkFunc (σ × List GoString) :=
  fun st path info err =>
    (((fn st.1 path info err).1, if info = some false then st.2 ++ [path] else st.2),
      (fn st.1 path info err).2)

/-- The files the walk of `RunScan` calls its callback on, in order. -/
def scanVisited (env : ScanEnv) (projectPath : GoString) : List GoString :=
  (Walk
    (traceFiles
      (scanCallback env (NewManager env.plugins).1 (ignore.scanIgnoreManager env.ttignore)))
    projectPath env.tree
    ({ currentTodos := [], todoCount := 0, fileCount := 0, parsed := [] }, [])).1.2

end scan

/-! ## Package `internal/watcher` -/

namespace watcher

/-- The fields of `ProjectWatcher` that the event handling reads and writes. `watched`
holds the paths the `fsnotify` watcher accepted, `changes` the pending changes (a
path with the time of its last event), `spawned` the calls `go pw.scanProject(name,
path)` made so far. Maps are lists of distinct keys; a `range` statement yields the
entries in the order of the list. -/
structure ProjectWatcher where
  watched : List GoString
  projects : List (GoString × GoString)
  debounceTime : Int
  changes : List (GoString × Int)
  ignoreMgr : ignore.IgnoreManager
  spawned : List (GoString × GoString)
  deriving DecidableEq, Repr

/-- The function `NewProjectWatcher`: no project, no pending change, the default ignore
patterns, a debounce time of two seconds (in nanoseconds). -/
def NewProjectWatcher : ProjectWatcher :=
  { watched := [], projects := [], debounceTime := 2 * 1000000000, changes := [],
    ignoreMgr := ignore.addPatterns ignore.NewIgnoreManager ignore.GetDefaultPatterns,
    spawned := [] }

/-- The callback `watchProject` passes to `filepath.Walk`, over the watch set.
`addFails` tells for which paths `watcher.Add` returns an error. -/
def watchCallback (addFails : GoString → Bool) (ignoreMgr : ignore.IgnoreManager) :
    scan.WalkFunc (List GoString) :=
  fun watched subpath info err =>
    if err then (watched, none)
    else if ignoreMgr.ShouldIgnore subpath then
      if info = some true then (watched, some scan.WalkErr.SkipDir) else (watched, none)
    else if info = some true then
      (if addFails subpath then watched else watched ++ [subpath], none)
    else (watched, none)

/-- The method `watchProject`. `tree` is what is at `path`, `ttignore` the content of
`<path>/.ttignore` (`none` when it cannot be read). The result is the watcher
afterwards and whether an error is returned. -/
def ProjectWatcher.watchProject (pw : ProjectWatcher) (tree : scan.Node)
    (ttignore : Option GoString) (addFails : GoString → Bool) (path : GoString) :
    ProjectWatcher × Bool :=
  match tree with
  | scan.Node.lstatError => (pw, true)
  | scan.Node.file => (pw, true)
  | _ =>
    let pw1 := { pw with ignoreMgr := (pw.ignoreMgr.LoadFromFile ttignore).1 }
    if addFails path then (pw1, true)
    else
      let r := scan.Walk (watchCallback addFails pw1.ignoreMgr) path tree (pw1.watched ++ [path])
      ({ pw1 with watched := r.1 }, decide (r.2 ≠ none))

/-- The function `isInDirectory`. -/
def isInDirectory (cwd : Option GoString) (path dir : GoString) : Bool :=
  match filepath.Abs cwd path with
  | none => false
  | some absPath =>
    match filepath.Abs cwd dir with
    | none => false
    | some absDir =>
      match filepath.Rel absDir absPath with
      | none => false
      | some rel => !filepath.IsAbs rel && !strings.HasPrefix rel (lit "..")

/-- What an event handler reads from the outside world. -/
structure EventEnv where
  /-- The result of `os.Stat`: `none` for an error, else whether it is a directory. -/
  stat : GoString → Option Bool
  /-- The value of `time.Now()`, in nanoseconds. -/
  now : Int
  /-- The working directory, `none` when `os.Getwd` fails. -/
  cwd : Option GoString
  /-- For which paths `watcher.Add` returns an error. -/
  addFails : GoString → Bool
  /-- The mapping `unicode.ToLower` over a non-ASCII string. -/
  unicodeLower : GoString → GoString

/-- The loop `for name, projPath := range pw.projects` that stops at the first project
whose directory holds the path. -/
def findProject (cwd : Option GoString) (projects : List (GoString × GoString))
    (path : GoString) : Option (GoString × GoString) :=
  projects.find? (fun np => isInDirectory cwd path np.2)

/-- Map assignment `pw.changes[path] = t`. -/
def setChange (changes : List (GoString × Int)) (path : GoString) (t : Int) :
    List (GoString × Int) :=
  match changes with
  | [] => [(path, t)]
  | (k, v) :: rest => if k = path then (k, t) :: rest else (k, v) :: setChange rest path t

/-- The method `handleFileChange`. -/
def ProjectWatcher.handleFileChange (env : EventEnv) (pw : ProjectWatcher) (path : GoString) :
    ProjectWatcher :=
  if filepath.Base path = lit "todos.json" ∨ filepath.Base path = lit "config.json" then pw
  else if pw.ignoreMgr.ShouldIgnore path then pw
  else
    match env.stat path with
    | none => pw
    | some true => if env.addFails path then pw else { pw with watched := pw.watched ++ [path] }
    | some false =>
      let ext := strings.ToLower env.unicodeLower (filepath.Ext path)
      if ext = [] then pw
      else
        let found := (findProject env.cwd pw.projects path).getD ([], [])
        if found.1 = [] then { pw with changes := setChange pw.changes path env.now }
        else if ext = lit ".go" then { pw with spawned := pw.spawned ++ [found] }
        else { pw with changes := setChange pw.changes path env.now }

/-- A watcher that tracks the project `p` at `/p`. -/
def demoWatcher : ProjectWatcher := { NewProjectWatcher with projects := [(lit "p", lit "/p")] }

end watcher

/-! ## Concrete inputs for the parsers, the store and the watcher -/

namespace scan

/-- The Go file `package p`, new line, `func A() {}// TODO: x`: the declaration of `A`
starts at position 11 and ends at position 22, right after its closing brace, where
the comment starts (line 2). -/
def braceFile : File :=
  File.mk [[Comment.mk (lit "// TODO: x") 22 2]] [Decl.FuncDecl (lit "A") 11 22]

/-- A store file that holds the JSON object without members, and a write that
succeeds. -/
def emptyObjectWorld : StoreWorld :=
  { mkdirFails := false, storeFile := os.FileState.data (lit "\x7b\x7d"),
    write := os.WriteOutcome.succeeds }

/-- A store file that holds text that is not JSON, and a write that succeeds. -/
def brokenWorld : StoreWorld :=
  { mkdirFails := false, storeFile := os.FileState.data (lit "not json"),
    write := os.WriteOutcome.succeeds }

end scan

namespace watcher

/-- A world in which no path exists. -/
def emptyWorld (now : Int) : EventEnv :=
  { stat := fun _ => none, now := now, cwd := some (lit "/"), addFails := fun _ => false,
    unicodeLower := fun s => s }

end watcher

/-! ## Concrete inputs: a project named by the replacement character -/

namespace scan

/-- A store file that holds one project, named by the replacement character U+FFFD
(the bytes EF BF BD) and without annotations, and a write that succeeds. -/
def replacementWorld : StoreWorld :=
  { mkdirFails := false,
    storeFile := os.FileState.data
      (lit "\x7b\"projects\": \x7b\"" ++ [0xEF, 0xBF, 0xBD] ++ lit "\": []\x7d\x7d"),
    write := os.WriteOutcome.succeeds }

end scan

/-! ## Theorems: UTF-8 -/

namespace utf8

/-- What a successful multi-byte decode looks like. -/
theorem DecodeRune_cases (s : GoString) :
    (s = [] ∧ DecodeRune s = (RuneError, 0)) ∨
    (DecodeRune s = (RuneError, 1) ∧ s ≠ []) ∨
    (∃ a t, s = a :: t ∧ a < 0x80 ∧ DecodeRune s = (a, 1)) ∨
    (∃ a b t, s = a :: b :: t ∧ 0xC2 ≤ a ∧ a ≤ 0xDF ∧ 0x80 ≤ b ∧ b ≤ 0xBF ∧
      DecodeRune s = ((a % 32) * 64 + b % 64, 2)) ∨
    (∃ a b c t, s = a :: b :: c :: t ∧ 0xE0 ≤ a ∧ a ≤ 0xEF ∧
      (if a = 0xE0 then 0xA0 else 0x80) ≤ b ∧ b ≤ (if a = 0xED then 0x9F else 0xBF) ∧
      0x80 ≤ c ∧ c ≤ 0xBF ∧
      DecodeRune s = ((a % 16) * 4096 + (b % 64) * 64 + c % 64, 3)) ∨
    (∃ a b c d t, s = a :: b :: c :: d :: t ∧ 0xF0 ≤ a ∧ a ≤ 0xF4 ∧
      (if a = 0xF0 then 0x90 else 0x80) ≤ b ∧ b ≤ (if a = 0xF4 then 0x8F else 0xBF) ∧
      0x80 ≤ c ∧ c ≤ 0xBF ∧ 0x80 ≤ d ∧ d ≤ 0xBF ∧
      DecodeRune s = ((a % 8) * 262144 + (b % 64) * 4096 + (c % 64) * 64 + d % 64, 4)) := by
  match s with
  | [] => left; simp [DecodeRune]
  | [a] =>
    right
    by_cases h1 : a < 0x80
    · right; left; exact ⟨a, [], rfl, h1, by simp [DecodeRune, h1]⟩
    · left
      refine ⟨?_, by simp⟩
      simp only [DecodeRune, h1, if_false]
      split_ifs <;> rfl
  | [a, b] =>
    right
    by_cases h1 : a < 0x80
    · right; left; exact ⟨a, [b], rfl, h1, by simp [DecodeRune, h1]⟩
    · by_cases h2 : a < 0xC2
      · left; exact ⟨by simp [DecodeRune, h1, h2], by simp⟩
      · by_cases h3 : a ≤ 0xDF
        · by_cases hc : isCont b = true
          · right; right; left
            refine ⟨a, b, [], rfl, by omega, h3, ?_, ?_, by simp [DecodeRune, h1, h2, h3, hc]⟩
            · simp [isCont] at hc; omega
            · simp [isCont] at hc; omega
          · left; exact ⟨by simp [DecodeRune, h1, h2, h3, hc], by simp⟩
        · left
          refine ⟨?_, by simp⟩
          simp only [DecodeRune, h1, h2, h3, if_false]
          split_ifs <;> rfl
  | [a, b, c] =>
    right
    by_cases h1 : a < 0x80
    · right; left; exact ⟨a, [b, c], rfl, h1, by simp [DecodeRune, h1]⟩
    · by_cases h2 : a < 0xC2
      · left; exact ⟨by simp [DecodeRune, h1, h2], by simp⟩
      · by_cases h3 : a ≤ 0xDF
        · by_cases hc : isCont b = true
          · right; right; left
            refine ⟨a, b, [c], rfl, by omega, h3, ?_, ?_, by simp [DecodeRune, h1, h2, h3, hc]⟩
            · simp [isCont] at hc; omega
            · simp [isCont] at hc; omega
          · left; exact ⟨by simp [DecodeRune, h1, h2, h3, hc], by simp⟩
        · by_cases h4 : a ≤ 0xEF
          · by_cases hb : b < (if a = 0xE0 then 0xA0 else 0x80) ∨ (if a = 0xED then 0x9F else 0xBF) < b
            · left; exact ⟨by simp [DecodeRune, h1, h2, h3, h4, hb], by simp⟩
            · by_cases hc : isCont c = true
              · right; right; right; left
                refine ⟨a, b, c, [], rfl, by omega, h4, by omega, by omega, ?_, ?_,
                  by simp [DecodeRune, h1, h2, h3, h4, hb, hc]⟩
                · simp [isCont] at hc; omega
                · simp [isCont] at hc; omega
              · left; exact ⟨by simp [DecodeRune, h1, h2, h3, h4, hb, hc], by simp⟩
          · left
            refine ⟨?_, by simp⟩
            simp only [DecodeRune, h1, h2, h3, h4, if_false]
            split_ifs <;> rfl
  | a :: b :: c :: d :: t =>
    right
    by_cases h1 : a < 0x80
    · right; left; exact ⟨a, _, rfl, h1, by simp [DecodeRune, h1]⟩
    · by_cases h2 : a < 0xC2
      · left; exact ⟨by simp [DecodeRune, h1, h2], by simp⟩
      · by_cases h3 : a ≤ 0xDF
        · by_cases hc : isCont b = true
          · right; right; left
            refine ⟨a, b, _, rfl, by omega, h3, ?_, ?_, by simp [DecodeRune, h1, h2, h3, hc]⟩
            · simp [isCont] at hc; omega
            · simp [isCont] at hc; omega
          · left; exact ⟨by simp [DecodeRune, h1, h2, h3, hc], by simp⟩
        · by_cases h4 : a ≤ 0xEF
          · by_cases hb : b < (if a = 0xE0 then 0xA0 else 0x80) ∨ (if a = 0xED then 0x9F else 0xBF) < b
            · left; exact ⟨by simp [DecodeRune, h1, h2, h3, h4, hb], by simp⟩
            · by_cases hc : isCont c = true
              · right; right; right; left
                refine ⟨a, b, c, _, rfl, by omega, h4, by omega, by omega, ?_, ?_,
                  by simp [DecodeRune, h1, h2, h3, h4, hb, hc]⟩
                · simp [isCont] at hc; omega
                · simp [isCont] at hc; omega
              · left; exact ⟨by simp [DecodeRune, h1, h2, h3, h4, hb, hc], by simp⟩
          · by_cases h5 : a ≤ 0xF4
            · by_cases hb : b < (if a = 0xF0 then 0x90 else 0x80) ∨ (if a = 0xF4 then 0x8F else 0xBF) < b
              · left; exact ⟨by simp [DecodeRune, h1, h2, h3, h4, h5, hb], by simp⟩
              · by_cases hc : isCont c = true
                · by_cases hd : isCont d = true
                  · right; right; right; right
                    refine ⟨a, b, c, d, t, rfl, by omega, h5, by omega, by omega, ?_, ?_, ?_, ?_,
                      by simp [DecodeRune, h1, h2, h3, h4, h5, hb, hc, hd]⟩
                    · simp [isCont] at hc; omega
                    · simp [isCont] at hc; omega
                    · simp [isCont] at hd; omega
                    · simp [isCont] at hd; omega
                  · left; exact ⟨by simp [DecodeRune, h1, h2, h3, h4, h5, hb, hc, hd], by simp⟩
                · left; exact ⟨by simp [DecodeRune, h1, h2, h3, h4, h5, hb, hc], by simp⟩
            · left; exact ⟨by simp [DecodeRune, h1, h2, h3, h4, h5], by simp⟩

theorem DecodeRune_two (a b : Nat) (t : GoString) (h1 : 0xC2 ≤ a) (h2 : a ≤ 0xDF)
    (h3 : 0x80 ≤ b) (h4 : b ≤ 0xBF) :
    DecodeRune (a :: b :: t) = ((a % 32) * 64 + b % 64, 2) := by
  have e1 : ¬ a < 0x80 := by omega
  have e2 : ¬ a < 0xC2 := by omega
  have e3 : isCont b = true := by simp [isCont]; omega
  simp [DecodeRune, e1, e2, h2, e3]

theorem DecodeRune_three (a b c : Nat) (t : GoString) (h1 : 0xE0 ≤ a) (h2 : a ≤ 0xEF)
    (h3 : (if a = 0xE0 then 0xA0 else 0x80) ≤ b) (h4 : b ≤ (if a = 0xED then 0x9F else 0xBF))
    (h5 : 0x80 ≤ c) (h6 : c ≤ 0xBF) :
    DecodeRune (a :: b :: c :: t) = ((a % 16) * 4096 + (b % 64) * 64 + c % 64, 3) := by
  have e1 : ¬ a < 0x80 := by omega
  have e2 : ¬ a < 0xC2 := by omega
  have e3 : ¬ a ≤ 0xDF := by omega
  have e4 : isCont c = true := by simp [isCont]; omega
  have e5 : ¬ (b < (if a = 0xE0 then 0xA0 else 0x80) ∨ (if a = 0xED then 0x9F else 0xBF) < b) := by
    omega
  simp [DecodeRune, e1, e2, e3, h2, e4, e5]

theorem DecodeRune_four (a b c d : Nat) (t : GoString) (h1 : 0xF0 ≤ a) (h2 : a ≤ 0xF4)
    (h3 : (if a = 0xF0 then 0x90 else 0x80) ≤ b) (h4 : b ≤ (if a = 0xF4 then 0x8F else 0xBF))
    (h5 : 0x80 ≤ c) (h6 : c ≤ 0xBF) (h7 : 0x80 ≤ d) (h8 : d ≤ 0xBF) :
    DecodeRune (a :: b :: c :: d :: t) =
      ((a % 8) * 262144 + (b % 64) * 4096 + (c % 64) * 64 + d % 64, 4) := by
  have e1 : ¬ a < 0x80 := by omega
  have e2 : ¬ a < 0xC2 := by omega
  have e3 : ¬ a ≤ 0xDF := by omega
  have e3' : ¬ a ≤ 0xEF := by omega
  have e4 : isCont c = true := by simp [isCont]; omega
  have e6 : isCont d = true := by simp [isCont]; omega
  have e5 : ¬ (b < (if a = 0xF0 then 0x90 else 0x80) ∨ (if a = 0xF4 then 0x8F else 0xBF) < b) := by
    omega
  simp [DecodeRune, e1, e2, e3, e3', h2, e4, e5, e6]

/-- A decode that is not an encoding error reads only the bytes it reports, and
encoding its rune gives those bytes back. -/
theorem DecodeRune_valid (s : GoString) (hs : s ≠ [])
    (hv : ¬ ((DecodeRune s).1 = RuneError ∧ (DecodeRune s).2 = 1)) :
    1 ≤ (DecodeRune s).2 ∧ (DecodeRune s).2 ≤ s.length ∧
    EncodeRune (DecodeRune s).1 = s.take (DecodeRune s).2 ∧
    (∀ X, DecodeRune (s.take (DecodeRune s).2 ++ X) = DecodeRune s) ∧
    (s.headD 0 < 0x80 → DecodeRune s = (s.headD 0, 1)) ∧
    (0x80 ≤ s.headD 0 → 0x80 ≤ (DecodeRune s).1) := by
  rcases DecodeRune_cases s with h | h | h | h | h | h
  · exact absurd h.1 hs
  · exact absurd (by rw [h.1]; exact ⟨rfl, rfl⟩) hv
  · obtain ⟨a, t, rfl, ha, hd⟩ := h
    rw [hd]
    refine ⟨by simp, by simp, by simp [EncodeRune, ha], ?_, by simp, ?_⟩
    · intro X; simp [DecodeRune, ha]
    · simp only [List.headD_cons]; omega
  · obtain ⟨a, b, t, rfl, h1, h2, h3, h4, hd⟩ := h
    rw [hd]
    clear hv hd
    refine ⟨by simp, by simp, ?_, ?_, ?_, ?_⟩
    · have e1 : ¬ (a % 32 * 64 + b % 64 < 0x80) := by omega
      have e2 : a % 32 * 64 + b % 64 < 0x800 := by omega
      have x1 : 0xC0 + (a % 32 * 64 + b % 64) / 64 = a := by omega
      have x2 : 0x80 + (a % 32 * 64 + b % 64) % 64 = b := by omega
      simp only [EncodeRune, e1, e2, if_true, if_false, List.take_succ_cons, List.take_zero,
        x1, x2]
    · intro X
      simpa using DecodeRune_two a b X h1 h2 h3 h4
    · simp only [List.headD_cons]; omega
    · simp only [List.headD_cons]; omega
  · obtain ⟨a, b, c, t, rfl, h1, h2, h3, h4, h5, h6, hd⟩ := h
    rw [hd]
    clear hv hd
    have hb : 0x80 ≤ b ∧ b ≤ 0xBF ∧ (a = 0xE0 → 0xA0 ≤ b) ∧ (a = 0xED → b ≤ 0x9F) := by
      split_ifs at h3 h4 <;> omega
    refine ⟨by simp, by simp, ?_, ?_, ?_, ?_⟩
    · clear h3 h4
      have e1 : ¬ (a % 16 * 4096 + b % 64 * 64 + c % 64 < 0x80) := by omega
      have e2 : ¬ (a % 16 * 4096 + b % 64 * 64 + c % 64 < 0x800) := by omega
      have e3 : ¬ (0xD800 ≤ a % 16 * 4096 + b % 64 * 64 + c % 64 ∧
          a % 16 * 4096 + b % 64 * 64 + c % 64 ≤ 0xDFFF) := by omega
      have e4 : a % 16 * 4096 + b % 64 * 64 + c % 64 < 0x10000 := by omega
      have x1 : 0xE0 + (a % 16 * 4096 + b % 64 * 64 + c % 64) / 4096 = a := by omega
      have x2 : 0x80 + (a % 16 * 4096 + b % 64 * 64 + c % 64) / 64 % 64 = b := by omega
      have x3 : 0x80 + (a % 16 * 4096 + b % 64 * 64 + c % 64) % 64 = c := by omega
      simp only [EncodeRune, e1, e2, e3, e4, if_true, if_false, List.take_succ_cons,
        List.take_zero, x1, x2, x3]
    · intro X
      simpa using DecodeRune_three a b c X h1 h2 h3 h4 h5 h6
    · simp only [List.headD_cons]; omega
    · clear h3 h4; simp only [List.headD_cons]; omega
  · obtain ⟨a, b, c, d, t, rfl, h1, h2, h3, h4, h5, h6, h7, h8, hd⟩ := h
    rw [hd]
    clear hv hd
    have hb : 0x80 ≤ b ∧ b ≤ 0xBF ∧ (a = 0xF0 → 0x90 ≤ b) ∧ (a = 0xF4 → b ≤ 0x8F) := by
      split_ifs at h3 h4 <;> omega
    refine ⟨by simp, by simp, ?_, ?_, ?_, ?_⟩
    · clear h3 h4
      have e1 : ¬ (a % 8 * 262144 + b % 64 * 4096 + c % 64 * 64 + d % 64 < 0x80) := by omega
      have e2 : ¬ (a % 8 * 262144 + b % 64 * 4096 + c % 64 * 64 + d % 64 < 0x800) := by omega
      have e3 : ¬ (0xD800 ≤ a % 8 * 262144 + b % 64 * 4096 + c % 64 * 64 + d % 64 ∧
          a % 8 * 262144 + b % 64 * 4096 + c % 64 * 64 + d % 64 ≤ 0xDFFF) := by omega
      have e4 : ¬ (a % 8 * 262144 + b % 64 * 4096 + c % 64 * 64 + d % 64 < 0x10000) := by omega
      have e5 : a % 8 * 262144 + b % 64 * 4096 + c % 64 * 64 + d % 64 ≤ 0x10FFFF := by omega
      have x1 : 0xF0 + (a % 8 * 262144 + b % 64 * 4096 + c % 64 * 64 + d % 64) / 262144 = a := by
        omega
      have x2 : 0x80 + (a % 8 * 262144 + b % 64 * 4096 + c % 64 * 64 + d % 64) / 4096 % 64 = b := by
        omega
      have x3 : 0x80 + (a % 8 * 262144 + b % 64 * 4096 + c % 64 * 64 + d % 64) / 64 % 64 = c := by
        omega
      have x4 : 0x80 + (a % 8 * 262144 + b % 64 * 4096 + c % 64 * 64 + d % 64) % 64 = d := by
        omega
      simp only [EncodeRune, e1, e2, e3, e4, e5, if_true, if_false, List.take_succ_cons,
        List.take_zero, x1, x2, x3, x4]
    · intro X
      simpa using DecodeRune_four a b c d X h1 h2 h3 h4 h5 h6 h7 h8
    · simp only [List.headD_cons]; omega
    · clear h3 h4; simp only [List.headD_cons]; omega

/-- Any decode of a non-empty string consumes at least one byte and no more than
there are. -/
theorem DecodeRune_size (s : GoString) (hs : s ≠ []) :
    1 ≤ (DecodeRune s).2 ∧ (DecodeRune s).2 ≤ s.length := by
  by_cases hv : (DecodeRune s).1 = RuneError ∧ (DecodeRune s).2 = 1
  · rw [hv.2]
    cases s with
    | nil => exact absurd rfl hs
    | cons a t => simp
  · exact ⟨(DecodeRune_valid s hs hv).1, (DecodeRune_valid s hs hv).2.1⟩

end utf8

/-! ## Theorems: ignore filter -/

namespace ignore

theorem shouldIgnoreLoop_iff (path : GoString) (R : List IgnorePattern) :
    shouldIgnoreLoop path R = true ↔
      ∃ r ∈ R, (if r.IsDir then strings.HasSuffix path r.Pattern
                else filepath.Match r.Pattern (filepath.Base path)) = true := by
  induction R with
  | nil => simp [shouldIgnoreLoop]
  | cons r rest ih =>
    unfold shouldIgnoreLoop
    by_cases hd : r.IsDir = true
    · by_cases hs : strings.HasSuffix path r.Pattern = true
      · simp [hd, hs]
      · simp [hd, hs, ih]
    · by_cases hm : filepath.Match r.Pattern (filepath.Base path) = true
      · simp [hd, hm]
      · simp [hd, hm, ih]

theorem ShouldIgnore_iff_exists (im : IgnoreManager) (p : GoString) :
    im.ShouldIgnore p = true ↔ ∃ r ∈ im.patterns, ruleMatches r p = true := by
  unfold IgnoreManager.ShouldIgnore
  rw [shouldIgnoreLoop_iff]
  constructor
  · rintro ⟨r, hr, h⟩
    refine ⟨r, hr, ?_⟩
    unfold ruleMatches
    by_cases hd : r.IsDir = true
    · simpa [hd, strings.HasSuffix] using h
    · simpa [hd] using h
  · rintro ⟨r, hr, h⟩
    refine ⟨r, hr, ?_⟩
    unfold ruleMatches at h
    by_cases hd : r.IsDir = true
    · simpa [hd, strings.HasSuffix] using h
    · simpa [hd] using h

/-- C7. `ShouldIgnore(p)` is true exactly when at least one rule, tested on its own,
matches `p` (a directory rule by suffix of the slash-normalised full path, a file
rule by shell glob on the base name), and therefore it does not depend on the order
of the rules. -/
theorem ShouldIgnore_rule_independent (im : IgnoreManager) (p : GoString) :
    (im.ShouldIgnore p = true ↔ ∃ r ∈ im.patterns, ruleMatches r p = true) ∧
    (∀ R : List IgnorePattern, List.Perm im.patterns R →
      (IgnoreManager.mk R).ShouldIgnore p = im.ShouldIgnore p) := by
  refine ⟨ShouldIgnore_iff_exists im p, ?_⟩
  intro R hperm
  rw [Bool.eq_iff_iff, ShouldIgnore_iff_exists, ShouldIgnore_iff_exists]
  constructor
  · rintro ⟨r, hr, h⟩
    exact ⟨r, (hperm.mem_iff).2 hr, h⟩
  · rintro ⟨r, hr, h⟩
    exact ⟨r, (hperm.mem_iff).1 hr, h⟩

/-- C7, at a concrete rule list and its swap. -/
theorem ShouldIgnore_rule_independent_witness :
    (IgnoreManager.mk [⟨lit "*.log", false⟩, ⟨lit "vendor", true⟩]).ShouldIgnore (lit "/p/vendor") =
      (IgnoreManager.mk [⟨lit "vendor", true⟩, ⟨lit "*.log", false⟩]).ShouldIgnore (lit "/p/vendor") :=
  (ShouldIgnore_rule_independent
    (IgnoreManager.mk [⟨lit "vendor", true⟩, ⟨lit "*.log", false⟩]) (lit "/p/vendor")).2
    [⟨lit "*.log", false⟩, ⟨lit "vendor", true⟩] (List.Perm.swap _ _ _)

theorem loadLine_patterns (im : IgnoreManager) (line : GoString) :
    (loadLine im line).patterns =
      im.patterns ++ (if keepsTrimmed line then [specRuleOfLine (strings.TrimSpace line)] else []) := by
  unfold loadLine keepsTrimmed specRuleOfLine
  by_cases h1 : strings.TrimSpace line = []
  · simp [h1]
  · by_cases h2 : strings.HasPrefix (strings.TrimSpace line) (lit "#") = true
    · simp [h1, h2]
    · by_cases h3 : strings.HasSuffix (strings.TrimSpace line) (lit "/") = true
      · simp [h1, h2, h3]
      · simp [h1, h2, h3]

theorem loadLines_patterns (lines : List GoString) (im : IgnoreManager) :
    (loadLines im lines).patterns =
      im.patterns ++ (lines.filter keepsTrimmed).map (fun l => specRuleOfLine (strings.TrimSpace l)) := by
  induction lines generalizing im with
  | nil => simp [loadLines]
  | cons l ls ih =>
    rw [loadLines, ih, loadLine_patterns]
    by_cases h : keepsTrimmed l = true
    · simp [h, List.filter_cons]
    · simp [h, List.filter_cons]

/-- C8, as amended. `LoadFromFile` appends, in line order, one rule for each line whose
white-space-trimmed text is neither empty nor starts with `#`; the rule is a
directory rule iff the trimmed line ends with `/`, and the stored pattern is the
trimmed line with that one trailing separator stripped (a file rule stores the
trimmed line). -/
theorem LoadFromFile_appends_trimmed_rules (im : IgnoreManager) (content : GoString) :
    (im.LoadFromFile (some content)).1.patterns =
      im.patterns ++
        ((strings.Split content 0x0A).filter keepsTrimmed).map
          (fun l => specRuleOfLine (strings.TrimSpace l)) := by
  simp [IgnoreManager.LoadFromFile, loadLines_patterns]

/-- C8, as stated, fails: for the one-line file `tmp/ ` (a trailing blank) the claim
gives the file rule `tmp/ ` stored unchanged, while `LoadFromFile` stores the directory
rule `tmp`. -/
theorem LoadFromFile_untrimmed_counterexample :
    (NewIgnoreManager.LoadFromFile (some (lit "tmp/ "))).1.patterns
        = [{ Pattern := lit "tmp", IsDir := true }] ∧
    ((strings.Split (lit "tmp/ ") 0x0A).filter specKeepsLine).map specRuleOfLine
        = [{ Pattern := lit "tmp/ ", IsDir := false }] ∧
    (NewIgnoreManager.LoadFromFile (some (lit "tmp/ "))).1.patterns ≠
      NewIgnoreManager.patterns ++
        ((strings.Split (lit "tmp/ ") 0x0A).filter specKeepsLine).map specRuleOfLine := by
  refine ⟨by decide, by decide, by decide⟩

theorem LoadFromFile_patterns_extend (im : IgnoreManager) (content : Option GoString) :
    ∃ added, (im.LoadFromFile content).1.patterns = im.patterns ++ added := by
  cases content with
  | none => exact ⟨[], by simp [IgnoreManager.LoadFromFile]⟩
  | some c => exact ⟨_, loadLines_patterns (strings.Split c 0x0A) im⟩

theorem addPatterns_patterns (ps : List IgnorePattern) (im : IgnoreManager) :
    (addPatterns im ps).patterns = im.patterns ++ ps := by
  induction ps generalizing im with
  | nil => simp [addPatterns]
  | cons p ps ih => simp [addPatterns, ih, IgnoreManager.AddPattern]

theorem scanIgnoreManager_patterns (ttignore : Option GoString) :
    ∃ added, (scanIgnoreManager ttignore).patterns = GetDefaultPatterns ++ added := by
  obtain ⟨added, h⟩ := LoadFromFile_patterns_extend (addPatterns NewIgnoreManager GetDefaultPatterns) ttignore
  refine ⟨added, ?_⟩
  rw [scanIgnoreManager, h, addPatterns_patterns]
  simp [NewIgnoreManager]

theorem watcherIgnoreManager_patterns (ttignores : List (Option GoString)) :
    ∃ added, (watcherIgnoreManager ttignores).patterns = GetDefaultPatterns ++ added := by
  have h : ∀ (cs : List (Option GoString)) (im : IgnoreManager),
      ∃ added, (cs.foldl (fun im c => (im.LoadFromFile c).1) im).patterns =
        im.patterns ++ added := by
    intro cs
    induction cs with
    | nil => intro im; exact ⟨[], by simp⟩
    | cons c cs ih =>
      intro im
      obtain ⟨a1, h1⟩ := LoadFromFile_patterns_extend im c
      obtain ⟨a2, h2⟩ := ih (im.LoadFromFile c).1
      exact ⟨a1 ++ a2, by rw [List.foldl_cons, h2, h1, List.append_assoc]⟩
  obtain ⟨added, hadd⟩ := h ttignores (addPatterns NewIgnoreManager GetDefaultPatterns)
  refine ⟨added, ?_⟩
  rw [watcherIgnoreManager, hadd, addPatterns_patterns]
  simp [NewIgnoreManager]

theorem default_rule_matches (path : GoString)
    (h : strings.HasSuffix path (lit ".git") = true ∨
      strings.HasSuffix path (lit "node_modules") = true ∨
      strings.HasSuffix path (lit "vendor") = true ∨
      strings.HasSuffix path (lit "dist") = true ∨
      strings.HasSuffix path (lit "build") = true ∨
      filepath.Base path = lit ".DS_Store" ∨
      filepath.Match (lit "*.log") (filepath.Base path) = true ∨
      filepath.Match (lit "*.tmp") (filepath.Base path) = true) :
    ∃ r ∈ GetDefaultPatterns, ruleMatches r path = true := by
  have hslash : filepath.ToSlash path = path := by simp [filepath.ToSlash, filepath.Separator]
  rcases h with h | h | h | h | h | h | h | h
  · exact ⟨⟨lit ".git", true⟩, by simp [GetDefaultPatterns],
      by simpa [ruleMatches, hslash, strings.HasSuffix] using h⟩
  · exact ⟨⟨lit "node_modules", true⟩, by simp [GetDefaultPatterns],
      by simpa [ruleMatches, hslash, strings.HasSuffix] using h⟩
  · exact ⟨⟨lit "vendor", true⟩, by simp [GetDefaultPatterns],
      by simpa [ruleMatches, hslash, strings.HasSuffix] using h⟩
  · exact ⟨⟨lit "dist", true⟩, by simp [GetDefaultPatterns],
      by simpa [ruleMatches, hslash, strings.HasSuffix] using h⟩
  · exact ⟨⟨lit "build", true⟩, by simp [GetDefaultPatterns],
      by simpa [ruleMatches, hslash, strings.HasSuffix] using h⟩
  · refine ⟨⟨lit ".DS_Store", false⟩, by simp [GetDefaultPatterns], ?_⟩
    have hm : filepath.Match (lit ".DS_Store") (lit ".DS_Store") = true := by decide
    simp [ruleMatches, hslash, h, hm]
  · exact ⟨⟨lit "*.log", false⟩, by simp [GetDefaultPatterns],
      by simpa [ruleMatches, hslash] using h⟩
  · exact ⟨⟨lit "*.tmp", false⟩, by simp [GetDefaultPatterns],
      by simpa [ruleMatches, hslash] using h⟩

/-- C9. Loading a project-local file only adds rules: the rules present before
`LoadFromFile` are kept, in order, in front of the added ones, so a path ignored
before is still ignored; and with the defaults installed as `RunScan` and
`NewProjectWatcher` do, every path ending in `.git`, `node_modules`, `vendor`, `dist`
or `build`, and every path whose base name is `.DS_Store` or matches `*.log` or
`*.tmp`, is ignored whatever the `.ttignore` files hold. -/
theorem defaults_always_active (im : IgnoreManager) (content ttignore : Option GoString)
    (ttignores : List (Option GoString)) (path : GoString) :
    (∃ added, (im.LoadFromFile content).1.patterns = im.patterns ++ added) ∧
    (im.ShouldIgnore path = true → (im.LoadFromFile content).1.ShouldIgnore path = true) ∧
    ((strings.HasSuffix path (lit ".git") = true ∨
      strings.HasSuffix path (lit "node_modules") = true ∨
      strings.HasSuffix path (lit "vendor") = true ∨
      strings.HasSuffix path (lit "dist") = true ∨
      strings.HasSuffix path (lit "build") = true ∨
      filepath.Base path = lit ".DS_Store" ∨
      filepath.Match (lit "*.log") (filepath.Base path) = true ∨
      filepath.Match (lit "*.tmp") (filepath.Base path) = true) →
      (scanIgnoreManager ttignore).ShouldIgnore path = true ∧
      (watcherIgnoreManager ttignores).ShouldIgnore path = true) := by
  refine ⟨LoadFromFile_patterns_extend im content, ?_, ?_⟩
  · intro h
    obtain ⟨added, hadd⟩ := LoadFromFile_patterns_extend im content
    rw [ShouldIgnore_iff_exists] at h ⊢
    obtain ⟨r, hr, hm⟩ := h
    exact ⟨r, by rw [hadd]; exact List.mem_append_left _ hr, hm⟩
  · intro h
    obtain ⟨r, hr, hm⟩ := default_rule_matches path h
    obtain ⟨a1, h1⟩ := scanIgnoreManager_patterns ttignore
    obtain ⟨a2, h2⟩ := watcherIgnoreManager_patterns ttignores
    constructor
    · rw [ShouldIgnore_iff_exists, h1]
      exact ⟨r, List.mem_append_left _ hr, hm⟩
    · rw [ShouldIgnore_iff_exists, h2]
      exact ⟨r, List.mem_append_left _ hr, hm⟩

/-- C9, at a concrete path and a `.ttignore` that tries to re-include it. -/
theorem defaults_always_active_witness :
    (scanIgnoreManager (some (lit "!vendor\n"))).ShouldIgnore (lit "/p/vendor") = true ∧
    (watcherIgnoreManager [none, some (lit "!vendor\n")]).ShouldIgnore (lit "/p/vendor") = true :=
  (defaults_always_active NewIgnoreManager none (some (lit "!vendor\n"))
    [none, some (lit "!vendor\n")] (lit "/p/vendor")).2.2
    (Or.inr (Or.inr (Or.inl (by decide))))

end ignore

/-! ## Theorems: the walk of the scan engine -/

namespace scan

theorem flatMap_contribution (env : ScanEnv) (mgr : Manager) (ign : ignore.IgnoreManager)
    (l : List GoString) :
    l.flatMap (contribution env mgr ign) =
      (l.filter (contributes env mgr ign)).flatMap (parseResult env mgr) := by
  induction l with
  | nil => simp
  | cons p ps ih =>
    have hp : contribution env mgr ign p =
        if contributes env mgr ign p then parseResult env mgr p else [] := by
      unfold contribution contributes parseResult
      by_cases h1 : ign.ShouldIgnore p = true
      · simp [h1]
      · by_cases h2 : filepath.Ext p = []
        · simp [h1, h2]
        · cases hg : mgr.GetParser env.unicodeLower p with
          | none => simp [h1, h2]
          | some parser =>
            cases hpf : env.parseFile parser p with
            | none => simp [h1, h2, hpf]
            | some todos => simp [h1, h2, hpf]
    rw [List.flatMap_cons, ih, hp, List.filter_cons]
    by_cases hc : contributes env mgr ign p = true
    · simp [hc]
    · simp [hc]

/-- The effect of the callback on one path. -/
theorem scanCallback_file (env : ScanEnv) (mgr : Manager) (ign : ignore.IgnoreManager)
    (st : ScanState) (path : GoString) :
    (scanCallback env mgr ign st path (some false) false).2 = none ∧
    (scanCallback env mgr ign st path (some false) false).1.currentTodos =
      st.currentTodos ++ contribution env mgr ign path ∧
    (scanCallback env mgr ign st path (some false) false).1.parsed =
      st.parsed ++ (if parsable env mgr ign path then [path] else []) := by
  unfold scanCallback contribution parsable
  by_cases h1 : ign.ShouldIgnore path = true
  · simp [h1]
  · by_cases h2 : filepath.Ext path = []
    · simp [h1, h2]
    · cases hg : mgr.GetParser env.unicodeLower path with
      | none => simp [h1, h2]
      | some parser =>
        cases hpf : env.parseFile parser path with
        | none => simp [h1, h2, hpf]
        | some todos => simp [h1, h2, hpf]

theorem scanCallback_dir (env : ScanEnv) (mgr : Manager) (ign : ignore.IgnoreManager)
    (st : ScanState) (path : GoString) :
    scanCallback env mgr ign st path (some true) false =
      (st, if ign.ShouldIgnore path then some WalkErr.SkipDir else none) := by
  unfold scanCallback
  by_cases h1 : ign.ShouldIgnore path = true
  · simp [h1]
  · simp [h1]

theorem scanCallback_err (env : ScanEnv) (mgr : Manager) (ign : ignore.IgnoreManager)
    (st : ScanState) (path : GoString) (info : Option Bool) :
    scanCallback env mgr ign st path info true = (st, none) := by
  simp [scanCallback]

mutual
theorem walk_scan (env : ScanEnv) (mgr : Manager) (ign : ignore.IgnoreManager) :
    ∀ (node : Node) (path : GoString) (st : ScanState),
      ((walk (scanCallback env mgr ign) path node st).2 = none ∨
        (node.IsDir = true ∧
          (walk (scanCallback env mgr ign) path node st).2 = some WalkErr.SkipDir)) ∧
      (walk (scanCallback env mgr ign) path node st).1.currentTodos =
        st.currentTodos ++ (visitedFiles ign path node).flatMap (contribution env mgr ign) ∧
      (walk (scanCallback env mgr ign) path node st).1.parsed =
        st.parsed ++ (visitedFiles ign path node).filter (parsable env mgr ign)
  | Node.file, path, st => by
    obtain ⟨h1, h2, h3⟩ := scanCallback_file env mgr ign st path
    simp only [walk, visitedFiles]
    refine ⟨Or.inl h1, ?_, ?_⟩
    · simpa using h2
    · rw [h3]
      by_cases hp : parsable env mgr ign path = true
      · simp [hp]
      · simp [hp]
  | Node.lstatError, path, st => by
    simp [walk, visitedFiles, scanCallback_err]
  | Node.unreadableDir, path, st => by
    simp [walk, visitedFiles, scanCallback_err]
  | Node.dir entries, path, st => by
    have ih := walkEntries_scan env mgr ign entries path st
    simp only [walk, visitedFiles, scanCallback_dir]
    by_cases h1 : ign.ShouldIgnore path = true
    · simp [h1, Node.IsDir]
    · simp only [h1]
      simp only [Bool.false_eq_true, if_false, ne_eq, not_true_eq_false]
      exact ⟨Or.inl ih.1, ih.2.1, ih.2.2⟩
theorem walkEntries_scan (env : ScanEnv) (mgr : Manager) (ign : ignore.IgnoreManager) :
    ∀ (entries : List (GoString × Node)) (path : GoString) (st : ScanState),
      (walkEntries (scanCallback env mgr ign) path entries st).2 = none ∧
      (walkEntries (scanCallback env mgr ign) path entries st).1.currentTodos =
        st.currentTodos ++ (visitedEntries ign path entries).flatMap (contribution env mgr ign) ∧
      (walkEntries (scanCallback env mgr ign) path entries st).1.parsed =
        st.parsed ++ (visitedEntries ign path entries).filter (parsable env mgr ign)
  | [], path, st => by simp [walkEntries, visitedEntries]
  | (name, node) :: rest, path, st => by
    have hw := walk_scan env mgr ign node (filepath.Join path name) st
    have hr := walkEntries_scan env mgr ign rest path
      (walk (scanCallback env mgr ign) (filepath.Join path name) node st).1
    obtain ⟨he, ht, hp⟩ := hw
    obtain ⟨hre, hrt, hrp⟩ := hr
    have hcont : ¬ ((walk (scanCallback env mgr ign) (filepath.Join path name) node st).2 ≠ none ∧
        ((!node.IsDir) = true ∨
          (walk (scanCallback env mgr ign) (filepath.Join path name) node st).2
            ≠ some WalkErr.SkipDir)) := by
      rintro ⟨hne, hor⟩
      rcases he with he | ⟨hd, he⟩
      · exact hne he
      · rcases hor with hor | hor
        · simp [hd] at hor
        · exact hor he
    cases node with
    | lstatError =>
      simp only [walkEntries, visitedEntries, visitedFiles, scanCallback_err]
      have hr2 := walkEntries_scan env mgr ign rest path st
      simpa using hr2
    | file =>
      simp only [walkEntries, visitedEntries]
      rw [if_neg hcont]
      refine ⟨hre, ?_, ?_⟩
      · rw [hrt, ht]; simp
      · rw [hrp, hp]; simp
    | unreadableDir =>
      simp only [walkEntries, visitedEntries]
      rw [if_neg hcont]
      refine ⟨hre, ?_, ?_⟩
      · rw [hrt, ht]; simp
      · rw [hrp, hp]; simp
    | dir es =>
      simp only [walkEntries, visitedEntries]
      rw [if_neg hcont]
      refine ⟨hre, ?_, ?_⟩
      · rw [hrt, ht]; simp
      · rw [hrp, hp]; simp
end

theorem Walk_scan (env : ScanEnv) (mgr : Manager) (ign : ignore.IgnoreManager)
    (root : GoString) (tree : Node) (st : ScanState) :
    (Walk (scanCallback env mgr ign) root tree st).2 = none ∧
    (Walk (scanCallback env mgr ign) root tree st).1.currentTodos =
      st.currentTodos ++ (visitedFiles ign root tree).flatMap (contribution env mgr ign) ∧
    (Walk (scanCallback env mgr ign) root tree st).1.parsed =
      st.parsed ++ (visitedFiles ign root tree).filter (parsable env mgr ign) := by
  obtain ⟨he, ht, hp⟩ := walk_scan env mgr ign tree root st
  have hle : walk (scanCallback env mgr ign) root Node.lstatError st = (st, none) := by
    simp [walk, scanCallback_err]
  unfold Walk
  cases tree with
  | lstatError =>
    simp [scanCallback_err, visitedFiles]
  | file =>
    simp only
    rcases he with he | ⟨_, he⟩ <;> simp [he, ht, hp]
  | unreadableDir =>
    simp only
    rcases he with he | ⟨_, he⟩ <;> simp [he, ht, hp]
  | dir es =>
    simp only
    rcases he with he | ⟨_, he⟩ <;> simp [he, ht, hp]

end scan

/-! ## Theorems: the JSON codec -/

namespace json

theorem hexValue_hexDigit : ∀ k, k < 16 → hexValue (hexDigit k) = some k := by decide

theorem parseString_quote (f : Nat) (r : GoString) :
    parseString (f + 1) (0x22 :: r) = some ([], r) := by
  simp [parseString]

theorem parseString_ascii (f c : Nat) (r : GoString) (h1 : 0x20 ≤ c) (h2 : c < 0x80)
    (h3 : c ≠ 0x22) (h4 : c ≠ 0x5C) :
    parseString (f + 1) (c :: r) = (parseString f r).map (fun p => (c :: p.1, p.2)) := by
  have e1 : ¬ c < 0x20 := by omega
  simp [parseString, h3, h4, e1, h2, utf8.RuneSelf]

theorem parseString_multi (f c : Nat) (r : GoString) (h1 : 0x80 ≤ c) :
    parseString (f + 1) (c :: r) =
      (parseString f ((c :: r).drop (utf8.DecodeRune (c :: r)).2)).map
        (fun p => (utf8.EncodeRune (utf8.DecodeRune (c :: r)).1 ++ p.1, p.2)) := by
  have e1 : ¬ c < 0x20 := by omega
  have e2 : ¬ c < 0x80 := by omega
  have e3 : c ≠ 0x22 := by omega
  have e4 : c ≠ 0x5C := by omega
  simp [parseString, e1, e2, e3, e4, utf8.RuneSelf]

theorem parseString_simple (f e b : Nat) (r : GoString)
    (h : (e = 0x22 ∧ b = 0x22) ∨ (e = 0x5C ∧ b = 0x5C) ∨ (e = 0x62 ∧ b = 0x08) ∨
      (e = 0x66 ∧ b = 0x0C) ∨ (e = 0x6E ∧ b = 0x0A) ∨ (e = 0x72 ∧ b = 0x0D) ∨
      (e = 0x74 ∧ b = 0x09)) :
    parseString (f + 1) (0x5C :: e :: r) = (parseString f r).map (fun p => (b :: p.1, p.2)) := by
  rcases h with ⟨rfl, rfl⟩ | ⟨rfl, rfl⟩ | ⟨rfl, rfl⟩ | ⟨rfl, rfl⟩ | ⟨rfl, rfl⟩ | ⟨rfl, rfl⟩ | ⟨rfl, rfl⟩ <;>
    simp [parseString]

theorem parseString_u4 (f a b c d rr : Nat) (r : GoString)
    (h : getu4 (a :: b :: c :: d :: r) = some (rr, r)) (hs : ¬ (0xD800 ≤ rr ∧ rr < 0xE000)) :
    parseString (f + 1) (0x5C :: 0x75 :: a :: b :: c :: d :: r) =
      (parseString f r).map (fun p => (utf8.EncodeRune rr ++ p.1, p.2)) := by
  simp [parseString, h, hs]

theorem escapeByte_length_pos (b : Nat) : 1 ≤ (escapeByte b).length := by
  unfold escapeByte
  split_ifs <;> simp [lit, utf8.EncodeRune]

theorem parseString_escapeByte (f b : Nat) (x : GoString) (hb : b < 0x80)
    (hs : htmlSafe b = false) :
    parseString (f + 1) (escapeByte b ++ x) =
      (parseString f x).map (fun p => (b :: p.1, p.2)) := by
  unfold escapeByte
  by_cases h1 : b = 0x5C ∨ b = 0x22
  · rw [if_pos h1]
    rcases h1 with rfl | rfl
    · exact parseString_simple f _ _ x (Or.inr (Or.inl ⟨rfl, rfl⟩))
    · exact parseString_simple f _ _ x (Or.inl ⟨rfl, rfl⟩)
  rw [if_neg h1]
  by_cases h2 : b = 0x08
  · subst h2; exact parseString_simple f _ _ x (by decide)
  rw [if_neg h2]
  by_cases h3 : b = 0x0C
  · subst h3; exact parseString_simple f _ _ x (by decide)
  rw [if_neg h3]
  by_cases h4 : b = 0x0A
  · subst h4; exact parseString_simple f _ _ x (by decide)
  rw [if_neg h4]
  by_cases h5 : b = 0x0D
  · subst h5; exact parseString_simple f _ _ x (by decide)
  rw [if_neg h5]
  by_cases h6 : b = 0x09
  · subst h6; exact parseString_simple f _ _ x (by decide)
  rw [if_neg h6]
  have hl : lit "\\u00" = [0x5C, 0x75, 0x30, 0x30] := by decide
  rw [hl]
  have hg : getu4 (0x30 :: 0x30 :: hexDigit (b / 16) :: hexDigit (b % 16) :: x) = some (b, x) := by
    have e1 : hexValue 0x30 = some 0 := by decide
    have e2 := hexValue_hexDigit (b / 16) (by omega)
    have e3 := hexValue_hexDigit (b % 16) (by omega)
    simp only [getu4, e1, e2, e3]
    congr 2
    omega
  have := parseString_u4 f 0x30 0x30 (hexDigit (b / 16)) (hexDigit (b % 16)) b x hg (by omega)
  have he : utf8.EncodeRune b = [b] := by simp [utf8.EncodeRune, hb]
  simpa [he] using this

theorem parseString_escapeLoop (rest : GoString) :
    ∀ (n : Nat) (s : GoString) (fuel : Nat), s.length ≤ n →
      (escapeLoop n s).length < fuel →
      parseString fuel (escapeLoop n s ++ 0x22 :: rest) = some (coerceLoop n s, rest) := by
  intro n
  induction n with
  | zero =>
    intro s fuel hs hf
    obtain ⟨f, rfl⟩ : ∃ f, fuel = f + 1 := ⟨fuel - 1, by omega⟩
    simp [escapeLoop, coerceLoop, parseString_quote]
  | succ n ih =>
    intro s fuel hs hf
    obtain ⟨f, rfl⟩ : ∃ f, fuel = f + 1 := ⟨fuel - 1, by omega⟩
    cases s with
    | nil => simp [escapeLoop, coerceLoop, parseString_quote]
    | cons b t =>
      have ht : t.length ≤ n := by simpa using hs
      by_cases hb : b < 0x80
      · -- ASCII
        have hdec : utf8.DecodeRune (b :: t) = (b, 1) := by simp [utf8.DecodeRune, hb]
        have hco : coerceLoop (n + 1) (b :: t) = b :: coerceLoop n t := by
          have : ¬ (b = utf8.RuneError ∧ True) := by simp [utf8.RuneError]; omega
          simp [coerceLoop, hdec, utf8.RuneError]
          omega
        by_cases hsafe : htmlSafe b = true
        · have hesc : escapeLoop (n + 1) (b :: t) = b :: escapeLoop n t := by
            simp [escapeLoop, hb, utf8.RuneSelf, hsafe]
          rw [hesc] at hf ⊢
          have hb' : 0x20 ≤ b ∧ b ≠ 0x22 ∧ b ≠ 0x5C := by
            simp [htmlSafe] at hsafe; omega
          rw [List.cons_append, parseString_ascii f b _ hb'.1 hb hb'.2.1 hb'.2.2,
            ih t f ht (by simpa using hf), hco]
          rfl
        · have hsafe' : htmlSafe b = false := by simpa using hsafe
          have hesc : escapeLoop (n + 1) (b :: t) = escapeByte b ++ escapeLoop n t := by
            simp [escapeLoop, hb, utf8.RuneSelf, hsafe']
          rw [hesc] at hf ⊢
          have hl := escapeByte_length_pos b
          rw [List.append_assoc, parseString_escapeByte f b _ hb hsafe',
            ih t f ht (by simp at hf; omega), hco]
          rfl
      · -- multi-byte or invalid
        have hb1 : 0x80 ≤ b := by omega
        by_cases hv : (utf8.DecodeRune (b :: t)).1 = utf8.RuneError ∧
            (utf8.DecodeRune (b :: t)).2 = 1
        · have hesc : escapeLoop (n + 1) (b :: t) = lit "\\ufffd" ++ escapeLoop n t := by
            simp [escapeLoop, hb, utf8.RuneSelf, hv]
          have hco : coerceLoop (n + 1) (b :: t) = [0xEF, 0xBF, 0xBD] ++ coerceLoop n t := by
            simp [coerceLoop, hv]
          have hl : lit "\\ufffd" = [0x5C, 0x75, 0x66, 0x66, 0x66, 0x64] := by decide
          rw [hesc] at hf ⊢
          rw [hl] at hf ⊢
          have hg : getu4 (0x66 :: 0x66 :: 0x66 :: 0x64 :: (escapeLoop n t ++ 0x22 :: rest)) =
              some (0xFFFD, escapeLoop n t ++ 0x22 :: rest) := by
            simp [getu4, hexValue]
          have := parseString_u4 f 0x66 0x66 0x66 0x64 0xFFFD _ hg (by omega)
          simp only [List.cons_append, List.nil_append] at this ⊢
          rw [this, ih t f ht (by simp at hf; omega), hco]
          simp [utf8.EncodeRune]
        · obtain ⟨hsz1, hsz2, henc, hpre, _, hge⟩ := utf8.DecodeRune_valid (b :: t) (by simp) hv
          have hdrop : ((b :: t).drop (utf8.DecodeRune (b :: t)).2).length ≤ n := by
            simp only [List.length_drop, List.length_cons] at hs ⊢
            omega
          have hco : coerceLoop (n + 1) (b :: t) =
              (b :: t).take (utf8.DecodeRune (b :: t)).2 ++
                coerceLoop n ((b :: t).drop (utf8.DecodeRune (b :: t)).2) := by
            simp [coerceLoop, hv]
          by_cases hls : (utf8.DecodeRune (b :: t)).1 = 0x2028 ∨
              (utf8.DecodeRune (b :: t)).1 = 0x2029
          · have hesc : escapeLoop (n + 1) (b :: t) =
                lit "\\u202" ++ [hexDigit ((utf8.DecodeRune (b :: t)).1 % 16)] ++
                  escapeLoop n ((b :: t).drop (utf8.DecodeRune (b :: t)).2) := by
              simp [escapeLoop, hb, utf8.RuneSelf, hv, hls]
            have hl : lit "\\u202" = [0x5C, 0x75, 0x32, 0x30, 0x32] := by decide
            rw [hesc] at hf ⊢
            rw [hl] at hf ⊢
            have hg : getu4 (0x32 :: 0x30 :: 0x32 :: hexDigit ((utf8.DecodeRune (b :: t)).1 % 16) ::
                (escapeLoop n ((b :: t).drop (utf8.DecodeRune (b :: t)).2) ++ 0x22 :: rest)) =
                some ((utf8.DecodeRune (b :: t)).1,
                  escapeLoop n ((b :: t).drop (utf8.DecodeRune (b :: t)).2) ++ 0x22 :: rest) := by
              rcases hls with h | h <;> rw [h] <;> simp [getu4, hexValue, hexDigit]
            have := parseString_u4 f _ _ _ _ _ _ hg (by rcases hls with h | h <;> rw [h] <;> omega)
            simp only [List.cons_append, List.nil_append, List.append_assoc] at this ⊢
            rw [this, ih _ f hdrop (by simp at hf; omega), hco, henc]
            rfl
          · have hesc : escapeLoop (n + 1) (b :: t) =
                (b :: t).take (utf8.DecodeRune (b :: t)).2 ++
                  escapeLoop n ((b :: t).drop (utf8.DecodeRune (b :: t)).2) := by
              simp [escapeLoop, hb, utf8.RuneSelf, hv, hls]
            rw [hesc] at hf ⊢
            rw [List.length_append] at hf
            obtain ⟨k, hk⟩ : ∃ k, (utf8.DecodeRune (b :: t)).2 = k + 1 :=
              ⟨(utf8.DecodeRune (b :: t)).2 - 1, by omega⟩
            have htake : (b :: t).take (utf8.DecodeRune (b :: t)).2 = b :: t.take k := by
              rw [hk]; rfl
            have hlen : ((b :: t).take (utf8.DecodeRune (b :: t)).2).length =
                (utf8.DecodeRune (b :: t)).2 := by
              rw [List.length_take]; omega
            have hlen0 := hlen
            have hpre' := hpre (escapeLoop n ((b :: t).drop (utf8.DecodeRune (b :: t)).2) ++ 0x22 :: rest)
            rw [List.append_assoc]
            rw [htake] at hpre' hlen ⊢
            rw [List.cons_append, parseString_multi f b _ hb1]
            rw [← List.cons_append, hpre']
            have hd : ((b :: List.take k t) ++
                (escapeLoop n ((b :: t).drop (utf8.DecodeRune (b :: t)).2) ++ 0x22 :: rest)).drop
                  (utf8.DecodeRune (b :: t)).2 =
                escapeLoop n ((b :: t).drop (utf8.DecodeRune (b :: t)).2) ++ 0x22 :: rest := by
              rw [List.drop_append_of_le_length (by omega)]
              rw [List.drop_eq_nil_of_le (by omega)]
              rfl
            rw [hd, ih _ f hdrop (by omega), hco, henc, htake]
            rfl

theorem parseString_appendString (s rest : GoString) (fuel : Nat)
    (hf : (appendString s ++ rest).length ≤ fuel + 1) :
    parseString fuel (escapeLoop s.length s ++ 0x22 :: rest) = some (coerceUTF8 s, rest) := by
  apply parseString_escapeLoop rest s.length s fuel (le_refl _)
  simp [appendString] at hf
  omega

theorem skipSpace_replicate (k : Nat) (x : GoString) :
    skipSpace (List.replicate k 0x20 ++ x) = skipSpace x := by
  induction k with
  | zero => simp
  | succ k ih => simp [List.replicate_succ, skipSpace, isSpace, ih]

theorem skipSpace_newline (d : Nat) (x : GoString) :
    skipSpace (newline d ++ x) = skipSpace x := by
  simp [newline, skipSpace, isSpace, skipSpace_replicate]

theorem skipSpace_cons (c : Nat) (x : GoString) (h : isSpace c = false) :
    skipSpace (c :: x) = c :: x := by
  simp [skipSpace, h]

theorem spanDigits_append (ds X : GoString) (hd : ∀ d ∈ ds, isDigit d = true)
    (hX : GoodNext X) : spanDigits (ds ++ X) = (ds, X) := by
  induction ds with
  | nil =>
    obtain ⟨c, X', rfl, hc⟩ := hX
    have : isDigit c = false := by rcases hc with rfl | rfl <;> decide
    simp [spanDigits, this]
  | cons d ds ih =>
    have h1 : isDigit d = true := hd d (by simp)
    have h2 := ih (fun x hx => hd x (by simp [hx]))
    simp [spanDigits, h1, h2]

theorem decDigits_spec : ∀ (f n : Nat) (acc : GoString), n < f →
    ∃ ds, decDigits f n acc = ds ++ acc ∧ ds ≠ [] ∧ (∀ d ∈ ds, isDigit d = true) ∧
      (n = 0 → ds = [0x30]) ∧ (n ≠ 0 → ds.head? ≠ some 0x30) ∧
      (∀ a, ds.foldl (fun acc d => acc * 10 + (d - 0x30)) a = a * 10 ^ ds.length + n) := by
  intro f
  induction f with
  | zero => intro n acc h; omega
  | succ f ih =>
    intro n acc h
    by_cases h0 : n / 10 = 0
    · refine ⟨[0x30 + n % 10], by simp [decDigits, h0], by simp, ?_, ?_, ?_, ?_⟩
      · intro d hd
        simp at hd
        subst hd
        simp [isDigit]
        omega
      · intro hn; subst hn; rfl
      · intro hn; simp; omega
      · intro a; simp; omega
    · obtain ⟨ds, h1, h2, h3, _, h5, h6⟩ := ih (n / 10) ((0x30 + n % 10) :: acc) (by omega)
      refine ⟨ds ++ [0x30 + n % 10], by simp [decDigits, h0, h1], by simp, ?_, ?_, ?_, ?_⟩
      · intro d hd
        rcases List.mem_append.1 hd with hd | hd
        · exact h3 d hd
        · simp at hd
          subst hd
          simp [isDigit]
          omega
      · intro hn; subst hn; simp at h0
      · intro _
        cases ds with
        | nil => exact absurd rfl h2
        | cons x xs => simpa using h5 h0
      · intro a
        rw [List.foldl_append, h6 a]
        simp only [List.foldl_cons, List.foldl_nil, List.length_append, List.length_singleton]
        have := Nat.div_add_mod n 10
        rw [pow_succ]
        have e : 0x30 + n % 10 - 0x30 = n % 10 := by omega
        rw [e]
        nlinarith [this]

theorem formatInt_eq (i : Int) :
    ∃ ds, formatInt i = (if i < 0 then [0x2D] else []) ++ ds ∧ ds ≠ [] ∧
      (∀ d ∈ ds, isDigit d = true) ∧ (ds.head? = some 0x30 → ds = [0x30]) ∧
      ds.foldl (fun acc d => acc * 10 + (d - 0x30)) 0 = i.natAbs := by
  obtain ⟨ds, h1, h2, h3, h4, h5, h6⟩ := decDigits_spec (i.natAbs + 1) i.natAbs [] (by omega)
  refine ⟨ds, ?_, h2, h3, ?_, by simpa using h6 0⟩
  · unfold formatInt
    by_cases hi : i < 0
    · simp [hi, h1]
    · simp [hi, h1]
  · intro hh
    by_cases hn : i.natAbs = 0
    · exact h4 hn
    · exact absurd hh (h5 hn)

theorem parseNumber_formatInt (i : Int) (X : GoString) (hX : GoodNext X) :
    parseNumber (formatInt i ++ X) = some (formatInt i, X) := by
  obtain ⟨ds, hfmt, hne, hdig, hzero, _⟩ := formatInt_eq i
  obtain ⟨c, X', rfl, hc⟩ := hX
  have hspan := spanDigits_append ds (c :: X') hdig ⟨c, X', rfl, hc⟩
  obtain ⟨d0, dt, rfl⟩ : ∃ d0 dt, ds = d0 :: dt := by
    cases ds with
    | nil => exact absurd rfl hne
    | cons a b => exact ⟨a, b, rfl⟩
  have hd0 : isDigit d0 = true := hdig d0 (by simp)
  have hd0' : d0 ≠ 0x2D := by
    intro h; rw [h] at hd0; exact absurd hd0 (by decide)
  have hc1 : c ≠ 0x2E ∧ c ≠ 0x65 ∧ c ≠ 0x45 := by
    rcases hc with rfl | rfl <;> decide
  rw [hfmt]
  unfold parseNumber
  by_cases hi : i < 0
  · simp only [hi, if_true, List.cons_append, List.nil_append, List.head?_cons, List.length_singleton,
      List.drop_succ_cons, List.drop_zero]
    by_cases hz : d0 = 0x30
    · have := hzero (by simp [hz])
      simp only [List.cons.injEq] at this
      obtain ⟨-, rfl⟩ := this
      subst hz
      simp [hc1.1, hc1.2.1, hc1.2.2]
    · have hs : spanDigits (d0 :: (dt ++ c :: X')) = (d0 :: dt, c :: X') := by simpa using hspan
      simp [hz, hs, hc1.1, hc1.2.1, hc1.2.2]
  · simp only [hi, if_false, List.nil_append, List.cons_append, List.head?_cons, List.length_nil,
      List.drop_zero, Option.some.injEq, hd0']
    by_cases hz : d0 = 0x30
    · have := hzero (by simp [hz])
      simp only [List.cons.injEq] at this
      obtain ⟨-, rfl⟩ := this
      subst hz
      simp [hc1.1, hc1.2.1, hc1.2.2]
    · have hs : spanDigits (d0 :: (dt ++ c :: X')) = (d0 :: dt, c :: X') := by simpa using hspan
      simp [hz, hs, hc1.1, hc1.2.1, hc1.2.2]

theorem parseInt64_formatInt (i : Int) (h1 : -(2 ^ 63 : Int) ≤ i) (h2 : i < (2 ^ 63 : Int)) :
    parseInt64 (formatInt i) = some i := by
  obtain ⟨ds, hfmt, hne, hdig, hzero, hval⟩ := formatInt_eq i
  obtain ⟨d0, dt, rfl⟩ : ∃ d0 dt, ds = d0 :: dt := by
    cases ds with
    | nil => exact absurd rfl hne
    | cons a b => exact ⟨a, b, rfl⟩
  have hd0 : isDigit d0 = true := hdig d0 (by simp)
  have hd0' : d0 ≠ 0x2D := by
    intro h; rw [h] at hd0; exact absurd hd0 (by decide)
  have hall : (d0 :: dt).all isDigit = true := by
    rw [List.all_eq_true]; exact hdig
  have h1' : (-9223372036854775808 : Int) ≤ i := by norm_num at h1; exact h1
  have h2' : i < (9223372036854775808 : Int) := by norm_num at h2; exact h2
  have hval' : List.foldl (fun acc d => acc * 10 + (d - 48)) (d0 - 48) dt = i.natAbs := by
    simpa using hval
  have hdig' : isDigit d0 = true ∧ ∀ x ∈ dt, isDigit x = true := by
    simpa using hdig
  rw [hfmt]
  unfold parseInt64
  by_cases hi : i < 0
  · have hv : -((i.natAbs : Nat) : Int) = i := by omega
    have habs : |i| = -i := abs_of_neg hi
    simp [hi, hdig', hval', hv, h1', h2']
    refine ⟨hdig'.2, ⟨?_, ?_⟩, ?_⟩ <;> omega
  · have hv : ((i.natAbs : Nat) : Int) = i := by omega
    simp [hi, hd0', hdig', hval', hv, h1', h2']
    exact hdig'.2

theorem ParsesAny.toParsesTo {V : GoString} {v : JValue} {depth : Nat}
    (h : ParsesAny V v depth) : ParsesTo V v depth :=
  ⟨h.1, fun X f _ hf => h.2 X f hf⟩

theorem lit_comma : lit "," = [0x2C] := by decide
theorem lit_colon : lit ": " = [0x3A, 0x20] := by decide
theorem lit_null : lit "null" = [0x6E, 0x75, 0x6C, 0x6C] := by decide

theorem parsesAny_string (s : GoString) (depth : Nat) :
    ParsesAny (appendString s) (JValue.string (coerceUTF8 s)) depth := by
  constructor
  · intro X; simp [appendString, skipSpace, isSpace]
  · intro X f hf
    have e : appendString s ++ X = 0x22 :: (escapeLoop s.length s ++ 0x22 :: X) := by
      simp [appendString]
    rw [e] at hf ⊢
    obtain ⟨f', rfl⟩ : ∃ f', f = f' + 1 := ⟨f - 1, by simp at hf; omega⟩
    simp only [parseValue, if_true]
    rw [parseString_escapeLoop X s.length s _ le_rfl (by simp; omega)]
    rfl

theorem parsesAny_null (depth : Nat) : ParsesAny (lit "null") JValue.null depth := by
  rw [lit_null]
  constructor
  · intro X; simp [skipSpace, isSpace]
  · intro X f hf
    obtain ⟨f', rfl⟩ : ∃ f', f = f' + 1 := ⟨f - 1, by simp at hf; omega⟩
    have : lit "ull" = [0x75, 0x6C, 0x6C] := by decide
    simp [parseValue, this]

theorem parsesTo_number (i : Int) (depth : Nat) :
    ParsesTo (formatInt i) (JValue.number (formatInt i)) depth := by
  obtain ⟨ds, hfmt, hne, hdig, -, -⟩ := formatInt_eq i
  obtain ⟨d0, dt, rfl⟩ : ∃ d0 dt, ds = d0 :: dt := by
    cases ds with
    | nil => exact absurd rfl hne
    | cons a b => exact ⟨a, b, rfl⟩
  have hd0 : isDigit d0 = true := hdig d0 (by simp)
  obtain ⟨c, r, hc, hcr⟩ : ∃ c r, formatInt i = c :: r ∧ (c = 0x2D ∨ isDigit c = true) := by
    rw [hfmt]
    by_cases hi : i < 0
    · exact ⟨0x2D, d0 :: dt, by simp [hi], Or.inl rfl⟩
    · exact ⟨d0, dt, by simp [hi], Or.inr hd0⟩
  have hc' : c ≠ 0x22 ∧ c ≠ 0x7B ∧ c ≠ 0x5B ∧ c ≠ 0x74 ∧ c ≠ 0x66 ∧ c ≠ 0x6E ∧
      isSpace c = false := by
    rcases hcr with rfl | h
    · decide
    · simp [isDigit] at h
      simp [isSpace]
      omega
  constructor
  · intro X
    rw [hc]
    simp [skipSpace, hc'.2.2.2.2.2.2]
  · intro X f hX hf
    have hp := parseNumber_formatInt i X hX
    rw [hc] at hf hp ⊢
    obtain ⟨f', rfl⟩ : ∃ f', f = f' + 1 := ⟨f - 1, by simp at hf; omega⟩
    simp only [List.cons_append] at hp ⊢
    simp only [parseValue, hc'.1, hc'.2.1, hc'.2.2.1, hc'.2.2.2.1, hc'.2.2.2.2.1,
      hc'.2.2.2.2.2.1, if_false, hcr, if_true, hp]
    rfl

theorem joinMore_goodNext (d d' closing : Nat) (items : List GoString) (X : GoString) :
    GoodNext (joinMore d items ++ (newline d' ++ closing :: X)) := by
  cases items with
  | nil =>
    exact ⟨0x0A, List.replicate (2 * d') 0x20 ++ closing :: X, by simp [joinMore, newline],
      Or.inr rfl⟩
  | cons x xs =>
    exact ⟨0x2C, newline d ++ (x ++ (joinMore d xs ++ (newline d' ++ closing :: X))),
      by simp [joinMore, lit_comma], Or.inl rfl⟩

theorem parseElems_items (depth d d' : Nat) :
    ∀ (items : List (GoString × JValue)) (V : GoString) (v : JValue) (X : GoString) (f : Nat),
      ParsesTo V v depth → (∀ it ∈ items, ParsesTo it.1 it.2 depth) →
      2 * (V ++ (joinMore d (items.map Prod.fst) ++ (newline d' ++ 0x5D :: X))).length + 1 ≤ f →
      parseElems f depth (V ++ (joinMore d (items.map Prod.fst) ++ (newline d' ++ 0x5D :: X))) =
        some (v :: items.map Prod.snd, X) := by
  intro items
  induction items with
  | nil =>
    intro V v X f hV _ hf
    obtain ⟨f', rfl⟩ : ∃ f', f = f' + 1 := ⟨f - 1, by omega⟩
    have hg := joinMore_goodNext d d' 0x5D [] X
    have hp := hV.2 _ f' hg (by simp at hf ⊢; omega)
    simp only [List.map_nil] at hp hf ⊢
    simp only [parseElems, hp]
    have hs : skipSpace (joinMore d [] ++ (newline d' ++ 0x5D :: X)) = 0x5D :: X := by
      rw [show joinMore d [] = [] from rfl, List.nil_append, skipSpace_newline]
      simp [skipSpace, isSpace]
    rw [hs]
    simp
  | cons it items ih =>
    intro V v X f hV hall hf
    obtain ⟨f', rfl⟩ : ∃ f', f = f' + 1 := ⟨f - 1, by omega⟩
    have hg := joinMore_goodNext d d' 0x5D ((it :: items).map Prod.fst) X
    have hp := hV.2 _ f' hg (by simp at hf ⊢; omega)
    have hit : ParsesTo it.1 it.2 depth := hall it (by simp)
    have hrest := ih it.1 it.2 X f' hit (fun x hx => hall x (by simp [hx]))
      (by simp [joinMore, lit_comma] at hf ⊢; omega)
    simp only [parseElems, hp]
    have hsk : skipSpace (joinMore d ((it :: items).map Prod.fst) ++ (newline d' ++ 0x5D :: X)) =
        0x2C :: (newline d ++ (it.1 ++
          (joinMore d (items.map Prod.fst) ++ (newline d' ++ 0x5D :: X)))) := by
      simp [joinMore, lit_comma, skipSpace, isSpace]
    rw [hsk]
    simp only [List.head?_cons, if_true, List.drop_succ_cons, List.drop_zero]
    rw [skipSpace_newline, hit.1, hrest]
    rfl

theorem parseMembers_items (depth d d' : Nat) :
    ∀ (items : List (GoString × GoString × JValue)) (k V : GoString) (v : JValue)
      (X : GoString) (f : Nat),
      ParsesTo V v depth → (∀ it ∈ items, ParsesTo it.2.1 it.2.2 depth) →
      2 * (encodeMember k V ++ (joinMore d (items.map (fun it => encodeMember it.1 it.2.1)) ++
        (newline d' ++ 0x7D :: X))).length + 1 ≤ f →
      parseMembers f depth
        (encodeMember k V ++ (joinMore d (items.map (fun it => encodeMember it.1 it.2.1)) ++
          (newline d' ++ 0x7D :: X))) =
        some ((coerceUTF8 k, v) :: items.map (fun it => (coerceUTF8 it.1, it.2.2)), X) := by
  intro items
  induction items with
  | nil =>
    intro k V v X f hV _ hf
    obtain ⟨f', rfl⟩ : ∃ f', f = f' + 1 := ⟨f - 1, by omega⟩
    have hg := joinMore_goodNext d d' 0x7D [] X
    have hp := hV.2 _ f' hg (by simp [encodeMember] at hf ⊢; omega)
    have hk := parseString_escapeLoop (0x3A :: 0x20 :: (V ++ (joinMore d [] ++ (newline d' ++ 0x7D :: X))))
      k.length k
      (encodeMember k V ++ (joinMore d [] ++ (newline d' ++ 0x7D :: X))).length le_rfl
      (by simp [encodeMember, appendString]; omega)
    have e : encodeMember k V ++ (joinMore d [] ++ (newline d' ++ 0x7D :: X)) =
        0x22 :: (escapeLoop k.length k ++
          0x22 :: 0x3A :: 0x20 :: (V ++ (joinMore d [] ++ (newline d' ++ 0x7D :: X)))) := by
      simp [encodeMember, appendString, lit_colon]
    simp only [List.map_nil] at hp hf ⊢
    rw [e] at hk ⊢
    simp only [parseMembers, List.head?_cons, if_true, List.drop_succ_cons, List.drop_zero, hk]
    have hs1 : skipSpace (0x3A :: 0x20 :: (V ++ (joinMore d [] ++ (newline d' ++ 0x7D :: X)))) =
        0x3A :: 0x20 :: (V ++ (joinMore d [] ++ (newline d' ++ 0x7D :: X))) := by
      simp [skipSpace, isSpace]
    have hs2 : skipSpace (0x20 :: (V ++ (joinMore d [] ++ (newline d' ++ 0x7D :: X)))) =
        V ++ (joinMore d [] ++ (newline d' ++ 0x7D :: X)) := by
      have : skipSpace (0x20 :: (V ++ (joinMore d [] ++ (newline d' ++ 0x7D :: X)))) =
          skipSpace (V ++ (joinMore d [] ++ (newline d' ++ 0x7D :: X))) := by
        simp [skipSpace, isSpace]
      rw [this, hV.1]
    simp only [hs1, List.head?_cons, if_true, List.drop_succ_cons, List.drop_zero, hs2, hp]
    have hs : skipSpace (joinMore d [] ++ (newline d' ++ 0x7D :: X)) = 0x7D :: X := by
      rw [show joinMore d [] = [] from rfl, List.nil_append, skipSpace_newline]
      simp [skipSpace, isSpace]
    rw [hs]
    simp [coerceUTF8]
  | cons it items ih =>
    intro k V v X f hV hall hf
    obtain ⟨f', rfl⟩ : ∃ f', f = f' + 1 := ⟨f - 1, by omega⟩
    generalize hY : joinMore d ((it :: items).map (fun it => encodeMember it.1 it.2.1)) ++
        (newline d' ++ 0x7D :: X) = Y at hf ⊢
    have hg : GoodNext Y := by
      rw [← hY]; exact joinMore_goodNext d d' 0x7D _ X
    have hp := hV.2 _ f' hg (by simp [encodeMember] at hf ⊢; omega)
    have hk := parseString_escapeLoop (0x3A :: 0x20 :: (V ++ Y)) k.length k
      (encodeMember k V ++ Y).length le_rfl
      (by simp [encodeMember, appendString]; omega)
    have e : encodeMember k V ++ Y =
        0x22 :: (escapeLoop k.length k ++ 0x22 :: 0x3A :: 0x20 :: (V ++ Y)) := by
      simp [encodeMember, appendString, lit_colon]
    have hit : ParsesTo it.2.1 it.2.2 depth := hall it (by simp)
    have hYe : Y = 0x2C :: (newline d ++ (encodeMember it.1 it.2.1 ++
        (joinMore d (items.map (fun it => encodeMember it.1 it.2.1)) ++
          (newline d' ++ 0x7D :: X)))) := by
      rw [← hY]; simp [joinMore, lit_comma]
    have hrest := ih it.1 it.2.1 it.2.2 X f' hit (fun x hx => hall x (by simp [hx]))
      (by rw [hYe] at hf; simp [encodeMember] at hf ⊢; omega)
    rw [e] at hk ⊢
    simp only [parseMembers, List.head?_cons, if_true, List.drop_succ_cons, List.drop_zero, hk]
    have hs1 : skipSpace (0x3A :: 0x20 :: (V ++ Y)) = 0x3A :: 0x20 :: (V ++ Y) := by
      simp [skipSpace, isSpace]
    have hs2 : skipSpace (0x20 :: (V ++ Y)) = V ++ Y := by
      have : skipSpace (0x20 :: (V ++ Y)) = skipSpace (V ++ Y) := by
        simp [skipSpace, isSpace]
      rw [this, hV.1]
    simp only [hs1, List.head?_cons, if_true, List.drop_succ_cons, List.drop_zero, hs2, hp]
    have hs3 : skipSpace Y = Y := by rw [hYe]; simp [skipSpace, isSpace]
    rw [hs3]
    rw [hYe]
    simp only [List.head?_cons, if_true, List.drop_succ_cons, List.drop_zero]
    have hs4 : skipSpace (newline d ++ (encodeMember it.1 it.2.1 ++
        (joinMore d (items.map (fun it => encodeMember it.1 it.2.1)) ++
          (newline d' ++ 0x7D :: X)))) =
        encodeMember it.1 it.2.1 ++
        (joinMore d (items.map (fun it => encodeMember it.1 it.2.1)) ++
          (newline d' ++ 0x7D :: X)) := by
      rw [skipSpace_newline]
      simp [encodeMember, appendString, skipSpace, isSpace]
    rw [hs4, hrest]
    rfl

theorem parsesAny_array (depth d : Nat) (items : List (GoString × JValue))
    (hd : depth < maxNestingDepth) (hall : ∀ it ∈ items, ParsesTo it.1 it.2 (depth + 1))
    (hhead : ∀ it ∈ items, ∀ Y, (it.1 ++ Y).head? ≠ some 0x5D) :
    ParsesAny (encodeBlock 0x5B 0x5D d (items.map Prod.fst))
      (JValue.array (items.map Prod.snd)) depth := by
  have hd' : ¬ depth ≥ maxNestingDepth := by omega
  constructor
  · intro X
    cases items <;> simp [encodeBlock, skipSpace, isSpace]
  · intro X f hf
    cases items with
    | nil =>
      obtain ⟨f', rfl⟩ : ∃ f', f = f' + 1 := ⟨f - 1, by simp [encodeBlock] at hf; omega⟩
      simp [encodeBlock, parseValue, hd', skipSpace, isSpace]
    | cons it rest =>
      obtain ⟨f', rfl⟩ : ∃ f', f = f' + 1 := ⟨f - 1, by simp [encodeBlock] at hf; omega⟩
      have hit := hall it (by simp)
      have e : encodeBlock 0x5B 0x5D d ((it :: rest).map Prod.fst) ++ X =
          0x5B :: (newline (d + 1) ++ (it.1 ++ (joinMore (d + 1) (rest.map Prod.fst) ++
            (newline d ++ 0x5D :: X)))) := by
        simp [encodeBlock]
      rw [e] at hf ⊢
      have hs : skipSpace (newline (d + 1) ++ (it.1 ++ (joinMore (d + 1) (rest.map Prod.fst) ++
            (newline d ++ 0x5D :: X)))) =
          it.1 ++ (joinMore (d + 1) (rest.map Prod.fst) ++ (newline d ++ 0x5D :: X)) := by
        rw [skipSpace_newline, hit.1]
      have hne := hhead it (by simp)
        (joinMore (d + 1) (rest.map Prod.fst) ++ (newline d ++ 0x5D :: X))
      have hp := parseElems_items (depth + 1) (d + 1) d rest it.1 it.2 X f' hit
        (fun x hx => hall x (by simp [hx]))
        (by simp at hf ⊢; omega)
      simp only [parseValue, hd', hs, hne, hp, if_false]
      simp

theorem parsesAny_object (depth d : Nat) (items : List (GoString × GoString × JValue))
    (hd : depth < maxNestingDepth) (hall : ∀ it ∈ items, ParsesTo it.2.1 it.2.2 (depth + 1)) :
    ParsesAny (encodeBlock 0x7B 0x7D d (items.map (fun it => encodeMember it.1 it.2.1)))
      (JValue.object (items.map (fun it => (coerceUTF8 it.1, it.2.2)))) depth := by
  have hd' : ¬ depth ≥ maxNestingDepth := by omega
  constructor
  · intro X
    cases items <;> simp [encodeBlock, skipSpace, isSpace]
  · intro X f hf
    cases items with
    | nil =>
      obtain ⟨f', rfl⟩ : ∃ f', f = f' + 1 := ⟨f - 1, by simp [encodeBlock] at hf; omega⟩
      simp [encodeBlock, parseValue, hd', skipSpace, isSpace]
    | cons it rest =>
      obtain ⟨f', rfl⟩ : ∃ f', f = f' + 1 := ⟨f - 1, by simp [encodeBlock] at hf; omega⟩
      have hit := hall it (by simp)
      have e : encodeBlock 0x7B 0x7D d ((it :: rest).map (fun it => encodeMember it.1 it.2.1)) ++ X =
          0x7B :: (newline (d + 1) ++ (encodeMember it.1 it.2.1 ++
            (joinMore (d + 1) (rest.map (fun it => encodeMember it.1 it.2.1)) ++
              (newline d ++ 0x7D :: X)))) := by
        simp [encodeBlock]
      rw [e] at hf ⊢
      have hs : skipSpace (newline (d + 1) ++ (encodeMember it.1 it.2.1 ++
            (joinMore (d + 1) (rest.map (fun it => encodeMember it.1 it.2.1)) ++
              (newline d ++ 0x7D :: X)))) =
          encodeMember it.1 it.2.1 ++
            (joinMore (d + 1) (rest.map (fun it => encodeMember it.1 it.2.1)) ++
              (newline d ++ 0x7D :: X)) := by
        rw [skipSpace_newline]
        simp [encodeMember, appendString, skipSpace, isSpace]
      have hne : (encodeMember it.1 it.2.1 ++
            (joinMore (d + 1) (rest.map (fun it => encodeMember it.1 it.2.1)) ++
              (newline d ++ 0x7D :: X))).head? ≠ some 0x7D := by
        simp [encodeMember, appendString]
      have hp := parseMembers_items (depth + 1) (d + 1) d rest it.1 it.2.1 it.2.2 X f' hit
        (fun x hx => hall x (by simp [hx]))
        (by simp at hf ⊢; omega)
      simp only [parseValue, hd', hs, hne, hp, if_false]
      simp

theorem coerceUTF8_names :
    coerceUTF8 (lit "comment") = lit "comment" ∧ coerceUTF8 (lit "file_path") = lit "file_path" ∧
    coerceUTF8 (lit "line_number") = lit "line_number" ∧
    coerceUTF8 (lit "function") = lit "function" ∧
    coerceUTF8 (lit "projects") = lit "projects" := by
  decide

theorem parsesAny_todo (depth d : Nat) (t : store.Todo) (hd : depth < maxNestingDepth) :
    ParsesAny (encodeTodo d t) (todoValue t) depth := by
  have h := parsesAny_object depth d
    [ (lit "comment", appendString t.Comment, JValue.string (coerceUTF8 t.Comment)),
      (lit "file_path", appendString t.FilePath, JValue.string (coerceUTF8 t.FilePath)),
      (lit "line_number", formatInt t.LineNumber, JValue.number (formatInt t.LineNumber)),
      (lit "function", appendString t.Function, JValue.string (coerceUTF8 t.Function)) ] hd
    (by
      intro it hit
      simp only [List.mem_cons, List.mem_singleton, List.not_mem_nil, or_false] at hit
      rcases hit with rfl | rfl | rfl | rfl
      · exact (parsesAny_string _ _).toParsesTo
      · exact (parsesAny_string _ _).toParsesTo
      · exact parsesTo_number _ _
      · exact (parsesAny_string _ _).toParsesTo)
  obtain ⟨c1, c2, c3, c4, -⟩ := coerceUTF8_names
  simpa [encodeTodo, todoValue, c1, c2, c3, c4] using h

theorem encodeTodo_head (d : Nat) (t : store.Todo) (Y : GoString) :
    (encodeTodo d t ++ Y).head? ≠ some 0x5D := by
  simp [encodeTodo, encodeBlock]

theorem parsesAny_slice (depth d : Nat) (sl : store.TodoSlice)
    (hd : depth + 1 < maxNestingDepth) :
    ParsesAny (encodeSlice d sl) (sliceValue sl) depth := by
  cases sl with
  | none => exact parsesAny_null depth
  | some ts =>
    have h := parsesAny_array depth d (ts.map (fun t => (encodeTodo (d + 1) t, todoValue t)))
      (by omega)
      (by
        intro it hit
        obtain ⟨t, -, rfl⟩ := List.mem_map.1 hit
        exact (parsesAny_todo (depth + 1) (d + 1) t hd).toParsesTo)
      (by
        intro it hit Y
        obtain ⟨t, -, rfl⟩ := List.mem_map.1 hit
        exact encodeTodo_head (d + 1) t Y)
    simpa [encodeSlice, sliceValue, List.map_map, Function.comp_def] using h

theorem parsesAny_map (depth d : Nat) (m : Option store.ProjectMap)
    (hd : depth + 2 < maxNestingDepth) :
    ParsesAny (encodeMap d m) (mapValue m) depth := by
  cases m with
  | none => exact parsesAny_null depth
  | some m =>
    have h := parsesAny_object depth d
      ((sortedKeys m).map (fun k =>
        (k, encodeSlice (d + 1) ((store.mapGet m k).getD none),
          sliceValue ((store.mapGet m k).getD none))))
      (by omega)
      (by
        intro it hit
        obtain ⟨k, -, rfl⟩ := List.mem_map.1 hit
        exact (parsesAny_slice (depth + 1) (d + 1) _ hd).toParsesTo)
    simpa [encodeMap, mapValue, List.map_map, Function.comp_def] using h

/-- The syntax phase of the decoder reads the document `MarshalIndent` writes as the
JSON value of the store. -/
theorem parseDocument_MarshalIndent (s : store.Store) :
    parseDocument (MarshalIndent s) = some (storeValue s) := by
  have h := parsesAny_object 0 0 [(lit "projects", encodeMap 1 s.Projects, mapValue s.Projects)]
    (by decide)
    (by
      intro it hit
      simp only [List.mem_singleton] at hit
      subst hit
      exact (parsesAny_map 1 1 _ (by decide)).toParsesTo)
  have e : encodeBlock 0x7B 0x7D 0
      ([(lit "projects", encodeMap 1 s.Projects, mapValue s.Projects)].map
        (fun it => encodeMember it.1 it.2.1)) = MarshalIndent s := by
    simp [MarshalIndent]
  rw [e] at h
  have h1 := h.1 []
  have h2 := h.2 [] (2 * (MarshalIndent s).length + 1) (by simp)
  simp only [List.append_nil] at h1 h2
  unfold parseDocument
  rw [h1, h2]
  simp [storeValue, coerceUTF8_names.2.2.2.2, skipSpace]

theorem coerceLoop_valid : ∀ (n : Nat) (s : GoString), s.length ≤ n →
    utf8.validLoop n s = true → coerceLoop n s = s := by
  intro n
  induction n with
  | zero =>
    intro s hs _
    have : s = [] := List.length_eq_zero.1 (by omega)
    subst this; rfl
  | succ n ih =>
    intro s hs hv
    cases s with
    | nil => rfl
    | cons b t =>
      by_cases hbad : (utf8.DecodeRune (b :: t)).1 = utf8.RuneError ∧
          (utf8.DecodeRune (b :: t)).2 = 1
      · simp [utf8.validLoop, hbad] at hv
      · have hsz := utf8.DecodeRune_size (b :: t) (by simp)
        have hv' : utf8.validLoop n ((b :: t).drop (utf8.DecodeRune (b :: t)).2) = true := by
          simpa [utf8.validLoop, hbad] using hv
        have hlen : ((b :: t).drop (utf8.DecodeRune (b :: t)).2).length ≤ n := by
          simp only [List.length_drop, List.length_cons] at hs ⊢
          omega
        have := ih _ hlen hv'
        simp only [coerceLoop, hbad, if_false, this]
        exact List.take_append_drop _ _

theorem coerceUTF8_valid (s : GoString) (h : utf8.ValidString s = true) : coerceUTF8 s = s :=
  coerceLoop_valid s.length s le_rfl h

theorem keyMatches_names :
    keyMatches (lit "comment") (lit "comment") = true ∧
    keyMatches (lit "comment") (lit "file_path") = false ∧
    keyMatches (lit "file_path") (lit "file_path") = true ∧
    keyMatches (lit "comment") (lit "line_number") = false ∧
    keyMatches (lit "file_path") (lit "line_number") = false ∧
    keyMatches (lit "line_number") (lit "line_number") = true ∧
    keyMatches (lit "comment") (lit "function") = false ∧
    keyMatches (lit "file_path") (lit "function") = false ∧
    keyMatches (lit "line_number") (lit "function") = false ∧
    keyMatches (lit "function") (lit "function") = true ∧
    keyMatches (lit "projects") (lit "projects") = true := by
  decide

theorem decodeTodo_todoValue (t : store.Todo) (h : todoOK t = true) :
    decodeTodo (todoValue t) = some t := by
  simp only [todoOK, Bool.and_eq_true, decide_eq_true_eq] at h
  obtain ⟨⟨⟨⟨h1, h2⟩, h3⟩, h4⟩, h5⟩ := h
  obtain ⟨k1, k2, k3, k4, k5, k6, k7, k8, k9, k10, -⟩ := keyMatches_names
  simp [decodeTodo, todoValue, decodeTodoMembers, decodeTodoMember, decodeString, decodeInt,
    k1, k2, k3, k4, k5, k6, k7, k8, k9, k10, coerceUTF8_valid _ h1, coerceUTF8_valid _ h2,
    coerceUTF8_valid _ h3, parseInt64_formatInt _ h4 h5]

theorem decodeTodos_todoValue (ts : List store.Todo) (h : ts.all todoOK = true) :
    decodeTodos (ts.map todoValue) = some ts := by
  induction ts with
  | nil => rfl
  | cons t ts ih =>
    simp only [List.all_cons, Bool.and_eq_true] at h
    simp [decodeTodos, decodeTodo_todoValue t h.1, ih h.2]

theorem decodeSlice_sliceValue (sl : store.TodoSlice) (h : (store.elems sl).all todoOK = true) :
    decodeSlice (sliceValue sl) = some sl := by
  cases sl with
  | none => rfl
  | some ts =>
    have h' : ts.all todoOK = true := by simpa [store.elems] using h
    simp [decodeSlice, sliceValue, decodeTodos_todoValue ts h']

end json

namespace store

theorem mapGet_mapSet (m : ProjectMap) (k P : GoString) (v : TodoSlice) :
    mapGet (mapSet m k v) P = if k = P then some v else mapGet m P := by
  induction m with
  | nil => simp [mapSet, mapGet]
  | cons kv rest ih =>
    obtain ⟨k', v'⟩ := kv
    by_cases h : k' = k
    · subst h
      by_cases h2 : k' = P
      · simp [mapSet, mapGet, h2]
      · simp [mapSet, mapGet, h2]
    · by_cases h2 : k' = P
      · subst h2
        simp [mapSet, mapGet, h, Ne.symm h]
      · simp [mapSet, mapGet, h, h2, ih]

theorem mapGet_mem (m : ProjectMap) (k : GoString) (v : TodoSlice) (h : mapGet m k = some v) :
    (k, v) ∈ m := by
  induction m with
  | nil => simp [mapGet] at h
  | cons kv rest ih =>
    obtain ⟨k', v'⟩ := kv
    by_cases h2 : k' = k
    · subst h2
      simp [mapGet] at h
      simp [h]
    · simp [mapGet, h2] at h
      exact List.mem_cons_of_mem _ (ih h)

theorem mapGet_isSome_iff (m : ProjectMap) (k : GoString) :
    (∃ v, mapGet m k = some v) ↔ ∃ v, (k, v) ∈ m := by
  constructor
  · rintro ⟨v, h⟩; exact ⟨v, mapGet_mem m k v h⟩
  · rintro ⟨v, h⟩
    induction m with
    | nil => simp at h
    | cons kv rest ih =>
      obtain ⟨k', v'⟩ := kv
      by_cases h2 : k' = k
      · exact ⟨v', by simp [mapGet, h2]⟩
      · have : (k, v) ∈ rest := by
          rcases List.mem_cons.1 h with h | h
          · simp only [Prod.mk.injEq] at h; exact absurd h.1.symm h2
          · exact h
        obtain ⟨w, hw⟩ := ih this
        exact ⟨w, by simp [mapGet, h2, hw]⟩

end store

namespace json

theorem mem_insertKey (x k : GoString) (l : List GoString) :
    x ∈ insertKey k l ↔ x = k ∨ x ∈ l := by
  induction l with
  | nil => simp [insertKey]
  | cons y ys ih =>
    unfold insertKey
    by_cases h1 : k = y
    · subst h1; simp
    · by_cases h2 : strLess k y = true
      · simp [h1, h2]
      · simp [h1, h2, ih]
        tauto

theorem mem_sortedKeys (m : store.ProjectMap) (x : GoString) :
    x ∈ sortedKeys m ↔ ∃ v, (x, v) ∈ m := by
  induction m with
  | nil => simp [sortedKeys]
  | cons kv rest ih =>
    obtain ⟨k, v⟩ := kv
    have : sortedKeys ((k, v) :: rest) = insertKey k (sortedKeys rest) := rfl
    rw [this, mem_insertKey, ih]
    constructor
    · rintro (rfl | ⟨w, hw⟩)
      · exact ⟨v, by simp⟩
      · exact ⟨w, by simp [hw]⟩
    · rintro ⟨w, hw⟩
      rcases List.mem_cons.1 hw with h | h
      · simp only [Prod.mk.injEq] at h; exact Or.inl h.1
      · exact Or.inr ⟨w, h⟩

theorem decodeMapMembers_keys (g : GoString → store.TodoSlice) :
    ∀ (keys : List GoString) (cur : store.ProjectMap),
      (∀ k ∈ keys, utf8.ValidString k = true ∧ (store.elems (g k)).all todoOK = true) →
      ∃ m', decodeMapMembers cur (keys.map (fun k => (coerceUTF8 k, sliceValue (g k)))) = some m' ∧
        ∀ P, store.mapGet m' P = if P ∈ keys then some (g P) else store.mapGet cur P := by
  intro keys
  induction keys with
  | nil => intro cur _; exact ⟨cur, rfl, by simp⟩
  | cons k ks ih =>
    intro cur h
    obtain ⟨hk1, hk2⟩ := h k (by simp)
    obtain ⟨m', hm', hget⟩ := ih (store.mapSet cur k (g k)) (fun x hx => h x (by simp [hx]))
    refine ⟨m', ?_, ?_⟩
    · simp [decodeMapMembers, decodeSlice_sliceValue _ hk2, coerceUTF8_valid _ hk1, hm']
    · intro P
      rw [hget P, store.mapGet_mapSet]
      by_cases h1 : P ∈ ks
      · simp [h1]
      · by_cases h2 : k = P
        · subst h2; simp [h1]
        · have : P ≠ k := fun e => h2 e.symm
          simp [h1, h2, this]

/-- The decoder reads the JSON value of a well-formed store back as a store with the
same entries. -/
theorem decodeStore_storeValue (s : store.Store) (h : storeOK s = true) :
    ∃ s', decodeStore (storeValue s) = some s' ∧
      (s'.Projects = none ↔ s.Projects = none) ∧
      ∀ P, s'.GetProject P = s.GetProject P := by
  obtain ⟨m⟩ := s
  cases m with
  | none =>
    refine ⟨⟨none⟩, ?_, by simp, fun P => rfl⟩
    simp [decodeStore, storeValue, decodeStoreMembers, keyMatches_names.2.2.2.2.2.2.2.2.2.2,
      mapValue, decodeMap]
  | some m =>
    have hm : ∀ kv ∈ m, utf8.ValidString kv.1 = true ∧ (store.elems kv.2).all todoOK = true := by
      simpa [storeOK, List.all_eq_true] using h
    obtain ⟨m', hm', hget⟩ := decodeMapMembers_keys (fun k => (store.mapGet m k).getD none)
      (sortedKeys m) []
      (by
        intro k hk
        obtain ⟨v, hv⟩ := (mem_sortedKeys m k).1 hk
        refine ⟨(hm _ hv).1, ?_⟩
        obtain ⟨w, hw⟩ := (store.mapGet_isSome_iff m k).2 ⟨v, hv⟩
        show (store.elems ((store.mapGet m k).getD none)).all todoOK = true
        rw [hw]
        exact (hm _ (store.mapGet_mem m k w hw)).2)
    have hsame : ∀ P, store.mapGet m' P = store.mapGet m P := by
      intro P
      rw [hget P]
      by_cases hP : P ∈ sortedKeys m
      · obtain ⟨v, hv⟩ := (mem_sortedKeys m P).1 hP
        obtain ⟨w, hw⟩ := (store.mapGet_isSome_iff m P).2 ⟨v, hv⟩
        simp [hP, hw]
      · have : store.mapGet m P = none := by
          cases hg : store.mapGet m P with
          | none => rfl
          | some w =>
            exact absurd ((mem_sortedKeys m P).2 ⟨w, store.mapGet_mem m P w hg⟩) hP
        simp [hP, this, store.mapGet]
    refine ⟨⟨some m'⟩, ?_, by simp, ?_⟩
    · simp [decodeStore, storeValue, decodeStoreMembers, keyMatches_names.2.2.2.2.2.2.2.2.2.2,
        mapValue, decodeMap, hm']
    · intro P
      simp [store.Store.GetProject, hsame P]

/-- The call `Unmarshal` after `MarshalIndent` on a well-formed store. -/
theorem Unmarshal_MarshalIndent (s : store.Store) (h : storeOK s = true) :
    ∃ s', Unmarshal (MarshalIndent s) = some s' ∧
      (s'.Projects = none ↔ s.Projects = none) ∧
      ∀ P, s'.GetProject P = s.GetProject P := by
  obtain ⟨s', h1, h2, h3⟩ := decodeStore_storeValue s h
  exact ⟨s', by simp [Unmarshal, parseDocument_MarshalIndent, h1], h2, h3⟩

end json

namespace store

/-- A `Save` that returns no error leaves the complete document in the file. -/
theorem Save_ok (s : Store) (f : os.FileState) (o : os.WriteOutcome)
    (h : (s.Save f o).2 = false) : (s.Save f o).1 = os.FileState.data (json.MarshalIndent s) := by
  cases o <;> simp [Store.Save, os.WriteFile] at h ⊢

/-- The entry of the updated project after the store update of `RunScan`. -/
theorem storeUpdate_entry (st : Store) (storeExists : Bool) (P : GoString)
    (todos : List Todo) (st1 : Store)
    (h : scan.storeUpdate st storeExists P todos = some st1) :
    st1.GetProject P = (some todos, true) := by
  obtain ⟨m⟩ := st
  cases m with
  | none => cases storeExists <;> simp [scan.storeUpdate, Store.UpdateProject, Store.AddProject] at h
  | some m =>
    have : st1 = ⟨some (mapSet m P (some todos))⟩ := by
      cases storeExists <;>
        simp [scan.storeUpdate, Store.UpdateProject, Store.AddProject] at h <;> exact h.symm
    subst this
    simp [Store.GetProject, mapGet_mapSet]

/-- The store update of `RunScan` (`UpdateProject` when the store file was loaded,
`AddProject` otherwise) on any store: it leaves the entry of the project equal to the
new sequence, and it completes on every store whose project map is allocated. -/
theorem storeUpdate_replaces_entry (st : Store) (storeExists : Bool) (P : GoString)
    (todos : List Todo) :
    (∀ st1, scan.storeUpdate st storeExists P todos = some st1 →
      st1.GetProject P = (some todos, true) ∧
      (∀ t, t ∈ elems (st1.GetProject P).1 → t ∈ todos) ∧
      (todos = [] → elems (st1.GetProject P).1 = [])) ∧
    (st.Projects ≠ none → ∃ st1, scan.storeUpdate st storeExists P todos = some st1) := by
  have key : ∀ st1, scan.storeUpdate st storeExists P todos = some st1 →
      st1.GetProject P = (some todos, true) :=
    fun st1 h => storeUpdate_entry st storeExists P todos st1 h
  refine ⟨fun st1 h => ⟨key st1 h, ?_, ?_⟩, ?_⟩
  · intro t ht
    rw [key st1 h] at ht
    simpa [elems] using ht
  · intro h0
    rw [key st1 h, h0]
    rfl
  · intro hne
    obtain ⟨m⟩ := st
    cases m with
    | none => exact absurd rfl hne
    | some m =>
      cases storeExists <;>
        exact ⟨⟨some (mapSet m P (some todos))⟩,
          by simp [scan.storeUpdate, Store.UpdateProject, Store.AddProject]⟩

end store

namespace scan

theorem scanWalk_ok (env : ScanEnv) (projectPath : GoString) :
    (scanWalk env projectPath).2 = none :=
  (Walk_scan env _ _ projectPath env.tree _).1

/-- What `RunScan` does once the store directory exists: it updates the loaded (or
new) store with the walk's collection and saves it. -/
theorem RunScan_saved (env : ScanEnv) (w : StoreWorld) (projectPath projectName : GoString)
    (st1 : store.Store) (h : (RunScan env w projectPath projectName).saved = some st1) :
    storeUpdate (loadOrNew w.storeFile).1 (loadOrNew w.storeFile).2
        (effectiveName projectPath projectName) (scanWalk env projectPath).1.currentTodos
      = some st1 ∧
    (RunScan env w projectPath projectName).storeFile = (st1.Save w.storeFile w.write).1 ∧
    ((RunScan env w projectPath projectName).outcome = Outcome.ok ↔
      (st1.Save w.storeFile w.write).2 = false) := by
  unfold RunScan at h ⊢
  by_cases hm : w.mkdirFails = true
  · simp [hm] at h
  · simp only [hm, scanWalk_ok] at h ⊢
    cases hu : storeUpdate (loadOrNew w.storeFile).1 (loadOrNew w.storeFile).2
        (effectiveName projectPath projectName) (scanWalk env projectPath).1.currentTodos with
    | none => simp [hu] at h
    | some st2 =>
      simp [hu] at h ⊢
      subst h
      simp

theorem RunScan_ok_saved (env : ScanEnv) (w : StoreWorld) (projectPath projectName : GoString)
    (h : (RunScan env w projectPath projectName).outcome = Outcome.ok) :
    ∃ st1, (RunScan env w projectPath projectName).saved = some st1 := by
  unfold RunScan at h ⊢
  by_cases hm : w.mkdirFails = true
  · simp [hm] at h
  · simp only [hm, scanWalk_ok] at h ⊢
    cases hu : storeUpdate (loadOrNew w.storeFile).1 (loadOrNew w.storeFile).2
        (effectiveName projectPath projectName) (scanWalk env projectPath).1.currentTodos with
    | none => simp [hu] at h
    | some st2 => exact ⟨st2, by simp [hu]⟩

theorem storeUpdate_total (st : store.Store) (storeExists : Bool) (P : GoString)
    (todos : List store.Todo) (h : st.Projects ≠ none) :
    ∃ st1, storeUpdate st storeExists P todos = some st1 := by
  obtain ⟨m⟩ := st
  cases m with
  | none => exact absurd rfl h
  | some m =>
    cases storeExists <;>
      exact ⟨⟨some (store.mapSet m P (some todos))⟩,
        by simp [storeUpdate, store.Store.UpdateProject, store.Store.AddProject]⟩

/-- Once the store directory exists and the store to update has a project map,
`RunScan` updates the store, hands it to `Save` and returns what `Save` returns. -/
theorem RunScan_runs (env : ScanEnv) (w : StoreWorld) (projectPath projectName : GoString)
    (hmk : w.mkdirFails = false) (hmap : (loadOrNew w.storeFile).1.Projects ≠ none) :
    ∃ st1, storeUpdate (loadOrNew w.storeFile).1 (loadOrNew w.storeFile).2
        (effectiveName projectPath projectName) (scanWalk env projectPath).1.currentTodos
          = some st1 ∧
      (RunScan env w projectPath projectName).saved = some st1 ∧
      (RunScan env w projectPath projectName).storeFile = (st1.Save w.storeFile w.write).1 ∧
      (w.write = os.WriteOutcome.succeeds →
        (RunScan env w projectPath projectName).outcome = Outcome.ok ∧
        (RunScan env w projectPath projectName).storeFile =
          os.FileState.data (json.MarshalIndent st1)) := by
  obtain ⟨st1, hst1⟩ := storeUpdate_total (loadOrNew w.storeFile).1
    (loadOrNew w.storeFile).2 (effectiveName projectPath projectName)
    (scanWalk env projectPath).1.currentTodos hmap
  have hrun : RunScan env w projectPath projectName =
      { outcome := if (st1.Save w.storeFile w.write).2 then Outcome.error else Outcome.ok,
        storeFile := (st1.Save w.storeFile w.write).1, saved := some st1 } := by
    unfold RunScan
    simp only [hmk, scanWalk_ok, hst1]
    simp
  refine ⟨st1, hst1, by rw [hrun], by rw [hrun], ?_⟩
  intro hw
  rw [hrun]
  simp [store.Store.Save, os.WriteFile, hw]

/-- C1. Whenever `RunScan` gets to its store update (the store directory exists) and
the store it updates has a project map, it hands to `Save` a store in which the
entry of the scanned project is exactly the sequence collected by this scan: an
annotation is in the entry only if this scan found it, and a scan that finds nothing
leaves the empty sequence. When the write succeeds `RunScan` returns no error and
the file holds the encoding of that store; read back (for valid UTF-8 text) the
entry is that sequence. The update itself does this on every store with a project
map, for every name and sequence. -/
theorem RunScan_replaces_entry (env : ScanEnv) (w : StoreWorld)
    (projectPath projectName : GoString)
    (hmk : w.mkdirFails = false) (hmap : (loadOrNew w.storeFile).1.Projects ≠ none) :
    (∃ st1, (RunScan env w projectPath projectName).saved = some st1 ∧
      st1.GetProject (effectiveName projectPath projectName) =
        (some (scanWalk env projectPath).1.currentTodos, true) ∧
      (∀ t, t ∈ store.elems (st1.GetProject (effectiveName projectPath projectName)).1 →
        t ∈ (scanWalk env projectPath).1.currentTodos) ∧
      ((scanWalk env projectPath).1.currentTodos = [] →
        store.elems (st1.GetProject (effectiveName projectPath projectName)).1 = []) ∧
      (w.write = os.WriteOutcome.succeeds →
        (RunScan env w projectPath projectName).outcome = Outcome.ok ∧
        (RunScan env w projectPath projectName).storeFile =
          os.FileState.data (json.MarshalIndent st1) ∧
        (json.storeOK st1 = true →
          ∃ s2, store.LoadStore (RunScan env w projectPath projectName).storeFile = some s2 ∧
            s2.GetProject (effectiveName projectPath projectName) =
              (some (scanWalk env projectPath).1.currentTodos, true)))) ∧
    (∀ (st : store.Store) (storeExists : Bool) (P : GoString) (todos : List store.Todo),
      st.Projects ≠ none →
      ∃ st2, storeUpdate st storeExists P todos = some st2 ∧
        st2.GetProject P = (some todos, true)) := by
  constructor
  · obtain ⟨st1, hupd, hsaved, -, hwrite⟩ := RunScan_runs env w projectPath projectName hmk hmap
    have hentry := store.storeUpdate_entry _ _ _ _ st1 hupd
    refine ⟨st1, hsaved, hentry, ?_, ?_, ?_⟩
    · intro t ht
      rw [hentry] at ht
      simpa [store.elems] using ht
    · intro h0
      rw [hentry, h0]
      rfl
    · intro hw
      obtain ⟨hok, hfile⟩ := hwrite hw
      refine ⟨hok, hfile, ?_⟩
      intro hwf
      obtain ⟨s2, h1, -, h3⟩ := json.Unmarshal_MarshalIndent st1 hwf
      refine ⟨s2, ?_, by rw [h3, hentry]⟩
      rw [hfile]
      simpa [store.LoadStore, os.ReadFile] using h1
  · intro st storeExists P todos hne
    obtain ⟨st2, h2⟩ := storeUpdate_total st storeExists P todos hne
    exact ⟨st2, h2, store.storeUpdate_entry _ _ _ _ st2 h2⟩

set_option maxRecDepth 100000 in
/-- C1 at a project with one annotation and a store file that holds another
project. -/
theorem RunScan_replaces_entry_witness :
    ∃ st1, (RunScan demoEnv demoWorld (lit "/p") (lit "p")).saved = some st1 ∧
      st1.GetProject (effectiveName (lit "/p") (lit "p")) =
        (some (scanWalk demoEnv (lit "/p")).1.currentTodos, true) :=
  match (RunScan_replaces_entry demoEnv demoWorld (lit "/p") (lit "p") rfl (by decide)).1 with
  | ⟨st1, h1, h2, _⟩ => ⟨st1, h1, h2⟩

/-- C2, as amended. When the store document loads and `RunScan` of a project succeeds,
the store it persists is the loaded store with only that project's entry replaced:
the file holds the encoding of a store in which every other project has exactly the
sequence it had before, and reading the file back gives those sequences whenever
every project name and every annotation string of the persisted store is valid
UTF-8 (and every line number a 64-bit integer). The project scanned is `P`, or the
directory name when no name is given. -/
theorem RunScan_frame (env : ScanEnv) (w : StoreWorld) (projectPath projectName : GoString)
    (s : store.Store) (hload : store.LoadStore w.storeFile = some s)
    (hok : (RunScan env w projectPath projectName).outcome = Outcome.ok) :
    ∃ st1, (RunScan env w projectPath projectName).saved = some st1 ∧
      (RunScan env w projectPath projectName).storeFile =
        os.FileState.data (json.MarshalIndent st1) ∧
      (∀ Q, Q ≠ effectiveName projectPath projectName → st1.GetProject Q = s.GetProject Q) ∧
      (json.storeOK st1 = true →
        ∃ s2, store.LoadStore (RunScan env w projectPath projectName).storeFile = some s2 ∧
          ∀ Q, Q ≠ effectiveName projectPath projectName → s2.GetProject Q = s.GetProject Q) := by
  obtain ⟨st1, hsaved⟩ := RunScan_ok_saved env w projectPath projectName hok
  obtain ⟨hupd, hfile, houtcome⟩ := RunScan_saved env w projectPath projectName st1 hsaved
  have hfile' : (RunScan env w projectPath projectName).storeFile =
      os.FileState.data (json.MarshalIndent st1) := by
    rw [hfile]; exact store.Save_ok st1 _ _ (houtcome.1 hok)
  have hlo : loadOrNew w.storeFile = (s, true) := by
    unfold loadOrNew
    have hne : os.statNotExist w.storeFile = false := by
      cases hf : w.storeFile with
      | absent => rw [hf] at hload; simp [store.LoadStore, os.ReadFile] at hload
      | unreadable => rfl
      | data c => rfl
    simp [hne, hload]
  rw [hlo] at hupd
  have hframe : ∀ Q, Q ≠ effectiveName projectPath projectName →
      st1.GetProject Q = s.GetProject Q := by
    intro Q hQ
    obtain ⟨m⟩ := s
    cases m with
    | none => simp [storeUpdate, store.Store.UpdateProject] at hupd
    | some m =>
      simp [storeUpdate, store.Store.UpdateProject] at hupd
      subst hupd
      have : ¬ effectiveName projectPath projectName = Q := fun e => hQ e.symm
      simp [store.Store.GetProject, store.mapGet_mapSet, this]
  refine ⟨st1, hsaved, hfile', hframe, ?_⟩
  intro hwf
  obtain ⟨s2, h1, -, h3⟩ := json.Unmarshal_MarshalIndent st1 hwf
  refine ⟨s2, ?_, fun Q hQ => by rw [h3 Q, hframe Q hQ]⟩
  rw [hfile']
  simpa [store.LoadStore, os.ReadFile] using h1

set_option maxRecDepth 100000 in
/-- C2, as amended, at a concrete store file and project. -/
theorem RunScan_frame_witness :
    ∃ st1, (RunScan demoEnv demoWorld (lit "/p") (lit "demo")).saved = some st1 ∧
      (RunScan demoEnv demoWorld (lit "/p") (lit "demo")).storeFile =
        os.FileState.data (json.MarshalIndent st1) ∧
      (∀ Q, Q ≠ effectiveName (lit "/p") (lit "demo") →
        st1.GetProject Q = (store.Store.mk (some [(lit "other", some [])])).GetProject Q) ∧
      (json.storeOK st1 = true →
        ∃ s2, store.LoadStore (RunScan demoEnv demoWorld (lit "/p") (lit "demo")).storeFile
            = some s2 ∧
          ∀ Q, Q ≠ effectiveName (lit "/p") (lit "demo") →
            s2.GetProject Q = (store.Store.mk (some [(lit "other", some [])])).GetProject Q) :=
  RunScan_frame demoEnv demoWorld (lit "/p") (lit "demo") ⟨some [(lit "other", some [])]⟩
    (by decide) (by decide)

set_option maxRecDepth 100000 in
/-- C2, as stated, fails: the store file holds the project named U+FFFD with no
annotation, and the project scanned has the name 0xFF, one byte that is not valid
UTF-8. The scan succeeds; both names are written as the replacement character, and
the document read back has one project, U+FFFD, with the annotation of the scan:
the sequence of a project other than the scanned one has changed. -/
theorem RunScan_frame_invalid_name_counterexample :
    store.LoadStore replacementWorld.storeFile =
      some (store.Store.mk (some [([0xEF, 0xBF, 0xBD], some [])])) ∧
    effectiveName (lit "/p") [0xFF] = [0xFF] ∧
    (RunScan demoEnv replacementWorld (lit "/p") [0xFF]).outcome = Outcome.ok ∧
    (RunScan demoEnv replacementWorld (lit "/p") [0xFF]).saved =
      some (store.Store.mk (some [([0xEF, 0xBF, 0xBD], some []),
        ([0xFF], some [store.Todo.mk (lit "// TODO: x") (lit "/p/a.go") 3 (lit "main")])])) ∧
    store.LoadStore (RunScan demoEnv replacementWorld (lit "/p") [0xFF]).storeFile =
      some (store.Store.mk (some [([0xEF, 0xBF, 0xBD],
        some [store.Todo.mk (lit "// TODO: x") (lit "/p/a.go") 3 (lit "main")])])) := by
  decide

end scan

namespace store

/-- C3, as amended. For every store whose project names and annotation strings are
valid UTF-8 (line numbers being 64-bit ints), `Save` followed by `LoadStore` of the
file yields a store with the same project names and, for each project, the same
annotations in the same order with every field preserved. -/
theorem Save_LoadStore_roundtrip (s : Store) (f : os.FileState)
    (h : json.storeOK s = true) :
    ∃ s', LoadStore (s.Save f os.WriteOutcome.succeeds).1 = some s' ∧
      (s'.Projects = none ↔ s.Projects = none) ∧
      ∀ P, s'.GetProject P = s.GetProject P := by
  obtain ⟨s', h1, h2, h3⟩ := json.Unmarshal_MarshalIndent s h
  exact ⟨s', by simpa [Store.Save, os.WriteFile, LoadStore, os.ReadFile] using h1, h2, h3⟩

set_option maxRecDepth 100000 in
/-- C3 as amended, at a concrete store. -/
theorem Save_LoadStore_roundtrip_witness :
    ∃ s', LoadStore (scan.demoStore.Save os.FileState.absent os.WriteOutcome.succeeds).1 = some s' ∧
      (s'.Projects = none ↔ scan.demoStore.Projects = none) ∧
      ∀ P, s'.GetProject P = scan.demoStore.GetProject P :=
  Save_LoadStore_roundtrip scan.demoStore os.FileState.absent (by decide)

set_option maxRecDepth 100000 in
/-- C3, as stated, fails: a comment holding the byte 0xFF, which is not valid UTF-8,
is saved as the replacement character and loaded back as the three bytes EF BF BD,
so the loaded store is not the saved one. -/
theorem Save_LoadStore_invalid_utf8_counterexample :
    LoadStore (scan.badStore.Save os.FileState.absent os.WriteOutcome.succeeds).1 =
      some (Store.mk (some [(lit "p", some [Todo.mk [0xEF, 0xBF, 0xBD] (lit "a.go") 1 []])])) ∧
    scan.badStore.GetProject (lit "p") = (some [Todo.mk [0xFF] (lit "a.go") 1 []], true) ∧
    LoadStore (scan.badStore.Save os.FileState.absent os.WriteOutcome.succeeds).1 ≠
      some scan.badStore := by
  refine ⟨by decide, by decide, by decide⟩

/-- C4, as amended. `Save` writes the encoded store over the file in place: when it
returns without error the file holds the complete new document; when the write
stops after `n` bytes the file holds the first `n` bytes of the new document and the
previous content is gone; only when the file cannot be opened is the previous
content kept. -/
theorem Save_overwrites_in_place (s : Store) (f : os.FileState) (o : os.WriteOutcome) :
    ((s.Save f o).2 = false → (s.Save f o).1 = os.FileState.data (json.MarshalIndent s)) ∧
    (∀ n, o = os.WriteOutcome.writeFails n →
      s.Save f o = (os.FileState.data ((json.MarshalIndent s).take n), true)) ∧
    (o = os.WriteOutcome.openFails → s.Save f o = (f, true)) := by
  refine ⟨Save_ok s f o, ?_, ?_⟩
  · intro n hn; subst hn; rfl
  · intro hn; subst hn; rfl

set_option maxRecDepth 100000 in
/-- C4, as stated, fails: the file holds the complete document of a successful
`Save`; a second `Save` whose write stops after 20 bytes returns an error and leaves
in the file the first 20 bytes of the new document, which is neither the previous
document nor a document that loads. -/
theorem Save_not_atomic_counterexample :
    (NewStore.Save os.FileState.absent os.WriteOutcome.succeeds).1 =
      os.FileState.data (lit "\x7b\n  \"projects\": \x7b\x7d\n\x7d") ∧
    scan.demoStore.Save (os.FileState.data (lit "\x7b\n  \"projects\": \x7b\x7d\n\x7d"))
        (os.WriteOutcome.writeFails 20) =
      (os.FileState.data (lit "\x7b\n  \"projects\": \x7b\n  "), true) ∧
    LoadStore (os.FileState.data (lit "\x7b\n  \"projects\": \x7b\n  ")) = none := by
  decide

end store

namespace scan

/-- C5. The walk of `RunScan` is never stopped by a file, and the collection it
builds is the concatenation, in traversal order, of the parse results of exactly
the visited files that are not ignored, have a non-empty extension, resolve to a
parser and parse without error. That collection is what `RunScan` stores for the
project: whenever the store directory exists and the store has a project map,
`RunScan` hands to `Save` a store whose entry for the project is that sequence, and
when the write succeeds it returns no error and the file holds the encoding of that
store. -/
theorem RunScan_collects_in_walk_order (env : ScanEnv) (w : StoreWorld)
    (projectPath projectName : GoString) :
    (scanWalk env projectPath).2 = none ∧
    (scanWalk env projectPath).1.currentTodos =
      ((visitedFiles (ignore.scanIgnoreManager env.ttignore) projectPath env.tree).filter
          (contributes env (NewManager env.plugins).1 (ignore.scanIgnoreManager env.ttignore))).flatMap
        (parseResult env (NewManager env.plugins).1) ∧
    (w.mkdirFails = false → (loadOrNew w.storeFile).1.Projects ≠ none →
      ∃ st1, (RunScan env w projectPath projectName).saved = some st1 ∧
        st1.GetProject (effectiveName projectPath projectName) =
          (some (((visitedFiles (ignore.scanIgnoreManager env.ttignore) projectPath
              env.tree).filter
              (contributes env (NewManager env.plugins).1
                (ignore.scanIgnoreManager env.ttignore))).flatMap
            (parseResult env (NewManager env.plugins).1)), true) ∧
        (w.write = os.WriteOutcome.succeeds →
          (RunScan env w projectPath projectName).outcome = Outcome.ok ∧
          (RunScan env w projectPath projectName).storeFile =
            os.FileState.data (json.MarshalIndent st1))) := by
  have hw := Walk_scan env (NewManager env.plugins).1 (ignore.scanIgnoreManager env.ttignore)
    projectPath env.tree { currentTodos := [], todoCount := 0, fileCount := 0, parsed := [] }
  have hcur : (scanWalk env projectPath).1.currentTodos =
      ((visitedFiles (ignore.scanIgnoreManager env.ttignore) projectPath env.tree).filter
          (contributes env (NewManager env.plugins).1 (ignore.scanIgnoreManager env.ttignore))).flatMap
        (parseResult env (NewManager env.plugins).1) := by
    rw [← flatMap_contribution]
    simpa [scanWalk] using hw.2.1
  refine ⟨scanWalk_ok env projectPath, hcur, ?_⟩
  intro hmk hmap
  obtain ⟨st1, hupd, hsaved, -, hwrite⟩ := RunScan_runs env w projectPath projectName hmk hmap
  refine ⟨st1, hsaved, ?_, hwrite⟩
  rw [← hcur]
  exact store.storeUpdate_entry _ _ _ _ st1 hupd

set_option maxRecDepth 100000 in
/-- C5 at a project with a Go file and a file without extension: the store that is
saved holds the annotation of the Go file. -/
theorem RunScan_collects_in_walk_order_witness :
    (RunScan demoEnv demoWorld (lit "/p") (lit "p")).outcome = Outcome.ok ∧
    ∃ st1, (RunScan demoEnv demoWorld (lit "/p") (lit "p")).saved = some st1 ∧
      st1.GetProject (lit "p") =
        (some [store.Todo.mk (lit "// TODO: x") (lit "/p/a.go") 3 (lit "main")], true) :=
  match (RunScan_collects_in_walk_order demoEnv demoWorld (lit "/p") (lit "p")).2.2 rfl
    (by decide) with
  | ⟨st1, h1, h2, h3⟩ => ⟨(h3 rfl).1, st1, h1, by
      have e : effectiveName (lit "/p") (lit "p") = lit "p" := by decide
      rw [e] at h2
      rw [h2]
      decide⟩

mutual
theorem visitedFiles_ancestors (ign : ignore.IgnoreManager) :
    ∀ (node : Node) (path : GoString) (above : List GoString) (p : GoString),
      p ∈ visitedFiles ign path node →
      ∃ extra, (p, above ++ extra) ∈ filesWithAncestors path above node ∧
        ∀ d ∈ extra, ign.ShouldIgnore d = false
  | Node.file, path, above, p, hp => by
    simp only [visitedFiles, List.mem_singleton] at hp
    subst hp
    exact ⟨[], by simp [filesWithAncestors], by simp⟩
  | Node.unreadableDir, path, above, p, hp => by simp [visitedFiles] at hp
  | Node.lstatError, path, above, p, hp => by simp [visitedFiles] at hp
  | Node.dir entries, path, above, p, hp => by
    by_cases hi : ign.ShouldIgnore path = true
    · simp [visitedFiles, hi] at hp
    · simp only [visitedFiles, hi] at hp
      obtain ⟨extra, h1, h2⟩ := visitedEntries_ancestors ign entries path (above ++ [path]) p
        (by simpa using hp)
      refine ⟨path :: extra, ?_, ?_⟩
      · simpa [filesWithAncestors] using h1
      · intro d hd
        rcases List.mem_cons.1 hd with rfl | hd
        · simpa using hi
        · exact h2 d hd
theorem visitedEntries_ancestors (ign : ignore.IgnoreManager) :
    ∀ (entries : List (GoString × Node)) (path : GoString) (above : List GoString)
      (p : GoString), p ∈ visitedEntries ign path entries →
      ∃ extra, (p, above ++ extra) ∈ entriesWithAncestors path above entries ∧
        ∀ d ∈ extra, ign.ShouldIgnore d = false
  | [], path, above, p, hp => by simp [visitedEntries] at hp
  | (name, node) :: rest, path, above, p, hp => by
    simp only [visitedEntries, List.mem_append] at hp
    rcases hp with hp | hp
    · obtain ⟨extra, h1, h2⟩ :=
        visitedFiles_ancestors ign node (filepath.Join path name) above p hp
      exact ⟨extra, by simp [entriesWithAncestors, h1], h2⟩
    · obtain ⟨extra, h1, h2⟩ := visitedEntries_ancestors ign rest path above p hp
      exact ⟨extra, by simp [entriesWithAncestors, h1], h2⟩
end

/-- C6. The files `RunScan` hands to a parser are exactly the visited files that are
themselves not ignored, have an extension and resolve to a parser, each decided on
its own; every one of them has only directories above it that the ignore filter
accepts, so (paths of distinct files being distinct) no file anywhere beneath an
ignored directory is ever parsed. -/
theorem walk_never_parses_below_ignored (env : ScanEnv) (projectPath : GoString) :
    (scanWalk env projectPath).1.parsed =
      (visitedFiles (ignore.scanIgnoreManager env.ttignore) projectPath env.tree).filter
        (parsable env (NewManager env.plugins).1 (ignore.scanIgnoreManager env.ttignore)) ∧
    (∀ p ∈ (scanWalk env projectPath).1.parsed,
      (ignore.scanIgnoreManager env.ttignore).ShouldIgnore p = false ∧
      ∃ above, (p, above) ∈ filesWithAncestors projectPath [] env.tree ∧
        ∀ d ∈ above, (ignore.scanIgnoreManager env.ttignore).ShouldIgnore d = false) ∧
    (((filesWithAncestors projectPath [] env.tree).map Prod.fst).Nodup →
      ∀ p above, (p, above) ∈ filesWithAncestors projectPath [] env.tree →
        (∃ d ∈ above, (ignore.scanIgnoreManager env.ttignore).ShouldIgnore d = true) →
        p ∉ (scanWalk env projectPath).1.parsed) := by
  have hw := Walk_scan env (NewManager env.plugins).1 (ignore.scanIgnoreManager env.ttignore)
    projectPath env.tree { currentTodos := [], todoCount := 0, fileCount := 0, parsed := [] }
  have hparsed : (scanWalk env projectPath).1.parsed =
      (visitedFiles (ignore.scanIgnoreManager env.ttignore) projectPath env.tree).filter
        (parsable env (NewManager env.plugins).1 (ignore.scanIgnoreManager env.ttignore)) := by
    simpa [scanWalk] using hw.2.2
  have hmem : ∀ p ∈ (scanWalk env projectPath).1.parsed,
      (ignore.scanIgnoreManager env.ttignore).ShouldIgnore p = false ∧
      ∃ above, (p, above) ∈ filesWithAncestors projectPath [] env.tree ∧
        ∀ d ∈ above, (ignore.scanIgnoreManager env.ttignore).ShouldIgnore d = false := by
    intro p hp
    rw [hparsed, List.mem_filter] at hp
    obtain ⟨hv, hpar⟩ := hp
    refine ⟨?_, ?_⟩
    · simp only [parsable, Bool.and_eq_true, Bool.not_eq_true'] at hpar
      exact hpar.1.1
    · obtain ⟨extra, h1, h2⟩ := visitedFiles_ancestors _ env.tree projectPath [] p hv
      exact ⟨extra, by simpa using h1, h2⟩
  refine ⟨hparsed, hmem, ?_⟩
  intro hnd p above hin ⟨d, hd, hign⟩ hp
  obtain ⟨-, above', hin', hall⟩ := hmem p hp
  have heq : above' = above := by
    have h1 : (p, above') ∈ filesWithAncestors projectPath [] env.tree := hin'
    by_contra hne
    have := List.inj_on_of_nodup_map hnd h1 hin rfl
    simp only [Prod.mk.injEq, true_and] at this
    exact hne this
  subst heq
  rw [hall d hd] at hign
  exact absurd hign (by simp)

set_option maxRecDepth 100000 in
/-- C6, at a concrete tree: the file under `build` is never parsed. -/
theorem walk_never_parses_below_ignored_witness :
    lit "/p/build/b.go" ∉ (scanWalk prunedEnv (lit "/p")).1.parsed :=
  (walk_never_parses_below_ignored prunedEnv (lit "/p")).2.2 (by decide)
    (lit "/p/build/b.go") [lit "/p", lit "/p/build"] (by decide)
    ⟨lit "/p/build", by decide, by decide⟩

/-- C10, as amended. `GetParser` returns the first parser in registration order whose
supported-extension list contains the lower-cased extension of the path, and
returns an error iff no registered parser lists it; every manager built by
`NewManager` has the built-in Go parser first, so a path with extension `.go`
resolves to the built-in parser whatever the plugins declare. -/
theorem GetParser_first_registered (unicodeLower : GoString → GoString) (m : Manager)
    (path : GoString) (plugins : Option (List PluginConfig)) :
    m.GetParser unicodeLower path =
      m.Parsers.find? (fun p =>
        decide (strings.ToLower unicodeLower (filepath.Ext path) ∈ p.SupportedExtensions)) ∧
    (m.GetParser unicodeLower path = none ↔
      ∀ p ∈ m.Parsers,
        strings.ToLower unicodeLower (filepath.Ext path) ∉ p.SupportedExtensions) ∧
    (∃ rest, (NewManager plugins).1.Parsers = Scanner.GoParser :: rest) ∧
    (filepath.Ext path = lit ".go" →
      (NewManager plugins).1.GetParser unicodeLower path = some Scanner.GoParser) := by
  have hsup : ∀ (ext : GoString) (l : List GoString), supportsLoop ext l = decide (ext ∈ l) := by
    intro ext l
    induction l with
    | nil => simp [supportsLoop]
    | cons x xs ih =>
      by_cases hx : x = ext
      · simp [supportsLoop, hx]
      · have : ¬ ext = x := fun e => hx e.symm
        simp [supportsLoop, hx, ih, this]
  have hloop : ∀ (ext : GoString) (ps : List Scanner),
      getParserLoop ext ps = ps.find? (fun p => decide (ext ∈ p.SupportedExtensions)) := by
    intro ext ps
    induction ps with
    | nil => rfl
    | cons p ps ih =>
      by_cases hp : ext ∈ p.SupportedExtensions
      · simp [getParserLoop, hsup, hp]
      · simp [getParserLoop, hsup, hp, ih]
  have hfirst : ∃ rest, (NewManager plugins).1.Parsers = Scanner.GoParser :: rest := by
    have hadd : ∀ (cfgs : List PluginConfig) (ps : List Scanner),
        ∃ rest, addExternal (Scanner.GoParser :: ps) cfgs = Scanner.GoParser :: rest := by
      intro cfgs
      induction cfgs with
      | nil => intro ps; exact ⟨ps, rfl⟩
      | cons c cs ih => intro ps; exact ih (ps ++ [Scanner.ExternalParser c.Command c.Extensions])
    cases plugins with
    | none => exact ⟨[], rfl⟩
    | some cfgs => exact hadd cfgs []
  refine ⟨hloop _ _, ?_, hfirst, ?_⟩
  · unfold Manager.GetParser
    rw [hloop, List.find?_eq_none]
    simp
  · intro hext
    obtain ⟨rest, hrest⟩ := hfirst
    have hlow : strings.ToLower unicodeLower (lit ".go") = lit ".go" := by
      have h1 : (lit ".go").all (fun c => decide (c < utf8.RuneSelf)) = true := by decide
      have h2 : (lit ".go").map strings.lowerByte = lit ".go" := by decide
      simp [strings.ToLower, h1, h2]
    unfold Manager.GetParser
    rw [hrest, hext, hlow]
    have : supportsLoop (lit ".go") Scanner.GoParser.SupportedExtensions = true := by decide
    simp [getParserLoop, this]

/-- C10, at a concrete path and a plugin that also declares `.go`. -/
theorem GetParser_first_registered_witness :
    (NewManager (some [PluginConfig.mk (lit "x") (lit "go") (lit "goplug") [lit ".go"]])).1.GetParser
        (fun s => s) (lit "/p/main.go") =
      some Scanner.GoParser :=
  (GetParser_first_registered (fun s => s) { Parsers := [] } (lit "/p/main.go")
    (some [PluginConfig.mk (lit "x") (lit "go") (lit "goplug") [lit ".go"]])).2.2.2 (by decide)

/-- C10, as stated, fails: the only registered parser lists `.GO`, the path `a.GO`
has the extension `.GO`, and `GetParser` reports that no parser is available. -/
theorem GetParser_uppercase_counterexample :
    filepath.Ext (lit "a.GO") = lit ".GO" ∧
    lit ".GO" ∈ (Scanner.ExternalParser (lit "plug") [lit ".GO"]).SupportedExtensions ∧
    (Manager.mk [Scanner.ExternalParser (lit "plug") [lit ".GO"]]).GetParser (fun s => s)
      (lit "a.GO") = none := by
  decide

end scan

/-! ## Theorems: dispatch and the letter case of extensions -/

namespace scan

theorem supportsLoop_eq_mem (ext : GoString) (l : List GoString) :
    supportsLoop ext l = decide (ext ∈ l) := by
  induction l with
  | nil => simp [supportsLoop]
  | cons x xs ih =>
    by_cases hx : x = ext
    · simp [supportsLoop, hx]
    · have : ¬ ext = x := fun e => hx e.symm
      simp [supportsLoop, hx, ih, this]

theorem getParserLoop_of_mem (ext : GoString) (ps : List Scanner) (p : Scanner)
    (hp : p ∈ ps) (he : ext ∈ p.SupportedExtensions) :
    ∃ q, getParserLoop ext ps = some q ∧ ext ∈ q.SupportedExtensions := by
  induction ps with
  | nil => simp at hp
  | cons x xs ih =>
    by_cases hx : ext ∈ x.SupportedExtensions
    · exact ⟨x, by simp [getParserLoop, supportsLoop_eq_mem, hx], hx⟩
    · have hpx : p ∈ xs := by
        rcases List.mem_cons.1 hp with h | h
        · subst h; exact absurd he hx
        · exact h
      obtain ⟨q, hq, hq2⟩ := ih hpx
      exact ⟨q, by simp [getParserLoop, supportsLoop_eq_mem, hx, hq], hq2⟩

/-- C11, as amended. The letter case of the path's extension does not matter, that of
the registration does: whenever the lower-cased extension of the path is a
registered extension `e`, `GetParser` selects a parser that declares `e`. -/
theorem GetParser_lowercases_path_only (unicodeLower : GoString → GoString) (m : Manager)
    (path e : GoString) (p : Scanner) (hp : p ∈ m.Parsers) (he : e ∈ p.SupportedExtensions)
    (hcase : strings.ToLower unicodeLower (filepath.Ext path) = e) :
    ∃ q, m.GetParser unicodeLower path = some q ∧ e ∈ q.SupportedExtensions := by
  unfold Manager.GetParser
  rw [hcase]
  exact getParserLoop_of_mem e m.Parsers p hp he

/-- C11, as amended, for a parser registered for `.js` and the path `a.JS`. -/
theorem GetParser_lowercases_path_only_witness :
    ∃ q, (Manager.mk [Scanner.GoParser, Scanner.ExternalParser (lit "jsparse") [lit ".js"]]).GetParser
        (fun s => s) (lit "a.JS") = some q ∧ lit ".js" ∈ q.SupportedExtensions :=
  GetParser_lowercases_path_only (fun s => s)
    (Manager.mk [Scanner.GoParser, Scanner.ExternalParser (lit "jsparse") [lit ".js"]])
    (lit "a.JS") (lit ".js") (Scanner.ExternalParser (lit "jsparse") [lit ".js"])
    (by decide) (by decide) (by decide)

/-- C11, as stated, fails: a parser is registered for `.JS`, the path `a.js` has that
extension up to letter case (both lower-case to `.js`), and `GetParser` reports
that no parser is available. -/
theorem GetParser_registration_case_counterexample :
    lit ".JS" ∈ (Scanner.ExternalParser (lit "jsparse") [lit ".JS"]).SupportedExtensions ∧
    strings.ToLower (fun s => s) (filepath.Ext (lit "a.js")) =
      strings.ToLower (fun s => s) (lit ".JS") ∧
    (Manager.mk [Scanner.GoParser, Scanner.ExternalParser (lit "jsparse") [lit ".JS"]]).GetParser
      (fun s => s) (lit "a.js") = none := by
  decide

/-! ## Theorems: a project root that cannot be read -/

/-- C16 at the failing inputs. When the project root does not exist (`Lstat` fails)
or cannot be listed, the walk callback returns nil for the root, `filepath.Walk`
returns nil, and `RunScan` goes on: with a store that can be updated and a write
that succeeds it returns no error and has replaced the project's entry by the
empty sequence. -/
theorem RunScan_unreadable_root_no_error (env : ScanEnv) (w : StoreWorld)
    (projectPath projectName : GoString)
    (hroot : env.tree = Node.lstatError ∨ env.tree = Node.unreadableDir)
    (hmk : w.mkdirFails = false) (hw : w.write = os.WriteOutcome.succeeds)
    (hmap : (loadOrNew w.storeFile).1.Projects ≠ none) :
    (RunScan env w projectPath projectName).outcome = Outcome.ok ∧
    ∃ st1, (RunScan env w projectPath projectName).saved = some st1 ∧
      st1.GetProject (effectiveName projectPath projectName) = (some [], true) := by
  have hwalk : (scanWalk env projectPath).1.currentTodos = [] := by
    unfold scanWalk
    rcases hroot with h | h <;> rw [h] <;> simp [Walk, walk, scanCallback]
  obtain ⟨st1, hst1⟩ := storeUpdate_total (loadOrNew w.storeFile).1
    (loadOrNew w.storeFile).2 (effectiveName projectPath projectName) [] hmap
  have hentry := store.storeUpdate_entry _ _ _ _ _ hst1
  have hrun : RunScan env w projectPath projectName =
      { outcome := Outcome.ok, storeFile := (st1.Save w.storeFile w.write).1,
        saved := some st1 } := by
    unfold RunScan
    simp only [hmk, scanWalk_ok, hwalk, hst1]
    simp [store.Store.Save, os.WriteFile, hw]
  rw [hrun]
  exact ⟨rfl, st1, rfl, hentry⟩

/-- C16 at a root that does not exist, with a store file that holds another
project. -/
theorem RunScan_unreadable_root_no_error_witness :
    (RunScan { demoEnv with tree := Node.lstatError } demoWorld (lit "/gone") (lit "p")).outcome
      = Outcome.ok :=
  (RunScan_unreadable_root_no_error { demoEnv with tree := Node.lstatError } demoWorld
    (lit "/gone") (lit "p") (Or.inl rfl) rfl rfl (by decide)).1

end scan

/-! ## Theorems: incremental addition to the store -/

namespace store

theorem hasSameKey_iff (t : Todo) (l : List Todo) :
    hasSameKey t l = true ↔ ∃ x ∈ l, x.FilePath = t.FilePath ∧ x.LineNumber = t.LineNumber := by
  induction l with
  | nil => simp [hasSameKey]
  | cons x xs ih =>
    by_cases hx : x.FilePath = t.FilePath ∧ x.LineNumber = t.LineNumber
    · simp [hasSameKey, hx]
    · simp only [hasSameKey, hx, if_false, ih, List.mem_cons, exists_eq_or_imp, false_or]

theorem hasSameKey_append_self (t : Todo) (l : List Todo) : hasSameKey t (l ++ [t]) = true := by
  rw [hasSameKey_iff]
  exact ⟨t, by simp, rfl, rfl⟩

/-- The sequence `GetProject` shows for a project of an allocated map. -/
theorem GetProject_elems (m : ProjectMap) (P : GoString) :
    elems ((Store.mk (some m)).GetProject P).1 = elems ((mapGet m P).getD none) := by
  cases h : mapGet m P <;> simp [Store.GetProject, h, elems]

/-- The method `AddTodo` on a project that exists. -/
theorem AddTodo_existing (m : ProjectMap) (P : GoString) (t : Todo)
    (h : (mapGet m P).isNone = false) :
    (Store.mk (some m)).AddTodo P t =
      if hasSameKey t (elems ((mapGet m P).getD none)) then some ⟨some m⟩
      else some ⟨some (mapSet m P (some (elems ((mapGet m P).getD none) ++ [t])))⟩ := by
  simp [Store.AddTodo, h]

/-- The method `AddTodo` first makes sure that the project exists. -/
theorem AddTodo_created (m : ProjectMap) (P : GoString) (t : Todo) :
    ∃ m1, (mapGet m1 P).isNone = false ∧
      elems ((mapGet m1 P).getD none) = elems ((mapGet m P).getD none) ∧
      (Store.mk (some m)).AddTodo P t = (Store.mk (some m1)).AddTodo P t := by
  cases hg : mapGet m P with
  | none =>
    refine ⟨mapSet m P (some []), by simp [mapGet_mapSet], by simp [mapGet_mapSet, elems], ?_⟩
    simp [Store.AddTodo, hg, mapGet_mapSet]
  | some v => exact ⟨m, by simp [hg], by rw [hg], rfl⟩

/-- C20. On every store whose project map is allocated `AddTodo` completes, and the
project's sequence afterwards is the old one with `t` appended at the end when no
annotation of the project has the file path and line number of `t`, and the old one
unchanged when one has. Hence a sequence without two annotations of the same
(file path, line number) stays so, and adding `t` a second time changes nothing. -/
theorem AddTodo_appends_unless_present (m : ProjectMap) (P : GoString) (t : Todo) :
    ∃ s1, (Store.mk (some m)).AddTodo P t = some s1 ∧
      ((¬ ∃ x ∈ elems ((Store.mk (some m)).GetProject P).1,
            x.FilePath = t.FilePath ∧ x.LineNumber = t.LineNumber) →
        elems (s1.GetProject P).1 = elems ((Store.mk (some m)).GetProject P).1 ++ [t]) ∧
      ((∃ x ∈ elems ((Store.mk (some m)).GetProject P).1,
            x.FilePath = t.FilePath ∧ x.LineNumber = t.LineNumber) →
        elems (s1.GetProject P).1 = elems ((Store.mk (some m)).GetProject P).1) ∧
      (((elems ((Store.mk (some m)).GetProject P).1).map Todo.key).Nodup →
        ((elems (s1.GetProject P).1).map Todo.key).Nodup) ∧
      s1.AddTodo P t = some s1 := by
  obtain ⟨m1, hsome, hold, hadd⟩ := AddTodo_created m P t
  rw [GetProject_elems, hadd, AddTodo_existing m1 P t hsome, hold]
  generalize elems ((mapGet m P).getD none) = old at hold ⊢
  by_cases hdup : hasSameKey t old = true
  · have hex := (hasSameKey_iff t _).1 hdup
    refine ⟨⟨some m1⟩, by simp [hdup], fun hno => absurd hex hno, ?_, ?_, ?_⟩
    · intro _; rw [GetProject_elems, hold]
    · intro hnd; rw [GetProject_elems, hold]; exact hnd
    · rw [AddTodo_existing m1 P t hsome, hold]; simp [hdup]
  · have hno : ¬ ∃ x ∈ old, x.FilePath = t.FilePath ∧ x.LineNumber = t.LineNumber :=
      fun h => hdup ((hasSameKey_iff t _).2 h)
    have hget : mapGet (mapSet m1 P (some (old ++ [t]))) P = some (some (old ++ [t])) := by
      rw [mapGet_mapSet]; simp
    refine ⟨⟨some (mapSet m1 P (some (old ++ [t])))⟩, by simp [hdup], ?_,
      fun hex => absurd hex hno, ?_, ?_⟩
    · intro _
      rw [GetProject_elems, hget]
      simp [elems]
    · intro hnd
      rw [GetProject_elems, hget]
      simp only [Option.getD_some, elems, List.map_append, List.map_cons, List.map_nil]
      rw [List.nodup_append]
      refine ⟨hnd, by simp, ?_⟩
      intro a ha hb
      simp only [List.mem_singleton] at hb
      subst hb
      obtain ⟨x, hx, hk⟩ := List.mem_map.1 ha
      refine hno ⟨x, hx, ?_⟩
      simp only [Todo.key, Prod.mk.injEq] at hk
      exact hk
    · rw [AddTodo_existing _ P t (by rw [hget]; rfl), hget]
      simp only [Option.getD_some, elems]
      simp [hasSameKey_append_self]

/-- The method `AddTodo` on a store whose project map is nil stops with a run-time
panic. -/
theorem AddTodo_nil_map (P : GoString) (t : Todo) : (Store.mk none).AddTodo P t = none := rfl

end store

namespace strings

theorem DecodeRune_space_bytes (s : GoString) (h : IsSpace (utf8.DecodeRune s).1 = true) :
    ∀ x ∈ s.take (utf8.DecodeRune s).2, trimmable x := by
  rcases utf8.DecodeRune_cases s with h1 | h1 | h1 | h1 | h1 | h1
  · rw [h1.2]; simp
  · rw [h1.1] at h; exact absurd h (by decide)
  · obtain ⟨a, t, rfl, ha, hd⟩ := h1
    rw [hd] at h ⊢
    intro x hx
    simp at hx
    subst hx
    exact Or.inl h
  · obtain ⟨a, b, t, rfl, h1, h2, h3, h4, hd⟩ := h1
    rw [hd]
    intro x hx
    simp at hx
    rcases hx with rfl | rfl <;> right <;> omega
  · obtain ⟨a, b, c, t, rfl, h1, h2, h3, h4, h5, h6, hd⟩ := h1
    rw [hd]
    intro x hx
    simp at hx
    have hb : 0x80 ≤ b := by split_ifs at h3 <;> omega
    rcases hx with rfl | rfl | rfl <;> right <;> omega
  · obtain ⟨a, b, c, d, t, rfl, h1, h2, h3, h4, h5, h6, h7, h8, hd⟩ := h1
    rw [hd]
    intro x hx
    simp at hx
    have hb : 0x80 ≤ b := by split_ifs at h3 <;> omega
    rcases hx with rfl | rfl | rfl | rfl <;> right <;> omega

theorem trimLeftSpace_split (fuel : Nat) (s : GoString) :
    ∃ pre, s = pre ++ trimLeftSpace fuel s ∧ ∀ x ∈ pre, trimmable x := by
  induction fuel generalizing s with
  | zero => exact ⟨[], by simp [trimLeftSpace]⟩
  | succ f ih =>
    cases s with
    | nil => exact ⟨[], by simp [trimLeftSpace]⟩
    | cons a t =>
      by_cases hsp : IsSpace (utf8.DecodeRune (a :: t)).1 = true
      · obtain ⟨pre, hpre, hall⟩ := ih ((a :: t).drop (utf8.DecodeRune (a :: t)).2)
        refine ⟨(a :: t).take (utf8.DecodeRune (a :: t)).2 ++ pre, ?_, ?_⟩
        · have : trimLeftSpace (f + 1) (a :: t) =
              trimLeftSpace f ((a :: t).drop (utf8.DecodeRune (a :: t)).2) := by
            simp [trimLeftSpace, hsp]
          rw [this, List.append_assoc, ← hpre, List.take_append_drop]
        · intro x hx
          rcases List.mem_append.1 hx with h | h
          · exact DecodeRune_space_bytes _ hsp x h
          · exact hall x h
      · exact ⟨[], by simp [trimLeftSpace, hsp]⟩

theorem DecodeLastRune_space_bytes (rs : GoString) (h : IsSpace (DecodeLastRune rs).1 = true) :
    ∀ x ∈ rs.take (DecodeLastRune rs).2, trimmable x := by
  cases rs with
  | nil => simp [DecodeLastRune]
  | cons b before =>
    by_cases hb : b < utf8.RuneSelf
    · have hd : DecodeLastRune (b :: before) = (b, 1) := by simp [DecodeLastRune, hb]
      rw [hd] at h ⊢
      intro x hx
      simp at hx
      subst hx
      exact Or.inl h
    · -- the general shape: a decode of the last `back + 1` bytes
      have key : ∃ back : Nat, DecodeLastRune (b :: before) =
          (if (utf8.DecodeRune ((b :: before).take (back + 1)).reverse).2 ≠ back + 1
            then (utf8.RuneError, 1)
            else utf8.DecodeRune ((b :: before).take (back + 1)).reverse) := by
        simp only [DecodeLastRune, hb, if_false]
        exact ⟨_, rfl⟩
      obtain ⟨back, hk⟩ := key
      by_cases hsz : (utf8.DecodeRune ((b :: before).take (back + 1)).reverse).2 ≠ back + 1
      · rw [hk, if_pos hsz] at h
        exact absurd h (by decide)
      · rw [hk, if_neg hsz] at h ⊢
        have hsz2 : (utf8.DecodeRune ((b :: before).take (back + 1)).reverse).2 = back + 1 :=
          not_not.1 hsz
        have hA := DecodeRune_space_bytes _ h
        rw [hsz2] at hA ⊢
        intro x hx
        apply hA x
        rw [List.take_of_length_le (by simp)]
        exact List.mem_reverse.2 hx

theorem trimRightSpaceRev_split (fuel : Nat) (rs : GoString) :
    ∃ pre, rs = pre ++ trimRightSpaceRev fuel rs ∧ ∀ x ∈ pre, trimmable x := by
  induction fuel generalizing rs with
  | zero => exact ⟨[], by simp [trimRightSpaceRev]⟩
  | succ f ih =>
    cases rs with
    | nil => exact ⟨[], by simp [trimRightSpaceRev]⟩
    | cons a t =>
      by_cases hsp : IsSpace (DecodeLastRune (a :: t)).1 = true
      · obtain ⟨pre, hpre, hall⟩ := ih ((a :: t).drop (DecodeLastRune (a :: t)).2)
        refine ⟨(a :: t).take (DecodeLastRune (a :: t)).2 ++ pre, ?_, ?_⟩
        · have : trimRightSpaceRev (f + 1) (a :: t) =
              trimRightSpaceRev f ((a :: t).drop (DecodeLastRune (a :: t)).2) := by
            simp [trimRightSpaceRev, hsp]
          rw [this, List.append_assoc, ← hpre, List.take_append_drop]
        · intro x hx
          rcases List.mem_append.1 hx with h | h
          · exact DecodeLastRune_space_bytes _ hsp x h
          · exact hall x h
      · exact ⟨[], by simp [trimRightSpaceRev, hsp]⟩

/-- White-space trimming removes a run of trimmable bytes at each end. -/
theorem TrimSpace_split (s : GoString) :
    ∃ pre post, s = pre ++ TrimSpace s ++ post ∧
      (∀ x ∈ pre, trimmable x) ∧ (∀ x ∈ post, trimmable x) := by
  obtain ⟨pre, hpre, hall⟩ := trimLeftSpace_split s.length s
  obtain ⟨post, hpost, hall2⟩ :=
    trimRightSpaceRev_split (trimLeftSpace s.length s).length (trimLeftSpace s.length s).reverse
  refine ⟨pre, post.reverse, ?_, hall, fun x hx => hall2 x (List.mem_reverse.1 hx)⟩
  have h2 : trimLeftSpace s.length s = TrimSpace s ++ post.reverse := by
    have := congrArg List.reverse hpost
    simpa [TrimSpace] using this
  rw [List.append_assoc, ← h2, ← hpre]

/-- Trimming neither removes nor adds a byte that is ASCII and not a space. -/
theorem mem_TrimSpace (c : Nat) (hc : c < 0x80) (hs : IsSpace c = false) (s : GoString) :
    c ∈ TrimSpace s ↔ c ∈ s := by
  obtain ⟨pre, post, hsplit, h1, h2⟩ := TrimSpace_split s
  have hn : ∀ l : GoString, (∀ x ∈ l, trimmable x) → c ∉ l := by
    intro l hl hmem
    rcases hl c hmem with h | h
    · rw [hs] at h; exact absurd h (by decide)
    · omega
  constructor
  · intro h; rw [hsplit]; simp [h]
  · intro h
    rw [hsplit] at h
    simp only [List.mem_append] at h
    rcases h with (h | h) | h
    · exact absurd h (hn pre h1)
    · exact h
    · exact absurd h (hn post h2)
end strings

namespace regexp

theorem starLoop_isSome_iff {β : Type} (p : Nat → Bool) (k : GoString → Option β) (s : GoString) :
    (starLoop p k s).isSome ↔
      ∃ u r, s = u ++ r ∧ (∀ x ∈ u, p x = true) ∧ (k r).isSome := by
  induction s with
  | nil =>
    simp only [starLoop]
    constructor
    · intro h; exact ⟨[], [], rfl, by simp, h⟩
    · rintro ⟨u, r, h, -, hk⟩
      have : r = [] := by
        cases u with
        | nil => simpa using h.symm
        | cons a t => simp at h
      rw [this] at hk; exact hk
  | cons c t ih =>
    simp only [starLoop]
    by_cases hp : p c = true
    · simp only [hp, if_true]
      constructor
      · intro h
        cases hs : starLoop p k t with
        | some v =>
          obtain ⟨u, r, hur, hu, hk⟩ := ih.1 (by rw [hs]; rfl)
          exact ⟨c :: u, r, by simp [hur], by
            intro x hx
            rcases List.mem_cons.1 hx with rfl | hx
            · exact hp
            · exact hu x hx, hk⟩
        | none =>
          rw [hs] at h
          exact ⟨[], c :: t, rfl, by simp, h⟩
      · rintro ⟨u, r, hur, hu, hk⟩
        cases u with
        | nil =>
          simp only [List.nil_append] at hur
          subst hur
          cases hs : starLoop p k t with
          | some v => rfl
          | none => exact hk
        | cons a u' =>
          simp only [List.cons_append, List.cons.injEq] at hur
          obtain ⟨rfl, rfl⟩ := hur
          have h2 : (starLoop p k (u' ++ r)).isSome :=
            ih.2 ⟨u', r, rfl, fun x hx => hu x (List.mem_cons_of_mem _ hx), hk⟩
          cases hs : starLoop p k (u' ++ r) with
          | some v => rfl
          | none => rw [hs] at h2; exact absurd h2 (by simp)
    · simp only [hp, if_false]
      constructor
      · intro h; exact ⟨[], c :: t, rfl, by simp, h⟩
      · rintro ⟨u, r, hur, hu, hk⟩
        cases u with
        | nil =>
          simp only [List.nil_append] at hur
          subst hur; exact hk
        | cons a u' =>
          simp only [List.cons_append, List.cons.injEq] at hur
          obtain ⟨rfl, rfl⟩ := hur
          exact absurd (hu c (List.mem_cons_self _ _)) hp

/-- A later success of the loop is the result for every run of the class put in
front. -/
theorem starLoop_append {β : Type} (p : Nat → Bool) (k : GoString → Option β)
    (u r : GoString) (v : β) (hu : ∀ x ∈ u, p x = true) (h : starLoop p k r = some v) :
    starLoop p k (u ++ r) = some v := by
  induction u with
  | nil => exact h
  | cons c u' ih =>
    have h1 := ih (fun x hx => hu x (List.mem_cons_of_mem _ hx))
    show starLoop p k (c :: (u' ++ r)) = some v
    simp only [starLoop, hu c (List.mem_cons_self _ _), if_true, h1]

/-- The loop on input that does not start with a character of the class. -/
theorem starLoop_stop {β : Type} (p : Nat → Bool) (k : GoString → Option β) (r : GoString)
    (hr : ∀ c t, r = c :: t → p c = false) : starLoop p k r = k r := by
  cases r with
  | nil => rfl
  | cons c t => simp [starLoop, hr c t rfl]

/-- The greedy loop takes the whole run when the continuation accepts what follows. -/
theorem starLoop_greedy {β : Type} (p : Nat → Bool) (k : GoString → Option β)
    (u r : GoString) (v : β) (hu : ∀ x ∈ u, p x = true)
    (hr : ∀ c t, r = c :: t → p c = false) (h : k r = some v) :
    starLoop p k (u ++ r) = some v :=
  starLoop_append p k u r v hu (by rw [starLoop_stop p k r hr]; exact h)

theorem run_word {β : Type} (w s : GoString) (caps : Captures)
    (k : GoString → Captures → Option β) : run (word w) (w ++ s) caps k = k s caps := by
  induction w with
  | nil => simp [word, run]
  | cons c cs ih => simp [word, run, ih]

theorem run_word_isSome {β : Type} (w s : GoString) (caps : Captures)
    (k : GoString → Captures → Option β) :
    (run (word w) s caps k).isSome ↔ ∃ r, s = w ++ r ∧ (k r caps).isSome := by
  induction w generalizing s with
  | nil => simp [word, run]
  | cons c cs ih =>
    cases s with
    | nil => simp [word, run]
    | cons x t =>
      by_cases hx : x = c
      · subst hx
        simp only [word, run, if_true, ih, List.cons_append, List.cons.injEq, true_and]
      · have : ¬ c = x := fun e => hx e.symm
        simp [word, run, hx]

theorem search_isSome_iff (re : Regex) (s : GoString) :
    (search re s).isSome ↔ ∃ pre t, s = pre ++ t ∧ (matchHere re t).isSome := by
  induction s with
  | nil =>
    simp only [search]
    constructor
    · intro h; exact ⟨[], [], rfl, h⟩
    · rintro ⟨pre, t, h, hm⟩
      have : t = [] := by
        cases pre with
        | nil => simpa using h.symm
        | cons a t => simp at h
      rw [this] at hm; exact hm
  | cons c t ih =>
    simp only [search]
    cases hm : matchHere re (c :: t) with
    | some caps =>
      simp only [Option.isSome_some, true_iff]
      exact ⟨[], c :: t, rfl, by rw [hm]; rfl⟩
    | none =>
      simp only [ih]
      constructor
      · rintro ⟨pre, t', h, hm'⟩
        exact ⟨c :: pre, t', by simp [h], hm'⟩
      · rintro ⟨pre, t', h, hm'⟩
        cases pre with
        | nil =>
          simp only [List.nil_append] at h
          subst h
          rw [hm] at hm'; exact absurd hm' (by simp)
        | cons a pre' =>
          simp only [List.cons_append, List.cons.injEq] at h
          exact ⟨pre', t', h.2, hm'⟩

/-- A match at the first byte is the leftmost match. -/
theorem search_of_matchHere (re : Regex) (s : GoString) (caps : Captures)
    (h : matchHere re s = some caps) : search re s = some caps := by
  cases s with
  | nil => exact h
  | cons c t => simp [search, h]

theorem run_seq {β : Type} (a b : Regex) (s : GoString) (caps : Captures)
    (k : GoString → Captures → Option β) :
    run (Regex.seq a b) s caps k = run a s caps (fun r caps1 => run b r caps1 k) := by
  rw [run]

theorem run_group {β : Type} (i : Nat) (a : Regex) (s : GoString) (caps : Captures)
    (k : GoString → Captures → Option β) :
    run (Regex.group i a) s caps k =
      run a s caps (fun r caps1 => k r ((i, s.take (s.length - r.length)) :: caps1)) := by
  rw [run]

theorem run_star {β : Type} (p : Nat → Bool) (s : GoString) (caps : Captures)
    (k : GoString → Captures → Option β) :
    run (Regex.star p) s caps k = starLoop p (fun r => k r caps) s := by
  rw [run]

theorem run_alt_isSome {β : Type} (a b : Regex) (s : GoString) (caps : Captures)
    (k : GoString → Captures → Option β) :
    (run (Regex.alt a b) s caps k).isSome ↔ (run a s caps k).isSome ∨ (run b s caps k).isSome := by
  rw [run]
  cases run a s caps k <;> simp

theorem run_cls_isSome {β : Type} (p : Nat → Bool) (s : GoString) (caps : Captures)
    (k : GoString → Captures → Option β) :
    (run (Regex.cls p) s caps k).isSome ↔ ∃ x t, s = x :: t ∧ p x = true ∧ (k t caps).isSome := by
  cases s with
  | nil => simp [run]
  | cons x t =>
    by_cases hx : p x = true
    · simp only [run, hx, if_true]
      constructor
      · intro h; exact ⟨x, t, rfl, hx, h⟩
      · rintro ⟨x', t', h, -, hk⟩
        simp only [List.cons.injEq] at h
        rw [h.2]; exact hk
    · simp only [run, hx, if_false]
      constructor
      · intro h; exact absurd h (by simp)
      · rintro ⟨x', t', h, hp, -⟩
        simp only [List.cons.injEq] at h
        rw [← h.1] at hp; exact absurd hp hx

end regexp

namespace scan

/-- What `todoRegex` matches: a white-space character, one of the two markers in
capital letters, and a boundary character, anywhere in the text. -/
theorem todoRegex_matches_iff (text : GoString) :
    regexp.MatchString todoRegex text = true ↔
      ∃ a w mk b c, text = a ++ w :: (mk ++ b :: c) ∧ regexp.perlSpace w = true ∧
        (mk = lit "TODO" ∨ mk = lit "FIXME") ∧
        (regexp.perlSpace b = true ∨ b = 0x3A ∨ b = 0x28 ∨ b = 0x5B) := by
  have hbound : ∀ b : Nat, (regexp.perlSpace b || b = 0x3A || b = 0x28 || b = 0x5B) = true ↔
      (regexp.perlSpace b = true ∨ b = 0x3A ∨ b = 0x28 ∨ b = 0x5B) := by
    intro b; simp [Bool.or_eq_true, or_assoc]
  have here : ∀ t : GoString, (regexp.matchHere todoRegex t).isSome ↔
      ∃ u r, t = u ++ r ∧ (∀ x ∈ u, regexp.dot x = true) ∧
        ∃ w mk b c, r = w :: (mk ++ b :: c) ∧ regexp.perlSpace w = true ∧
          (mk = lit "TODO" ∨ mk = lit "FIXME") ∧
          (regexp.perlSpace b = true ∨ b = 0x3A ∨ b = 0x28 ∨ b = 0x5B) := by
    intro t
    unfold regexp.matchHere todoRegex
    rw [regexp.run_group, regexp.run_seq, regexp.run_star, regexp.starLoop_isSome_iff]
    have tail : ∀ r : GoString,
        (regexp.run
          (regexp.Regex.seq (regexp.Regex.cls regexp.perlSpace)
            (regexp.Regex.seq
              (regexp.Regex.group 1
                (regexp.Regex.alt (regexp.word (lit "TODO")) (regexp.word (lit "FIXME"))))
              (regexp.Regex.cls
                (fun c => regexp.perlSpace c || c = 0x3A || c = 0x28 || c = 0x5B))))
          r []
          (fun r1 caps1 => some ((0, t.take (t.length - r1.length)) :: caps1))).isSome ↔
        ∃ w mk b c, r = w :: (mk ++ b :: c) ∧ regexp.perlSpace w = true ∧
          (mk = lit "TODO" ∨ mk = lit "FIXME") ∧
          (regexp.perlSpace b = true ∨ b = 0x3A ∨ b = 0x28 ∨ b = 0x5B) := by
      intro r
      rw [regexp.run_seq, regexp.run_cls_isSome]
      constructor
      · rintro ⟨w, r1, hr, hw, h⟩
        rw [regexp.run_seq, regexp.run_group, regexp.run_alt_isSome,
          regexp.run_word_isSome, regexp.run_word_isSome] at h
        rcases h with ⟨r2, h2, hk⟩ | ⟨r2, h2, hk⟩
        · obtain ⟨b, c, hr2, hb, -⟩ := (regexp.run_cls_isSome _ _ _ _).1 hk
          exact ⟨w, lit "TODO", b, c, by rw [hr, h2, hr2], hw, Or.inl rfl, (hbound b).1 hb⟩
        · obtain ⟨b, c, hr2, hb, -⟩ := (regexp.run_cls_isSome _ _ _ _).1 hk
          exact ⟨w, lit "FIXME", b, c, by rw [hr, h2, hr2], hw, Or.inr rfl, (hbound b).1 hb⟩
      · rintro ⟨w, mk, b, c, hr, hw, hmk, hb⟩
        refine ⟨w, mk ++ b :: c, hr, hw, ?_⟩
        rw [regexp.run_seq, regexp.run_group, regexp.run_alt_isSome,
          regexp.run_word_isSome, regexp.run_word_isSome]
        rcases hmk with rfl | rfl
        · exact Or.inl ⟨b :: c, rfl,
            (regexp.run_cls_isSome _ _ _ _).2 ⟨b, c, rfl, (hbound b).2 hb, rfl⟩⟩
        · exact Or.inr ⟨b :: c, rfl,
            (regexp.run_cls_isSome _ _ _ _).2 ⟨b, c, rfl, (hbound b).2 hb, rfl⟩⟩
    constructor
    · rintro ⟨u, r, h1, h2, h3⟩
      exact ⟨u, r, h1, h2, (tail r).1 h3⟩
    · rintro ⟨u, r, h1, h2, h3⟩
      exact ⟨u, r, h1, h2, (tail r).2 h3⟩
  unfold regexp.MatchString
  rw [regexp.search_isSome_iff]
  constructor
  · rintro ⟨pre, t, hs, hm⟩
    obtain ⟨u, r, ht, -, w, mk, b, c, hr, hw, hmk, hb⟩ := (here t).1 hm
    exact ⟨pre ++ u, w, mk, b, c, by rw [hs, ht, hr, List.append_assoc], hw, hmk, hb⟩
  · rintro ⟨a, w, mk, b, c, hs, hw, hmk, hb⟩
    exact ⟨a, w :: (mk ++ b :: c), hs,
      (here _).2 ⟨[], _, rfl, by simp, w, mk, b, c, rfl, hw, hmk, hb⟩⟩

theorem goComment_foldl (node : File) (filePath : GoString) (cs : List Comment)
    (todos : List store.Todo) :
    cs.foldl (goComment node filePath) todos =
      todos ++ (cs.filter (fun c => regexp.MatchString todoRegex c.Text)).map
        (fun c => store.Todo.mk c.Text filePath c.Line (findEnclosingFunction node c.Slash)) := by
  induction cs generalizing todos with
  | nil => simp
  | cons c cs ih =>
    rw [List.foldl_cons, ih]
    by_cases h : regexp.MatchString todoRegex c.Text = true
    · simp [goComment, h, List.filter_cons]
    · simp [goComment, h, List.filter_cons]

theorem goGroups_foldl (node : File) (filePath : GoString) (groups : List (List Comment))
    (todos : List store.Todo) :
    groups.foldl (fun todos cg => cg.foldl (goComment node filePath) todos) todos =
      todos ++ (groups.flatten.filter (fun c => regexp.MatchString todoRegex c.Text)).map
        (fun c => store.Todo.mk c.Text filePath c.Line (findEnclosingFunction node c.Slash)) := by
  induction groups generalizing todos with
  | nil => simp
  | cons g gs ih =>
    rw [List.foldl_cons, ih, goComment_foldl]
    simp [List.filter_append]

/-- C14, as amended. The built-in Go parser reports exactly the comments whose text
matches `todoRegex`, each with its whole text, and a text matches if and only if it
holds one of the markers `TODO` or `FIXME` in capital letters, immediately preceded
by a white-space character (tab, line feed, form feed, carriage return or blank) and
immediately followed by `:`, `(`, `[` or such a white-space character. -/
theorem GoParser_reports_capital_markers (node : File) (filePath text : GoString) :
    GoParser.ParseFile (some node) filePath =
      some ((node.Comments.flatten.filter (fun c => regexp.MatchString todoRegex c.Text)).map
        (fun c => store.Todo.mk c.Text filePath c.Line (findEnclosingFunction node c.Slash))) ∧
    (regexp.MatchString todoRegex text = true ↔
      ∃ a w mk b c, text = a ++ w :: (mk ++ b :: c) ∧ regexp.perlSpace w = true ∧
        (mk = lit "TODO" ∨ mk = lit "FIXME") ∧
        (regexp.perlSpace b = true ∨ b = 0x3A ∨ b = 0x28 ∨ b = 0x5B)) := by
  refine ⟨?_, todoRegex_matches_iff text⟩
  simp [GoParser.ParseFile, goGroups_foldl]

set_option maxRecDepth 100000 in
/-- C14, as stated, fails: the comments `// todo: x` and `// Fixme(bob) y`, which the
claim says are reported, match the pattern only up to letter case, and the parser
returns no annotation for a file that holds them. -/
theorem GoParser_lowercase_marker_counterexample :
    GoParser.ParseFile
      (some (File.mk [[Comment.mk (lit "// todo: x") 1 1], [Comment.mk (lit "// Fixme(bob) y") 12 2]]
        []))
      (lit "a.go") = some [] := by
  decide

/-- The function found for a position that one declaration holds and no later
declaration holds. -/
theorem findEnclosingFunction_last (node : File) (pos : Nat) (before after : List Decl)
    (name : GoString) (p e : Nat)
    (hdecls : node.Decls = before ++ Decl.FuncDecl name p e :: after)
    (hin : p ≤ pos ∧ pos ≤ e)
    (hafter : ∀ name1 p1 e1, Decl.FuncDecl name1 p1 e1 ∈ after → ¬ (p1 ≤ pos ∧ pos ≤ e1)) :
    findEnclosingFunction node pos = name := by
  unfold findEnclosingFunction
  rw [hdecls, List.foldl_append, List.foldl_cons]
  simp only [hin, and_self, if_true]
  clear hdecls
  induction after with
  | nil => rfl
  | cons d ds ih =>
    rw [List.foldl_cons]
    cases d with
    | other => exact ih (fun n1 p1 e1 h => hafter n1 p1 e1 (List.mem_cons_of_mem _ h))
    | FuncDecl n1 p1 e1 =>
      have h1 := hafter n1 p1 e1 (List.mem_cons_self _ _)
      simp only [h1, if_false]
      exact ih (fun n1 p1 e1 h => hafter n1 p1 e1 (List.mem_cons_of_mem _ h))

/-- C15, as amended. For a Go file whose line 10 is the comment `// TODO: fix this`,
inside the span of the function declaration `Foo` and of no later function
declaration, and whose other comments do not match the marker pattern,
`GoParser.ParseFile` returns exactly one annotation: its comment is the whole
comment text `// TODO: fix this`, comment marker included, its line number is 10
and its function is `Foo`. -/
theorem GoParser_scenario_keeps_comment_marker (node : File) (filePath : GoString)
    (c : Comment) (cpre cpost : List Comment) (before after : List Decl) (p e : Nat)
    (hcomments : node.Comments.flatten = cpre ++ c :: cpost)
    (htext : c.Text = lit "// TODO: fix this") (hline : c.Line = 10)
    (hothers : ∀ x ∈ cpre ++ cpost, regexp.MatchString todoRegex x.Text = false)
    (hdecls : node.Decls = before ++ Decl.FuncDecl (lit "Foo") p e :: after)
    (hin : p ≤ c.Slash ∧ c.Slash ≤ e)
    (hafter : ∀ name1 p1 e1, Decl.FuncDecl name1 p1 e1 ∈ after →
      ¬ (p1 ≤ c.Slash ∧ c.Slash ≤ e1)) :
    GoParser.ParseFile (some node) filePath =
      some [store.Todo.mk (lit "// TODO: fix this") filePath 10 (lit "Foo")] := by
  have hmatch : regexp.MatchString todoRegex c.Text = true := by
    rw [htext]; decide
  have hpre : cpre.filter (fun c => regexp.MatchString todoRegex c.Text) = [] := by
    rw [List.filter_eq_nil_iff]
    intro x hx
    simp [hothers x (List.mem_append_left _ hx)]
  have hpost : cpost.filter (fun c => regexp.MatchString todoRegex c.Text) = [] := by
    rw [List.filter_eq_nil_iff]
    intro x hx
    simp [hothers x (List.mem_append_right _ hx)]
  have hfun := findEnclosingFunction_last node c.Slash before after (lit "Foo") p e hdecls
    hin hafter
  simp only [GoParser.ParseFile, goGroups_foldl, hcomments, List.filter_append,
    List.filter_cons, hmatch, if_true, hpre, hpost, List.nil_append, List.append_nil,
    List.map_cons, List.map_nil, hfun]
  rw [htext, hline]

set_option maxRecDepth 100000 in
/-- C15, as amended, at a file with the one comment at position 150 and `Foo` from 100
to 200. -/
theorem GoParser_scenario_keeps_comment_marker_witness :
    GoParser.ParseFile (some fooFile) (lit "a.go") =
      some [store.Todo.mk (lit "// TODO: fix this") (lit "a.go") 10 (lit "Foo")] :=
  GoParser_scenario_keeps_comment_marker fooFile (lit "a.go")
    (Comment.mk (lit "// TODO: fix this") 150 10) [] [] [] [] 100 200
    rfl rfl rfl (by simp) rfl (by decide) (by simp)

set_option maxRecDepth 100000 in
/-- C15, as stated, fails: for the file of the scenario the annotation returned has the
comment `// TODO: fix this`, not `TODO: fix this`. -/
theorem GoParser_scenario_counterexample :
    GoParser.ParseFile (some fooFile) (lit "a.go") ≠
      some [store.Todo.mk (lit "TODO: fix this") (lit "a.go") 10 (lit "Foo")] ∧
    (GoParser.ParseFile (some fooFile) (lit "a.go")).map (fun l => l.map (fun t => t.Comment)) =
      some [lit "// TODO: fix this"] := by
  decide

end scan

namespace strings

theorem SplitN2_cut (a b : GoString) (sep : Nat) (h : sep ∉ a) :
    SplitN2 (a ++ sep :: b) sep = [a, b] := by
  have h1 : (a ++ sep :: b).contains sep = true := by simp
  have h2 : (a ++ sep :: b).takeWhile (fun c => decide (c ≠ sep)) = a := by
    rw [List.takeWhile_append_of_pos]
    · simp
    · intro x hx
      have : x ≠ sep := fun e => h (e ▸ hx)
      simpa using this
  have h3 : (a ++ sep :: b).dropWhile (fun c => decide (c ≠ sep)) = sep :: b := by
    rw [List.dropWhile_append_of_pos]
    · simp
    · intro x hx
      have : x ≠ sep := fun e => h (e ▸ hx)
      simpa using this
  simp only [SplitN2, h1, if_true, h2, h3, List.drop_one, List.tail_cons]

theorem first_occurrence (s : GoString) (sep : Nat) (h : sep ∈ s) :
    ∃ a b, s = a ++ sep :: b ∧ sep ∉ a := by
  induction s with
  | nil => simp at h
  | cons x xs ih =>
    by_cases hx : x = sep
    · subst hx; exact ⟨[], xs, rfl, by simp⟩
    · have hxs : sep ∈ xs := by
        rcases List.mem_cons.1 h with e | e
        · exact absurd e.symm hx
        · exact e
      obtain ⟨a, b, hs, ha⟩ := ih hxs
      refine ⟨x :: a, b, by simp [hs], ?_⟩
      intro hm
      rcases List.mem_cons.1 hm with e | e
      · exact hx e.symm
      · exact ha e

theorem SplitN2_of_mem (s : GoString) (sep : Nat) (h : sep ∈ s) :
    ∃ a b, SplitN2 s sep = [a, b] ∧ s = a ++ sep :: b ∧ sep ∉ a := by
  obtain ⟨a, b, hs, ha⟩ := first_occurrence s sep h
  exact ⟨a, b, by rw [hs]; exact SplitN2_cut a b sep ha, hs, ha⟩

theorem SplitN2_of_not_mem (s : GoString) (sep : Nat) (h : sep ∉ s) : SplitN2 s sep = [s] := by
  simp [SplitN2, h]

end strings

namespace scan

theorem externalLine_eq (filePath : GoString) (todos : List store.Todo) (l : GoString) :
    externalLine filePath todos l =
      todos ++ (if l.contains 0x3A then [annotationOfLine filePath l] else []) := by
  have hmem : (0x3A ∈ strings.TrimSpace l) ↔ 0x3A ∈ l :=
    strings.mem_TrimSpace 0x3A (by decide) (by decide) l
  by_cases hc : 0x3A ∈ l
  · have hc2 := hmem.2 hc
    obtain ⟨a, b, hsplit, hs, -⟩ := strings.SplitN2_of_mem _ _ hc2
    have hne : strings.TrimSpace l ≠ [] := by
      intro h; rw [h] at hc2; simp at hc2
    simp [externalLine, annotationOfLine, hne, hsplit, hc]
  · have hc2 : 0x3A ∉ strings.TrimSpace l := fun h => hc (hmem.1 h)
    have hsplit := strings.SplitN2_of_not_mem _ _ hc2
    by_cases hne : strings.TrimSpace l = []
    · simp [externalLine, hne, hc]
    · simp [externalLine, hne, hsplit, hc]

theorem externalLines_foldl (filePath : GoString) (lines : List GoString)
    (todos : List store.Todo) :
    lines.foldl (externalLine filePath) todos =
      todos ++ (lines.filter (fun l => l.contains 0x3A)).map (annotationOfLine filePath) := by
  induction lines generalizing todos with
  | nil => simp
  | cons l ls ih =>
    rw [List.foldl_cons, ih, externalLine_eq]
    by_cases h : 0x3A ∈ l
    · simp [h, List.filter_cons]
    · simp [h, List.filter_cons]

/-- C13. When the command exits successfully, `ExternalParser.ParseFile` returns no
error and one annotation for each output line that holds a `:`, in the order of the
lines; a line without `:` (blank or not) adds nothing. The annotation of a line
comes from the two parts of the trimmed line before and after its first `:`. -/
theorem ExternalParser_one_annotation_per_colon_line (out filePath line : GoString) :
    ExternalParser.ParseFile (some out) filePath =
      some (((strings.Split out 0x0A).filter (fun l => l.contains 0x3A)).map
        (annotationOfLine filePath)) ∧
    ((0x3A ∈ line → ∃ a b, strings.TrimSpace line = a ++ 0x3A :: b ∧ 0x3A ∉ a ∧
        annotationOfLine filePath line = lineTodo filePath a b) ∧
     (0x3A ∉ line → ∀ todos, externalLine filePath todos line = todos)) := by
  refine ⟨by simp [ExternalParser.ParseFile, externalLines_foldl], ?_, ?_⟩
  · intro h
    obtain ⟨a, b, hsplit, hs, ha⟩ := strings.SplitN2_of_mem _ _
      ((strings.mem_TrimSpace 0x3A (by decide) (by decide) line).2 h)
    exact ⟨a, b, hs, ha, by simp [annotationOfLine, hsplit]⟩
  · intro h todos
    rw [externalLine_eq]
    simp [h]

end scan

namespace regexp

theorem run_plus_isSome {β : Type} (p : Nat → Bool) (s : GoString) (caps : Captures)
    (k : GoString → Captures → Option β) :
    (run (Regex.plus p) s caps k).isSome ↔
      ∃ x u r, s = x :: (u ++ r) ∧ p x = true ∧ (∀ y ∈ u, p y = true) ∧ (k r caps).isSome := by
  cases s with
  | nil => simp [run]
  | cons x t =>
    by_cases hx : p x = true
    · simp only [run, hx, if_true, starLoop_isSome_iff]
      constructor
      · rintro ⟨u, r, h, hu, hk⟩; exact ⟨x, u, r, by rw [h], hx, hu, hk⟩
      · rintro ⟨x', u, r, h, -, hu, hk⟩
        simp only [List.cons.injEq] at h
        exact ⟨u, r, h.2, hu, hk⟩
    · simp only [run, hx, if_false]
      constructor
      · intro h; exact absurd h (by simp)
      · rintro ⟨x', u, r, h, hp, -⟩
        simp only [List.cons.injEq] at h
        rw [← h.1] at hp; exact absurd hp hx

theorem run_plus_cons {β : Type} (p : Nat → Bool) (x : Nat) (t : GoString) (caps : Captures)
    (k : GoString → Captures → Option β) (hx : p x = true) :
    run (Regex.plus p) (x :: t) caps k = starLoop p (fun r => k r caps) t := by
  simp [run, hx]

theorem run_char_cons {β : Type} (c : Nat) (t : GoString) (caps : Captures)
    (k : GoString → Captures → Option β) :
    run (Regex.char c) (c :: t) caps k = k t caps := by
  simp [run]

/-- The loop fails when the continuation fails on the input and the loop fails on the
rest. -/
theorem starLoop_cons_none {β : Type} (p : Nat → Bool) (k : GoString → Option β) (c : Nat)
    (t : GoString) (h1 : starLoop p k t = none) (h2 : k (c :: t) = none) :
    starLoop p k (c :: t) = none := by
  by_cases hp : p c = true
  · simp [starLoop, hp, h1, h2]
  · simp [starLoop, hp, h2]

/-- When the loop fails on the rest, its result is that of the continuation. -/
theorem starLoop_cons_of_none {β : Type} (p : Nat → Bool) (k : GoString → Option β) (c : Nat)
    (t : GoString) (h1 : starLoop p k t = none) : starLoop p k (c :: t) = k (c :: t) := by
  by_cases hp : p c = true
  · simp [starLoop, hp, h1]
  · simp [starLoop, hp]

/-- Two ways of cutting a string into a run of a class and a rest that does not start
with a character of the class are the same. -/
theorem run_unique (p : Nat → Bool) (a a1 b b1 : GoString) (h : a ++ b = a1 ++ b1)
    (ha : ∀ x ∈ a, p x = true) (ha1 : ∀ x ∈ a1, p x = true)
    (hb : ∀ c t, b = c :: t → p c = false) (hb1 : ∀ c t, b1 = c :: t → p c = false)
    (hbne : b ≠ []) (hb1ne : b1 ≠ []) : a = a1 ∧ b = b1 := by
  induction a generalizing a1 with
  | nil =>
    cases a1 with
    | nil => exact ⟨rfl, by simpa using h⟩
    | cons y ys =>
      exfalso
      cases b with
      | nil => exact hbne rfl
      | cons c t =>
        simp only [List.nil_append, List.cons_append, List.cons.injEq] at h
        have h1 := hb c t rfl
        have h2 := ha1 y (List.mem_cons_self _ _)
        rw [h.1, h2] at h1
        exact absurd h1 (by simp)
  | cons x xs ih =>
    cases a1 with
    | nil =>
      exfalso
      cases b1 with
      | nil => exact hb1ne rfl
      | cons c t =>
        simp only [List.nil_append, List.cons_append, List.cons.injEq] at h
        have h1 := hb1 c t rfl
        have h2 := ha x (List.mem_cons_self _ _)
        rw [← h.1, h2] at h1
        exact absurd h1 (by simp)
    | cons y ys =>
      simp only [List.cons_append, List.cons.injEq] at h
      obtain ⟨h3, h4⟩ := ih ys h.2 (fun z hz => ha z (List.mem_cons_of_mem _ hz))
        (fun z hz => ha1 z (List.mem_cons_of_mem _ hz))
      exact ⟨by rw [h.1, h3], h4⟩

end regexp

namespace scan

theorem lit_in_function :
    lit "[in function" =
      [0x5B, 0x69, 0x6E, 0x20, 0x66, 0x75, 0x6E, 0x63, 0x74, 0x69, 0x6F, 0x6E] := by
  decide

/-- Input on which `functionSuffix` can match starts with white space followed by the
literal `[in function`. -/
theorem functionSuffix_shape {β : Type} (r : GoString) (caps : regexp.Captures)
    (k : GoString → regexp.Captures → Option β)
    (h : (regexp.run functionSuffix r caps k).isSome) :
    ∃ x sp t, r = x :: (sp ++ (lit "[in function" ++ t)) ∧ regexp.perlSpace x = true ∧
      ∀ y ∈ sp, regexp.perlSpace y = true := by
  unfold functionSuffix at h
  rw [regexp.run_seq, regexp.run_plus_isSome] at h
  obtain ⟨x, u, r1, hr, hx, hu, hk⟩ := h
  rw [regexp.run_seq, regexp.run_word_isSome] at hk
  obtain ⟨t, ht, -⟩ := hk
  exact ⟨x, u, t, by rw [hr, ht], hx, hu⟩

/-- The literal `[in function` does not start a name followed by `]`. -/
theorem name_not_literal (name t : GoString)
    (hname : ∀ x ∈ name, x ≠ 0x5D ∧ regexp.perlSpace x = false)
    (h : name ++ [0x5D] = lit "[in function" ++ t) : False := by
  rcases List.append_eq_append_iff.1 h with ⟨a, h1, h2⟩ | ⟨c, h1, h2⟩
  · -- the literal is the name followed by more
    cases a with
    | nil =>
      have : 0x20 ∈ name := by
        simp only [List.append_nil] at h1
        rw [← h1]; decide
      exact absurd (hname _ this).2 (by decide)
    | cons y ys =>
      simp only [List.cons_append, List.cons.injEq] at h2
      have : 0x5D ∈ lit "[in function" := by
        rw [h1, ← h2.1]; simp
      exact absurd this (by decide)
  · have : 0x20 ∈ name := by
      rw [h1]; exact List.mem_append_left _ (by decide)
    exact absurd (hname _ this).2 (by decide)

/-- After the white space in front of the bracket, the pattern of the suffix takes the
white space after `function` and the name up to the closing bracket. -/
theorem functionSuffix_match {β : Type} (w : Nat) (ws name : GoString)
    (caps : regexp.Captures) (k : GoString → regexp.Captures → Option β) (v : β)
    (hw : regexp.perlSpace w = true) (hws : ws ≠ [])
    (hws2 : ∀ y ∈ ws, regexp.perlSpace y = true) (hne : name ≠ [])
    (hname : ∀ x ∈ name, x ≠ 0x5D ∧ regexp.perlSpace x = false)
    (hk : k [] ((2, name) :: caps) = some v) :
    regexp.run functionSuffix (w :: (lit "[in function" ++ (ws ++ (name ++ [0x5D])))) caps k =
      some v := by
  obtain ⟨x, ws1, rfl⟩ := List.exists_cons_of_ne_nil hws
  obtain ⟨c, nm, rfl⟩ := List.exists_cons_of_ne_nil hne
  have hx := hws2 x (List.mem_cons_self _ _)
  have hc := hname c (List.mem_cons_self _ _)
  unfold functionSuffix
  rw [regexp.run_seq, regexp.run_plus_cons _ _ _ _ _ hw, regexp.starLoop_stop]
  · rw [regexp.run_seq, regexp.run_word, regexp.run_seq]
    show regexp.run (regexp.Regex.plus regexp.perlSpace) (x :: (ws1 ++ (c :: nm ++ [0x5D]))) caps _ = _
    rw [regexp.run_plus_cons _ _ _ _ _ hx]
    apply regexp.starLoop_greedy _ _ _ _ _
      (fun y hy => hws2 y (List.mem_cons_of_mem _ hy))
    · intro c1 t1 h1
      simp only [List.cons_append, List.cons.injEq] at h1
      rw [← h1.1]; exact hc.2
    · rw [regexp.run_seq, regexp.run_group]
      show regexp.run (regexp.Regex.plus _) (c :: (nm ++ [0x5D])) caps _ = _
      rw [regexp.run_plus_cons _ _ _ _ _ (by simpa using hc.1)]
      apply regexp.starLoop_greedy _ _ _ _ _
        (fun y hy => by simpa using (hname y (List.mem_cons_of_mem _ hy)).1)
      · intro c1 t1 h1
        simp only [List.cons.injEq] at h1
        rw [← h1.1]; simp
      · rw [regexp.run_char_cons]
        simpa using hk
  · intro c1 t1 h1
    rw [lit_in_function] at h1
    simp only [List.cons_append, List.cons.injEq] at h1
    rw [← h1.1]; decide

/-- No match of `functionSuffix` starts inside or after the literal `[in function` that
is followed by white space, a name without white space, and the closing bracket. -/
theorem functionSuffix_no_later_match {β : Type} (K : GoString → Option β)
    (hK : ∀ r, (K r).isSome →
      ∃ x sp t, r = x :: (sp ++ (lit "[in function" ++ t)) ∧ regexp.perlSpace x = true ∧
        ∀ y ∈ sp, regexp.perlSpace y = true)
    (ws name : GoString) (hws2 : ∀ y ∈ ws, regexp.perlSpace y = true) (hne : name ≠ [])
    (hname : ∀ x ∈ name, x ≠ 0x5D ∧ regexp.perlSpace x = false) :
    regexp.starLoop regexp.dot K (lit "[in function" ++ (ws ++ (name ++ [0x5D]))) = none := by
  have none_of : ∀ r, (¬ ∃ x sp t, r = x :: (sp ++ (lit "[in function" ++ t)) ∧
      regexp.perlSpace x = true ∧ ∀ y ∈ sp, regexp.perlSpace y = true) → K r = none := by
    intro r hr
    cases h : K r with
    | none => rfl
    | some v => exact absurd (hK r (by rw [h]; rfl)) hr
  have head_ns : ∀ (c : Nat) (t : GoString), regexp.perlSpace c = false → K (c :: t) = none := by
    intro c t hc
    apply none_of
    rintro ⟨x, sp, t1, h, hx, -⟩
    simp only [List.cons.injEq] at h
    rw [← h.1, hc] at hx
    exact absurd hx (by simp)
  -- the name and the closing bracket
  have partC : ∀ nm : GoString, (∀ x ∈ nm, regexp.perlSpace x = false) →
      regexp.starLoop regexp.dot K (nm ++ [0x5D]) = none := by
    intro nm hnm
    induction nm with
    | nil =>
      exact regexp.starLoop_cons_none _ _ _ _
        (by
          show K [] = none
          apply none_of
          rintro ⟨x, sp, t1, h, -⟩
          simp at h)
        (head_ns _ _ (by decide))
    | cons c t ih =>
      exact regexp.starLoop_cons_none _ _ _ _
        (ih (fun x hx => hnm x (List.mem_cons_of_mem _ hx)))
        (head_ns _ _ (hnm c (List.mem_cons_self _ _)))
  -- the white space after `function`
  have partB : ∀ ws1 : GoString, (∀ y ∈ ws1, regexp.perlSpace y = true) →
      regexp.starLoop regexp.dot K (ws1 ++ (name ++ [0x5D])) = none := by
    intro ws1 hws1
    induction ws1 with
    | nil => exact partC name (fun x hx => (hname x hx).2)
    | cons c t ih =>
      refine regexp.starLoop_cons_none _ _ _ _
        (ih (fun y hy => hws1 y (List.mem_cons_of_mem _ hy))) ?_
      apply none_of
      rintro ⟨x, sp, t1, h, -, hsp⟩
      simp only [List.cons.injEq] at h
      obtain ⟨c0, nm0, hn0⟩ := List.exists_cons_of_ne_nil hne
      have huniq := regexp.run_unique regexp.perlSpace t sp (name ++ [0x5D])
        (lit "[in function" ++ t1) h.2
        (fun y hy => hws1 y (List.mem_cons_of_mem _ hy)) hsp
        (by
          intro c1 t2 h1
          rw [hn0] at h1
          simp only [List.cons_append, List.cons.injEq] at h1
          rw [← h1.1]; exact (hname c0 (by rw [hn0]; exact List.mem_cons_self _ _)).2)
        (by
          intro c1 t2 h1
          rw [lit_in_function] at h1
          simp only [List.cons_append, List.cons.injEq] at h1
          rw [← h1.1]; decide)
        (by simp)
        (by rw [lit_in_function]; simp)
      exact name_not_literal name t1 hname huniq.2
  -- the literal itself, character by character
  have hB := partB ws hws2
  generalize ws ++ (name ++ [0x5D]) = Y at hB
  rw [lit_in_function]
  have step : ∀ (c : Nat) (t : GoString), regexp.perlSpace c = false →
      regexp.starLoop regexp.dot K t = none → regexp.starLoop regexp.dot K (c :: t) = none :=
    fun c t hc ht => regexp.starLoop_cons_none _ _ _ _ ht (head_ns c t hc)
  simp only [List.cons_append, List.nil_append]
  refine step _ _ (by decide) (step _ _ (by decide) (step _ _ (by decide) ?_))
  refine regexp.starLoop_cons_none _ _ _ _ ?_ ?_
  · exact step _ _ (by decide) (step _ _ (by decide) (step _ _ (by decide)
      (step _ _ (by decide) (step _ _ (by decide) (step _ _ (by decide)
      (step _ _ (by decide) (step _ _ (by decide) hB)))))))
  · apply none_of
    rintro ⟨x, sp, t1, h, -, hsp⟩
    simp only [List.cons.injEq] at h
    obtain ⟨-, h2⟩ := h
    cases sp with
    | nil =>
      rw [lit_in_function] at h2
      simp at h2
    | cons y ys =>
      simp only [List.cons_append, List.cons.injEq] at h2
      have := hsp y (List.mem_cons_self _ _)
      rw [← h2.1] at this
      exact absurd this (by decide)

/-- The match of `functionRegex` on a text that ends with the function suffix. -/
theorem functionRegex_match (text before ws name : GoString) (w : Nat)
    (htext : text = before ++ w :: (lit "[in function" ++ (ws ++ (name ++ [0x5D]))))
    (hbefore : ∀ x ∈ before, x ≠ 0x0A)
    (hw : regexp.perlSpace w = true) (hws : ws ≠ [])
    (hws2 : ∀ y ∈ ws, regexp.perlSpace y = true) (hne : name ≠ [])
    (hname : ∀ x ∈ name, x ≠ 0x5D ∧ regexp.perlSpace x = false) :
    regexp.FindStringSubmatch functionRegex 2 text = [text, before, name] := by
  have hK : ∀ r, (regexp.run functionSuffix r
      [(1, text.take (text.length - r.length))]
      (fun r1 caps1 => some ((0, text.take (text.length - r1.length)) :: caps1))).isSome →
      ∃ x sp t, r = x :: (sp ++ (lit "[in function" ++ t)) ∧ regexp.perlSpace x = true ∧
        ∀ y ∈ sp, regexp.perlSpace y = true :=
    fun r h => functionSuffix_shape r _ _ h
  have hlen : text.length - (w :: (lit "[in function" ++ (ws ++ (name ++ [0x5D])))).length
      = before.length := by
    rw [htext]; simp
  have hhere : regexp.matchHere functionRegex text =
      some [(0, text), (2, name), (1, before)] := by
    unfold regexp.matchHere functionRegex
    rw [regexp.run_group, regexp.run_seq, regexp.run_group, regexp.run_star]
    have hrun : regexp.run functionSuffix
        (w :: (lit "[in function" ++ (ws ++ (name ++ [0x5D]))))
        [(1, text.take (text.length -
          (w :: (lit "[in function" ++ (ws ++ (name ++ [0x5D])))).length))]
        (fun r1 caps1 => some ((0, text.take (text.length - r1.length)) :: caps1)) =
        some [(0, text), (2, name), (1, before)] := by
      apply functionSuffix_match w ws name _ _ _ hw hws hws2 hne hname
      rw [hlen]
      simp [htext]
    have htail : regexp.starLoop regexp.dot
        (fun r => regexp.run functionSuffix r [(1, text.take (text.length - r.length))]
          (fun r1 caps1 => some ((0, text.take (text.length - r1.length)) :: caps1)))
        (w :: (lit "[in function" ++ (ws ++ (name ++ [0x5D])))) =
        some [(0, text), (2, name), (1, before)] := by
      have hnone := functionSuffix_no_later_match _ hK ws name hws2 hne hname
      rw [regexp.starLoop_cons_of_none _ _ _ _ hnone]
      exact hrun
    conv => lhs; arg 3; rw [htext]
    exact regexp.starLoop_append _ _ before _ _
      (fun x hx => by simpa [regexp.dot] using hbefore x hx) htail
  have hsearch := regexp.search_of_matchHere _ _ _ hhere
  simp [regexp.FindStringSubmatch, hsearch, List.range, List.range.loop, regexp.groupText]

/-- A text in which the literal `[in function` does not occur has no match. -/
theorem functionRegex_no_match (text : GoString)
    (h : ¬ ∃ a b, text = a ++ (lit "[in function" ++ b)) :
    regexp.FindStringSubmatch functionRegex 2 text = [] := by
  have hnone : regexp.search functionRegex text = none := by
    cases hs : regexp.search functionRegex text with
    | none => rfl
    | some caps =>
      exfalso
      have h1 : (regexp.search functionRegex text).isSome := by rw [hs]; rfl
      obtain ⟨pre, t, ht, hm⟩ := (regexp.search_isSome_iff _ _).1 h1
      unfold regexp.matchHere functionRegex at hm
      rw [regexp.run_group, regexp.run_seq, regexp.run_group, regexp.run_star,
        regexp.starLoop_isSome_iff] at hm
      obtain ⟨u, r, hur, -, hk⟩ := hm
      obtain ⟨x, sp, t1, hr, -, -⟩ := functionSuffix_shape r _ _ hk
      exact h ⟨pre ++ (u ++ (x :: sp)), t1, by rw [ht, hur, hr]; simp⟩
  simp [regexp.FindStringSubmatch, hnone]

end scan

namespace fmt

theorem isDigit_bounds (d : Nat) (h : isDigit d = true) : 0x30 ≤ d ∧ d ≤ 0x39 := by
  simpa [isDigit] using h

/-- Scanning a string of decimal digits whose value fits a 64-bit integer gives that
value. -/
theorem scanInt_digits (ds : GoString) (hne : ds ≠ []) (hall : ∀ d ∈ ds, isDigit d = true)
    (hval : digitsValue ds < 2 ^ 63) : scanInt ds = some (digitsValue ds : Int) := by
  obtain ⟨d, rest, rfl⟩ := List.exists_cons_of_ne_nil hne
  have hd := isDigit_bounds d (hall d (List.mem_cons_self _ _))
  have hdec : utf8.DecodeRune (d :: rest) = (d, 1) := by
    have : d < 0x80 := by omega
    simp [utf8.DecodeRune, this]
  have hsp : isSpace d = false := by
    obtain ⟨h1, h2⟩ := hd
    interval_cases d <;> rfl
  have hskip : SkipSpace (d :: rest).length (d :: rest) = some (d :: rest) := by
    have hnl : d ≠ 0x0A := by omega
    simp [SkipSpace, hdec, hsp, hnl]
  have htake : (d :: rest).takeWhile isDigit = d :: rest := by
    rw [List.takeWhile_eq_self_iff]
    exact hall
  have h1 : ¬ d = 0x2B := by omega
  have h2 : ¬ d = 0x2D := by omega
  have hval2 : digitsValue (d :: rest) < 9223372036854775808 := by simpa using hval
  have hd0 : isDigit d = true := hall d (List.mem_cons_self _ _)
  unfold scanInt
  rw [hskip]
  simp [h1, h2, htake, hval2, hd0]

end fmt

namespace strings

theorem Split_no_sep (s : GoString) (sep : Nat) (h : sep ∉ s) : Split s sep = [s] := by
  induction s with
  | nil => rfl
  | cons c cs ih =>
    have hc : ¬ c = sep := fun e => h (by rw [e]; exact List.mem_cons_self _ _)
    have hcs : sep ∉ cs := fun e => h (List.mem_cons_of_mem _ e)
    simp [Split, hc, ih hcs]

end strings

namespace scan

/-- C12, as amended. For an output line whose trimmed text is a string of decimal
digits (with a value that fits a 64-bit integer), a `:` and a text, the annotation has
the value of the digits as line number and the parsed file as file path. If the
trimmed text is some text, a white-space character, `[in function`, white space, a
non-empty name without white space or `]`, and the closing `]`, the comment is the
text before that white-space character, trimmed, and the function is the name. If
`[in function` does not occur in the text, the comment is the whole trimmed text and
the function is empty. A line without line feed that is the whole output gives
exactly this annotation. -/
theorem ExternalParser_line_fields (filePath line digits text : GoString)
    (hline : strings.TrimSpace line = digits ++ 0x3A :: text)
    (hne : digits ≠ []) (hall : ∀ d ∈ digits, fmt.isDigit d = true)
    (hval : fmt.digitsValue digits < 2 ^ 63) :
    (annotationOfLine filePath line).LineNumber = (fmt.digitsValue digits : Int) ∧
    (annotationOfLine filePath line).FilePath = filePath ∧
    (∀ before w ws name,
        strings.TrimSpace text =
          before ++ w :: (lit "[in function" ++ (ws ++ (name ++ [0x5D]))) →
        (∀ x ∈ before, x ≠ 0x0A) → regexp.perlSpace w = true → ws ≠ [] →
        (∀ y ∈ ws, regexp.perlSpace y = true) → name ≠ [] →
        (∀ x ∈ name, x ≠ 0x5D ∧ regexp.perlSpace x = false) →
        (annotationOfLine filePath line).Comment = strings.TrimSpace before ∧
        (annotationOfLine filePath line).Function = name) ∧
    ((¬ ∃ a b, strings.TrimSpace text = a ++ (lit "[in function" ++ b)) →
        (annotationOfLine filePath line).Comment = strings.TrimSpace text ∧
        (annotationOfLine filePath line).Function = []) ∧
    (0x0A ∉ line →
      ExternalParser.ParseFile (some line) filePath = some [annotationOfLine filePath line]) := by
  have hnot : 0x3A ∉ digits := by
    intro h
    have := fmt.isDigit_bounds _ (hall _ h)
    omega
  have hann : annotationOfLine filePath line = lineTodo filePath digits text := by
    simp [annotationOfLine, hline, strings.SplitN2_cut digits text 0x3A hnot]
  have hnum : parseLineNumber digits = (fmt.digitsValue digits : Int) := by
    simp [parseLineNumber, fmt.SscanfInt, fmt.scanInt_digits digits hne hall hval]
  rw [hann]
  refine ⟨?_, ?_, ?_, ?_, ?_⟩
  · unfold lineTodo
    simp only [hnum]
    split_ifs <;> rfl
  · unfold lineTodo
    simp only []
    split_ifs <;> rfl
  · intro before w ws name htext hbefore hw hws hws2 hname hname2
    have hm := functionRegex_match _ before ws name w htext hbefore hw hws hws2 hname hname2
    simp [lineTodo, hm]
  · intro hno
    have hm := functionRegex_no_match _ hno
    simp [lineTodo, hm]
  · intro hnl
    have hcolon : 0x3A ∈ line := by
      rw [← strings.mem_TrimSpace 0x3A (by decide) (by decide) line, hline]
      simp
    have hc : line.contains 0x3A = true := by simpa using hcolon
    simp only [ExternalParser.ParseFile, strings.Split_no_sep line 0x0A hnl,
      externalLines_foldl, List.filter_cons, hc, if_true, List.filter_nil, List.nil_append,
      List.map_cons, List.map_nil, hann]

set_option maxRecDepth 100000 in
/-- C12, as amended, at the output line `12: TODO: x [in function bar]`. -/
theorem ExternalParser_line_fields_witness :
    (annotationOfLine (lit "a.js") (lit "12: TODO: x [in function bar]")).LineNumber = 12 ∧
    (annotationOfLine (lit "a.js") (lit "12: TODO: x [in function bar]")).Comment
      = lit "TODO: x" ∧
    (annotationOfLine (lit "a.js") (lit "12: TODO: x [in function bar]")).Function
      = lit "bar" :=
  have h := ExternalParser_line_fields (lit "a.js") (lit "12: TODO: x [in function bar]")
    (lit "12") (lit " TODO: x [in function bar]") (by decide) (by decide) (by decide)
    (by decide)
  have h2 := h.2.2.1 (lit "TODO: x") 0x20 (lit " ") (lit "bar") (by decide) (by decide)
    (by decide) (by decide) (by decide) (by decide) (by decide)
  ⟨h.1, h2.1.trans (by decide), h2.2⟩

set_option maxRecDepth 100000 in
/-- C12, as stated, fails. The text `note[in function f]` ends with the suffix, yet the
pattern asks for white space before the bracket: the comment is the whole text and
the function is empty. The text `fix [in function Foo] later` does not end with the
suffix, yet the pattern is not anchored at the end: the comment is `fix` and the
function is `Foo`. -/
theorem ExternalParser_suffix_counterexample :
    ExternalParser.ParseFile (some (lit "5:note[in function f]")) (lit "a.js") =
      some [store.Todo.mk (lit "note[in function f]") (lit "a.js") 5 []] ∧
    ExternalParser.ParseFile (some (lit "7:fix [in function Foo] later")) (lit "a.js") =
      some [store.Todo.mk (lit "fix") (lit "a.js") 7 (lit "Foo")] := by
  decide

/-! ## Theorems: walks that prune ignored directories -/

mutual
/-- A walk whose callback returns `SkipDir` exactly at ignored directories and nil
everywhere else calls it, outside errors, on the reached entries in order. -/
theorem walk_pruning {σ : Type} (fn : WalkFunc σ) (ign : ignore.IgnoreManager)
    (hErr1 : ∀ st p, fn st p none true = (st, none))
    (hErr2 : ∀ st p, fn st p (some true) true = (st, none))
    (hDir : ∀ st p, (fn st p (some true) false).2 =
        (if ign.ShouldIgnore p then some WalkErr.SkipDir else none) ∧
      (ign.ShouldIgnore p = true → (fn st p (some true) false).1 = st))
    (hFile : ∀ st p, (fn st p (some false) false).2 = none) :
    ∀ (node : Node) (path : GoString) (st : σ),
      ((walk fn path node st).2 = none ∨
        (node.IsDir = true ∧ (walk fn path node st).2 = some WalkErr.SkipDir)) ∧
      (walk fn path node st).1 =
        (reached ign path node).foldl (fun s e => (fn s e.1 (some e.2) false).1) st
  | Node.file, path, st => by
    simp [walk, reached, hFile]
  | Node.lstatError, path, st => by
    simp [walk, reached, hErr1]
  | Node.unreadableDir, path, st => by
    simp [walk, reached, hErr2]
  | Node.dir entries, path, st => by
    have ih := walkEntries_pruning fn ign hErr1 hErr2 hDir hFile entries path
      (fn st path (some true) false).1
    obtain ⟨hd1, hd2⟩ := hDir st path
    by_cases h1 : ign.ShouldIgnore path = true
    · have hd3 : (fn st path (some true) false).2 = some WalkErr.SkipDir := by
        rw [hd1]; simp [h1]
      have hw : walk fn path (Node.dir entries) st = fn st path (some true) false := by
        simp [walk, hd3]
      rw [hw]
      simp [reached, h1, hd3, hd2 h1, Node.IsDir]
    · simp only [walk, reached, hd1, h1]
      simp only [Bool.false_eq_true, if_false, ne_eq, not_true_eq_false, List.foldl_cons]
      exact ⟨Or.inl ih.1, ih.2⟩
/-- The same for the entries of a directory. -/
theorem walkEntries_pruning {σ : Type} (fn : WalkFunc σ) (ign : ignore.IgnoreManager)
    (hErr1 : ∀ st p, fn st p none true = (st, none))
    (hErr2 : ∀ st p, fn st p (some true) true = (st, none))
    (hDir : ∀ st p, (fn st p (some true) false).2 =
        (if ign.ShouldIgnore p then some WalkErr.SkipDir else none) ∧
      (ign.ShouldIgnore p = true → (fn st p (some true) false).1 = st))
    (hFile : ∀ st p, (fn st p (some false) false).2 = none) :
    ∀ (entries : List (GoString × Node)) (path : GoString) (st : σ),
      (walkEntries fn path entries st).2 = none ∧
      (walkEntries fn path entries st).1 =
        (reachedEntries ign path entries).foldl (fun s e => (fn s e.1 (some e.2) false).1) st
  | [], path, st => by simp [walkEntries, reachedEntries]
  | (name, node) :: rest, path, st => by
    have hw := walk_pruning fn ign hErr1 hErr2 hDir hFile node (filepath.Join path name) st
    have hr := walkEntries_pruning fn ign hErr1 hErr2 hDir hFile rest path
      (walk fn (filepath.Join path name) node st).1
    obtain ⟨he, hs⟩ := hw
    obtain ⟨hre, hrs⟩ := hr
    have hcont : ¬ ((walk fn (filepath.Join path name) node st).2 ≠ none ∧
        ((!node.IsDir) = true ∨
          (walk fn (filepath.Join path name) node st).2 ≠ some WalkErr.SkipDir)) := by
      rintro ⟨hne, hor⟩
      rcases he with he | ⟨hd, he⟩
      · exact hne he
      · rcases hor with hor | hor
        · simp [hd] at hor
        · exact hor he
    cases node with
    | lstatError =>
      simp only [walkEntries, reachedEntries, reached, hErr1]
      have hr2 := walkEntries_pruning fn ign hErr1 hErr2 hDir hFile rest path st
      simpa using hr2
    | file =>
      simp only [walkEntries, reachedEntries]
      rw [if_neg hcont]
      exact ⟨hre, by rw [hrs, hs, List.foldl_append]⟩
    | unreadableDir =>
      simp only [walkEntries, reachedEntries]
      rw [if_neg hcont]
      exact ⟨hre, by rw [hrs, hs, List.foldl_append]⟩
    | dir es =>
      simp only [walkEntries, reachedEntries]
      rw [if_neg hcont]
      exact ⟨hre, by rw [hrs, hs, List.foldl_append]⟩
end

theorem Walk_pruning {σ : Type} (fn : WalkFunc σ) (ign : ignore.IgnoreManager)
    (hErr1 : ∀ st p, fn st p none true = (st, none))
    (hErr2 : ∀ st p, fn st p (some true) true = (st, none))
    (hDir : ∀ st p, (fn st p (some true) false).2 =
        (if ign.ShouldIgnore p then some WalkErr.SkipDir else none) ∧
      (ign.ShouldIgnore p = true → (fn st p (some true) false).1 = st))
    (hFile : ∀ st p, (fn st p (some false) false).2 = none)
    (root : GoString) (tree : Node) (st : σ) :
    (Walk fn root tree st).2 = none ∧
    (Walk fn root tree st).1 =
      (reached ign root tree).foldl (fun s e => (fn s e.1 (some e.2) false).1) st := by
  obtain ⟨he, hs⟩ := walk_pruning fn ign hErr1 hErr2 hDir hFile tree root st
  unfold Walk
  cases tree with
  | lstatError => simp [hErr1, reached]
  | file =>
    simp only
    rcases he with he | ⟨_, he⟩ <;> simp [he, hs]
  | unreadableDir =>
    simp only
    rcases he with he | ⟨_, he⟩ <;> simp [he, hs]
  | dir es =>
    simp only
    rcases he with he | ⟨_, he⟩ <;> simp [he, hs]

mutual
theorem visitedFiles_eq_reached (ign : ignore.IgnoreManager) :
    ∀ (node : Node) (path : GoString),
      visitedFiles ign path node =
        ((reached ign path node).filter (fun e => !e.2)).map Prod.fst
  | Node.file, path => by simp [visitedFiles, reached]
  | Node.lstatError, path => by simp [visitedFiles, reached]
  | Node.unreadableDir, path => by simp [visitedFiles, reached]
  | Node.dir entries, path => by
    have ih := visitedEntries_eq_reached ign entries path
    by_cases h : ign.ShouldIgnore path = true
    · simp [visitedFiles, reached, h]
    · simp [visitedFiles, reached, h, ih]
theorem visitedEntries_eq_reached (ign : ignore.IgnoreManager) :
    ∀ (entries : List (GoString × Node)) (path : GoString),
      visitedEntries ign path entries =
        ((reachedEntries ign path entries).filter (fun e => !e.2)).map Prod.fst
  | [], path => by simp [visitedEntries, reachedEntries]
  | (name, node) :: rest, path => by
    have h1 := visitedFiles_eq_reached ign node (filepath.Join path name)
    have h2 := visitedEntries_eq_reached ign rest path
    simp [visitedEntries, reachedEntries, h1, h2]
end

/-- The log of a traced callback after a run over reached entries. -/
theorem traceFiles_foldl {σ : Type} (fn : WalkFunc σ) (l : List (GoString × Bool))
    (st : σ × List GoString) :
    (l.foldl (fun s e => (traceFiles fn s e.1 (some e.2) false).1) st).2 =
      st.2 ++ (l.filter (fun e => !e.2)).map Prod.fst := by
  induction l generalizing st with
  | nil => simp
  | cons e es ih =>
    rw [List.foldl_cons, ih]
    obtain ⟨p, d⟩ := e
    cases d <;> simp [traceFiles, List.filter_cons]

/-- The files on which the walk of `RunScan` calls its callback are the files the
walk reaches. -/
theorem scanVisited_eq (env : ScanEnv) (projectPath : GoString) :
    scanVisited env projectPath =
      visitedFiles (ignore.scanIgnoreManager env.ttignore) projectPath env.tree := by
  unfold scanVisited
  rw [(Walk_pruning
    (traceFiles (scanCallback env (NewManager env.plugins).1
      (ignore.scanIgnoreManager env.ttignore)))
    (ignore.scanIgnoreManager env.ttignore) ?_ ?_ ?_ ?_ projectPath env.tree _).2,
    traceFiles_foldl, visitedFiles_eq_reached]
  · simp
  · intro st p; simp [traceFiles, scanCallback_err]
  · intro st p; simp [traceFiles, scanCallback_err]
  · intro st p
    simp [traceFiles, scanCallback_dir]
  · intro st p
    exact (scanCallback_file env _ _ st.1 p).1

end scan

namespace watcher

/-- The watch set after a run of the watch callback over reached entries, when no
subscription fails. -/
theorem watchCallback_foldl (ign : ignore.IgnoreManager) (addFails : GoString → Bool)
    (hadd : ∀ p, addFails p = false) (l : List (GoString × Bool))
    (hl : ∀ e ∈ l, e.2 = true → ign.ShouldIgnore e.1 = false) (watched : List GoString) :
    l.foldl (fun s e => (watchCallback addFails ign s e.1 (some e.2) false).1) watched =
      watched ++ (l.filter (fun e => e.2)).map Prod.fst := by
  induction l generalizing watched with
  | nil => simp
  | cons e es ih =>
    rw [List.foldl_cons, ih (fun x hx => hl x (List.mem_cons_of_mem _ hx))]
    obtain ⟨p, d⟩ := e
    cases d with
    | false =>
      by_cases h : ign.ShouldIgnore p = true <;> simp [watchCallback, h, List.filter_cons]
    | true =>
      have h := hl (p, true) (List.mem_cons_self _ _) rfl
      simp at h
      simp [watchCallback, h, hadd, List.filter_cons]

end watcher

namespace scan

mutual
theorem reached_dirs_subset (ign : ignore.IgnoreManager) :
    ∀ (node : Node) (path : GoString) (q : GoString),
      q ∈ ((reached ign path node).filter (fun e => e.2)).map Prod.fst → q ∈ allDirs path node
  | Node.file, path, q => by simp [reached]
  | Node.lstatError, path, q => by simp [reached]
  | Node.unreadableDir, path, q => by simp [reached]
  | Node.dir entries, path, q => by
    have ih := reachedEntries_dirs_subset ign entries path q
    by_cases h : ign.ShouldIgnore path = true
    · simp [reached, h]
    · intro hq
      simp only [reached, h, Bool.false_eq_true, if_false, List.filter_cons, if_true,
        List.map_cons, List.mem_cons] at hq
      rcases hq with hq | hq
      · simp [allDirs, hq]
      · simp only [allDirs, List.mem_cons]
        exact Or.inr (ih hq)
theorem reachedEntries_dirs_subset (ign : ignore.IgnoreManager) :
    ∀ (entries : List (GoString × Node)) (path : GoString) (q : GoString),
      q ∈ ((reachedEntries ign path entries).filter (fun e => e.2)).map Prod.fst →
        q ∈ allDirsEntries path entries
  | [], path, q => by simp [reachedEntries]
  | (name, node) :: rest, path, q => by
    have h1 := reached_dirs_subset ign node (filepath.Join path name) q
    have h2 := reachedEntries_dirs_subset ign rest path q
    intro hq
    simp only [reachedEntries, List.filter_append, List.map_append, List.mem_append] at hq
    simp only [allDirsEntries, List.mem_append]
    rcases hq with hq | hq
    · exact Or.inl (h1 hq)
    · exact Or.inr (h2 hq)
end

mutual
/-- Below a directory that is not in the watch set and has no directory of the watch
set below it, no file has a watched parent. -/
theorem unwatched_files (D : List GoString) :
    ∀ (node : Node) (path P : GoString), P ∉ D → (∀ x ∈ allDirs path node, x ∉ D) →
      (filesWithParent path (some P) node).filter (parentWatched D) = []
  | Node.file, path, P, hP, _ => by simp [filesWithParent, parentWatched, hP]
  | Node.lstatError, path, P, _, _ => by simp [filesWithParent]
  | Node.unreadableDir, path, P, _, _ => by simp [filesWithParent]
  | Node.dir entries, path, P, _, hall => by
    simp only [filesWithParent]
    exact unwatched_entries D entries path (hall path (by simp [allDirs]))
      (fun x hx => hall x (by simp [allDirs, hx]))
theorem unwatched_entries (D : List GoString) :
    ∀ (entries : List (GoString × Node)) (path : GoString), path ∉ D →
      (∀ x ∈ allDirsEntries path entries, x ∉ D) →
      (entriesWithParent path entries).filter (parentWatched D) = []
  | [], path, _, _ => by simp [entriesWithParent]
  | (name, node) :: rest, path, hP, hall => by
    have h1 := unwatched_files D node (filepath.Join path name) path hP
      (fun x hx => hall x (by simp [allDirsEntries, hx]))
    have h2 := unwatched_entries D rest path hP
      (fun x hx => hall x (by simp [allDirsEntries, hx]))
    simp [entriesWithParent, List.filter_append, h1, h2]
end

mutual
/-- When the watch set holds, of the directories of a tree, exactly the reached ones,
the files with a watched parent are the reached files. -/
theorem watched_files (ign : ignore.IgnoreManager) (D : List GoString) :
    ∀ (node : Node) (path : GoString) (parent : Option GoString),
      (allDirs path node).Nodup →
      (∀ q ∈ allDirs path node,
        q ∈ D ↔ q ∈ ((reached ign path node).filter (fun e => e.2)).map Prod.fst) →
      (node = Node.file → parentWatched D (path, parent) = true) →
      ((filesWithParent path parent node).filter (parentWatched D)).map Prod.fst =
        ((reached ign path node).filter (fun e => !e.2)).map Prod.fst
  | Node.file, path, parent, _, _, hpar => by
    simp [filesWithParent, reached, List.filter_cons, hpar rfl]
  | Node.lstatError, path, parent, _, _, _ => by simp [filesWithParent, reached]
  | Node.unreadableDir, path, parent, _, _, _ => by simp [filesWithParent, reached]
  | Node.dir entries, path, parent, hnd, hD, _ => by
    simp only [allDirs, List.nodup_cons] at hnd
    by_cases h : ign.ShouldIgnore path = true
    · have hnone : ∀ x ∈ allDirs path (Node.dir entries), x ∉ D := by
        intro x hx hxD
        have := (hD x hx).1 hxD
        simp [reached, h] at this
      have hu := unwatched_entries D entries path (hnone path (by simp [allDirs]))
        (fun x hx => hnone x (by simp [allDirs, hx]))
      simp [filesWithParent, reached, h, hu]
    · have hpD : path ∈ D := (hD path (by simp [allDirs])).2 (by simp [reached, h])
      have ih := watched_entries ign D entries path hnd.2
        (by
          intro q hq
          have hne : q ≠ path := fun e => hnd.1 (e ▸ hq)
          have := hD q (by simp [allDirs, hq])
          simpa [reached, h, List.filter_cons, hne] using this)
        hpD
      simp only [filesWithParent, ih]
      simp [reached, h, List.filter_cons]
theorem watched_entries (ign : ignore.IgnoreManager) (D : List GoString) :
    ∀ (entries : List (GoString × Node)) (path : GoString),
      (allDirsEntries path entries).Nodup →
      (∀ q ∈ allDirsEntries path entries,
        q ∈ D ↔ q ∈ ((reachedEntries ign path entries).filter (fun e => e.2)).map Prod.fst) →
      path ∈ D →
      ((entriesWithParent path entries).filter (parentWatched D)).map Prod.fst =
        ((reachedEntries ign path entries).filter (fun e => !e.2)).map Prod.fst
  | [], path, _, _, _ => by simp [entriesWithParent, reachedEntries]
  | (name, node) :: rest, path, hnd, hD, hpD => by
    simp only [allDirsEntries, List.nodup_append] at hnd
    obtain ⟨hnd1, hnd2, hdisj⟩ := hnd
    have h1 := watched_files ign D node (filepath.Join path name) (some path) hnd1
      (by
        intro q hq
        have hnot : q ∉ ((reachedEntries ign path rest).filter (fun e => e.2)).map Prod.fst :=
          fun hm => hdisj hq (reachedEntries_dirs_subset ign rest path q hm)
        have := hD q (by simp [allDirsEntries, hq])
        simp only [reachedEntries, List.filter_append, List.map_append, List.mem_append] at this
        constructor
        · intro hqD
          rcases this.1 hqD with h | h
          · exact h
          · exact absurd h hnot
        · intro hq2; exact this.2 (Or.inl hq2))
      (fun _ => by simp [parentWatched, hpD])
    have h2 := watched_entries ign D rest path hnd2
      (by
        intro q hq
        have hnot : q ∉ ((reached ign (filepath.Join path name) node).filter
            (fun e => e.2)).map Prod.fst :=
          fun hm => hdisj (reached_dirs_subset ign node _ q hm) hq
        have := hD q (by simp [allDirsEntries, hq])
        simp only [reachedEntries, List.filter_append, List.map_append, List.mem_append] at this
        constructor
        · intro hqD
          rcases this.1 hqD with h | h
          · exact absurd h hnot
          · exact h
        · intro hq2; exact this.2 (Or.inr hq2))
      hpD
    simp only [entriesWithParent, reachedEntries, List.filter_append, List.map_append, h1, h2]
end

mutual
theorem reached_dirs_not_ignored (ign : ignore.IgnoreManager) :
    ∀ (node : Node) (path : GoString) (e : GoString × Bool),
      e ∈ reached ign path node → e.2 = true → ign.ShouldIgnore e.1 = false
  | Node.file, path, e => by
    intro he h2
    simp [reached] at he
    rw [he] at h2; simp at h2
  | Node.lstatError, path, e => by simp [reached]
  | Node.unreadableDir, path, e => by simp [reached]
  | Node.dir entries, path, e => by
    have ih := reachedEntries_dirs_not_ignored ign entries path e
    by_cases h : ign.ShouldIgnore path = true
    · simp [reached, h]
    · intro he h2
      simp only [reached, h, Bool.false_eq_true, if_false, List.mem_cons] at he
      rcases he with he | he
      · rw [he]; simpa using h
      · exact ih he h2
theorem reachedEntries_dirs_not_ignored (ign : ignore.IgnoreManager) :
    ∀ (entries : List (GoString × Node)) (path : GoString) (e : GoString × Bool),
      e ∈ reachedEntries ign path entries → e.2 = true → ign.ShouldIgnore e.1 = false
  | [], path, e => by simp [reachedEntries]
  | (name, node) :: rest, path, e => by
    have h1 := reached_dirs_not_ignored ign node (filepath.Join path name) e
    have h2 := reachedEntries_dirs_not_ignored ign rest path e
    intro he
    simp only [reachedEntries, List.mem_append] at he
    rcases he with he | he
    · exact h1 he
    · exact h2 he
end

end scan

namespace watcher

/-- The watch set after `watchProject` on a directory, when no subscription fails: the
root, then every directory the pruned walk reaches. -/
theorem watchProject_watched (pw : ProjectWatcher) (tree : scan.Node)
    (ttignore : Option GoString) (addFails : GoString → Bool) (root : GoString)
    (hdir : tree.IsDir = true) (hadd : ∀ p, addFails p = false) :
    (pw.watchProject tree ttignore addFails root).1.watched =
      pw.watched ++ [root] ++
        ((scan.reached (pw.ignoreMgr.LoadFromFile ttignore).1 root tree).filter
          (fun e => e.2)).map Prod.fst := by
  have hwalk := (scan.Walk_pruning (watchCallback addFails (pw.ignoreMgr.LoadFromFile ttignore).1)
    (pw.ignoreMgr.LoadFromFile ttignore).1
    (by intro st p; simp [watchCallback])
    (by intro st p; simp [watchCallback])
    (by
      intro st p
      by_cases h : (pw.ignoreMgr.LoadFromFile ttignore).1.ShouldIgnore p = true
      · simp [watchCallback, h]
      · simp [watchCallback, h])
    (by
      intro st p
      by_cases h : (pw.ignoreMgr.LoadFromFile ttignore).1.ShouldIgnore p = true
      · simp [watchCallback, h]
      · simp [watchCallback, h])
    root tree (pw.watched ++ [root])).2
  rw [watchCallback_foldl _ _ hadd _
    (fun e he => scan.reached_dirs_not_ignored _ tree root e he)] at hwalk
  cases tree with
  | file => simp [scan.Node.IsDir] at hdir
  | lstatError => simp [scan.Node.IsDir] at hdir
  | unreadableDir => simp only [ProjectWatcher.watchProject, hadd, hwalk]; simp
  | dir es => simp only [ProjectWatcher.watchProject, hadd, hwalk]; simp

/-- C19, as amended. For a project root that is a directory the ignore filter accepts,
in a tree whose directories have distinct paths, on a watcher that has no
subscription yet and holds the default rules, and when no subscription fails: the
files whose containing directory `watchProject` subscribes are exactly the files
the walk of `RunScan` visits, in the same order. -/
theorem watchProject_subscribes_visited (pw : ProjectWatcher) (env : scan.ScanEnv)
    (addFails : GoString → Bool) (root : GoString)
    (hw : pw.watched = [])
    (hi : pw.ignoreMgr = ignore.addPatterns ignore.NewIgnoreManager ignore.GetDefaultPatterns)
    (hdir : env.tree.IsDir = true)
    (hroot : (ignore.scanIgnoreManager env.ttignore).ShouldIgnore root = false)
    (hadd : ∀ p, addFails p = false)
    (hnd : (scan.allDirs root env.tree).Nodup) :
    scan.filesInWatched (pw.watchProject env.tree env.ttignore addFails root).1.watched
      root env.tree = scan.scanVisited env root := by
  have hign : (pw.ignoreMgr.LoadFromFile env.ttignore).1 =
      ignore.scanIgnoreManager env.ttignore := by
    rw [hi]; rfl
  rw [scan.scanVisited_eq, scan.visitedFiles_eq_reached,
    watchProject_watched pw env.tree env.ttignore addFails root hdir hadd, hign, hw]
  unfold scan.filesInWatched
  cases htree : env.tree with
  | file => rw [htree] at hdir; simp [scan.Node.IsDir] at hdir
  | lstatError => rw [htree] at hdir; simp [scan.Node.IsDir] at hdir
  | unreadableDir => simp [scan.filesWithParent, scan.reached]
  | dir es =>
    rw [htree] at hnd
    apply scan.watched_files _ _ (scan.Node.dir es) root none hnd
    · intro q _
      simp only [List.nil_append, List.singleton_append, List.mem_cons]
      constructor
      · rintro (h | h)
        · subst h
          simp [scan.reached, hroot]
        · exact h
      · intro h; exact Or.inr h
    · intro hfile
      simp at hfile

set_option maxRecDepth 100000 in
/-- C19, as amended, at the project `/p` with a file `a.go` and a directory `build`
that holds `b.go`: the root is the one subscribed directory and `a.go` the one
visited file. -/
theorem watchProject_subscribes_visited_witness :
    scan.filesInWatched
      (NewProjectWatcher.watchProject scan.prunedEnv.tree scan.prunedEnv.ttignore
        (fun _ => false) (lit "/p")).1.watched (lit "/p") scan.prunedEnv.tree =
      scan.scanVisited scan.prunedEnv (lit "/p") :=
  watchProject_subscribes_visited NewProjectWatcher scan.prunedEnv (fun _ => false) (lit "/p")
    rfl rfl rfl (by decide) (fun _ => rfl) (by decide)

set_option maxRecDepth 100000 in
/-- C19, as stated, fails at a project whose root directory is itself ignored: for
the project `/p/build` with the one file `a.go`, `RunScan` prunes the walk at the
root and visits no file, while `watchProject` subscribes the root before it walks,
so the directory that holds `a.go` is subscribed. -/
theorem watchProject_ignored_root_counterexample :
    scan.scanVisited { scan.demoEnv with tree := scan.Node.dir [(lit "a.go", scan.Node.file)] }
      (lit "/p/build") = [] ∧
    (NewProjectWatcher.watchProject (scan.Node.dir [(lit "a.go", scan.Node.file)]) none
      (fun _ => false) (lit "/p/build")).1.watched = [lit "/p/build"] ∧
    scan.filesInWatched
      (NewProjectWatcher.watchProject (scan.Node.dir [(lit "a.go", scan.Node.file)]) none
        (fun _ => false) (lit "/p/build")).1.watched
      (lit "/p/build") (scan.Node.dir [(lit "a.go", scan.Node.file)]) =
      [lit "/p/build/a.go"] := by
  decide

/-! ## Theorems: events and the debounce sweep -/

end watcher

/-! ## Theorems: line numbers of the external parser -/

namespace fmt

end fmt

namespace scan

set_option maxRecDepth 100000 in
/-- C22 at the failing input. In the file `func A() {}// TODO: x` the comment starts at
the position `End()` of the declaration, right after the closing brace; the test
`pos <= fn.End()` holds there, so the function found is `A` and the annotation of the
comment carries it. -/
theorem findEnclosingFunction_end_position :
    findEnclosingFunction braceFile 22 = lit "A" ∧
    GoParser.ParseFile (some braceFile) (lit "a.go") =
      some [store.Todo.mk (lit "// TODO: x") (lit "a.go") 2 (lit "A")] := by
  decide

/-- The function found when no declaration holds the position. -/
theorem findEnclosingFunction_none (node : File) (pos : Nat)
    (h : ∀ name p e, Decl.FuncDecl name p e ∈ node.Decls → ¬ (p ≤ pos ∧ pos ≤ e)) :
    findEnclosingFunction node pos = [] := by
  unfold findEnclosingFunction
  generalize node.Decls = ds at h
  induction ds with
  | nil => rfl
  | cons d ds ih =>
    rw [List.foldl_cons]
    cases d with
    | other => exact ih (fun n p e hm => h n p e (List.mem_cons_of_mem _ hm))
    | FuncDecl n p e =>
      have h1 := h n p e (List.mem_cons_self _ _)
      simp only [h1, if_false]
      exact ih (fun n p e hm => h n p e (List.mem_cons_of_mem _ hm))

end scan

/-! ## Theorems: a store file without a project map -/

namespace store

set_option maxRecDepth 100000 in
/-- C27 at the failing input. The documents `{}` and `{"projects": null}` load without
error into a store whose project map is nil; on that store `UpdateProject`,
`AddProject` and `AddTodo` stop with a run-time panic, and so does `RunScan` when
the store file holds such a document. -/
theorem LoadStore_nil_map_panics :
    LoadStore (os.FileState.data (lit "\x7b\x7d")) = some (Store.mk none) ∧
    LoadStore (os.FileState.data (lit "\x7b\"projects\": null\x7d")) = some (Store.mk none) ∧
    (Store.mk none).UpdateProject (lit "p") (some []) = none ∧
    (Store.mk none).AddProject (lit "p") (some []) = none ∧
    (Store.mk none).AddTodo (lit "p") (Todo.mk (lit "// TODO: x") (lit "a.go") 1 []) = none ∧
    (scan.RunScan scan.demoEnv scan.emptyObjectWorld (lit "/p") (lit "p")).outcome
      = scan.Outcome.panic := by
  decide

end store

/-! ## Theorems: a store file that does not load -/

namespace scan

/-- C26. When the store file exists but cannot be read or decoded, and the store
directory can be made, `RunScan` goes on with a new store: it does not panic, it
returns an error only if the write fails, and the store it saves holds exactly one
project, the scanned one, with the annotations of this scan. After a successful
write the file holds the encoding of that store, and (for text that is valid UTF-8)
loading it back shows the scanned project and no other. -/
theorem RunScan_unloadable_store_starts_fresh (env : ScanEnv) (w : StoreWorld)
    (projectPath projectName : GoString)
    (hexists : os.statNotExist w.storeFile = false)
    (hload : store.LoadStore w.storeFile = none) (hmk : w.mkdirFails = false) :
    (RunScan env w projectPath projectName).saved =
      some (store.Store.mk (some [(effectiveName projectPath projectName,
        some (scanWalk env projectPath).1.currentTodos)])) ∧
    (RunScan env w projectPath projectName).outcome ≠ Outcome.panic ∧
    ((RunScan env w projectPath projectName).outcome = Outcome.ok ↔
      w.write = os.WriteOutcome.succeeds) ∧
    (w.write = os.WriteOutcome.succeeds →
      (RunScan env w projectPath projectName).storeFile =
        os.FileState.data (json.MarshalIndent (store.Store.mk (some
          [(effectiveName projectPath projectName,
            some (scanWalk env projectPath).1.currentTodos)]))) ∧
      (json.storeOK (store.Store.mk (some [(effectiveName projectPath projectName,
          some (scanWalk env projectPath).1.currentTodos)])) = true →
        ∃ s', store.LoadStore (RunScan env w projectPath projectName).storeFile = some s' ∧
          ∀ Q, s'.GetProject Q =
            if effectiveName projectPath projectName = Q then
              (some (scanWalk env projectPath).1.currentTodos, true)
            else (none, false))) := by
  have hnew : loadOrNew w.storeFile = (store.NewStore, false) := by
    simp [loadOrNew, hexists, hload]
  have hrun : RunScan env w projectPath projectName =
      { outcome := if ((store.Store.mk (some [(effectiveName projectPath projectName,
            some (scanWalk env projectPath).1.currentTodos)])).Save w.storeFile w.write).2
          then Outcome.error else Outcome.ok,
        storeFile := ((store.Store.mk (some [(effectiveName projectPath projectName,
            some (scanWalk env projectPath).1.currentTodos)])).Save w.storeFile w.write).1,
        saved := some (store.Store.mk (some [(effectiveName projectPath projectName,
            some (scanWalk env projectPath).1.currentTodos)])) } := by
    unfold RunScan
    simp [hmk, hnew, scanWalk_ok, storeUpdate, store.Store.AddProject, store.NewStore,
      store.mapSet]
  rw [hrun]
  refine ⟨rfl, ?_, ?_, ?_⟩
  · simp only []
    split_ifs <;> simp
  · cases hw : w.write <;> simp [store.Store.Save, os.WriteFile]
  · intro hw
    refine ⟨by simp [store.Store.Save, os.WriteFile, hw], ?_⟩
    intro hok
    obtain ⟨s', h1, -, h3⟩ := json.Unmarshal_MarshalIndent _ hok
    refine ⟨s', by simpa [store.Store.Save, os.WriteFile, hw, store.LoadStore, os.ReadFile]
      using h1, ?_⟩
    intro Q
    rw [h3 Q]
    by_cases hq : effectiveName projectPath projectName = Q
    · simp [store.Store.GetProject, store.mapGet, hq]
    · simp [store.Store.GetProject, store.mapGet, hq]

set_option maxRecDepth 100000 in
/-- C26 at a store file that holds text that is not JSON. -/
theorem RunScan_unloadable_store_starts_fresh_witness :
    (RunScan demoEnv brokenWorld (lit "/p") (lit "p")).saved =
      some (store.Store.mk (some [(effectiveName (lit "/p") (lit "p"),
        some (scanWalk demoEnv (lit "/p")).1.currentTodos)])) :=
  (RunScan_unloadable_store_starts_fresh demoEnv brokenWorld (lit "/p") (lit "p")
    (by decide) (by decide) rfl).1

end scan

/-! ## Theorems: events on paths that are gone -/

namespace watcher

/-- C28. An event whose path cannot be examined by `os.Stat` when it is handled (the
file was deleted or renamed away) leaves the watcher as it was, whatever the
extension and the project: no rescan is spawned and no pending change is
recorded. -/
theorem handleFileChange_missing_path (env : EventEnv) (pw : ProjectWatcher) (path : GoString)
    (hstat : env.stat path = none) :
    pw.handleFileChange env path = pw ∧
    (pw.handleFileChange env path).spawned = pw.spawned ∧
    (pw.handleFileChange env path).changes = pw.changes := by
  have h : pw.handleFileChange env path = pw := by
    unfold ProjectWatcher.handleFileChange
    split_ifs <;> simp [hstat]
  rw [h]
  exact ⟨rfl, rfl, rfl⟩

/-- C28 at an event on the Go file `/p/a.go` of a tracked project, after the file is
gone. -/
theorem handleFileChange_missing_path_witness :
    demoWatcher.handleFileChange (emptyWorld 5) (lit "/p/a.go") = demoWatcher :=
  (handleFileChange_missing_path (emptyWorld 5) demoWatcher (lit "/p/a.go") rfl).1

end watcher

/-! ## Theorems: directory rules -/

namespace ignore

/-- C29. A directory rule matches by raw string suffix: whenever the manager holds a
directory rule whose pattern is a suffix of the slash-converted text of a path,
`ShouldIgnore` is true for the path, whatever the path is the name of and wherever
its components end. -/
theorem directory_rule_matches_raw_suffix (im : IgnoreManager) (r : IgnorePattern)
    (p : GoString) (hr : r ∈ im.patterns) (hdir : r.IsDir = true)
    (hsuffix : strings.HasSuffix (filepath.ToSlash p) r.Pattern = true) :
    im.ShouldIgnore p = true := by
  rw [ShouldIgnore_iff_exists]
  refine ⟨r, hr, ?_⟩
  simpa [ruleMatches, hdir, strings.HasSuffix] using hsuffix

set_option maxRecDepth 100000 in
/-- C29 with only the default rules: the directory `/proj/rebuild` and the file
`/proj/gradle.build` are both ignored by the rule for `build`. -/
theorem directory_rule_matches_raw_suffix_witness :
    (scanIgnoreManager none).ShouldIgnore (lit "/proj/rebuild") = true ∧
    (scanIgnoreManager none).ShouldIgnore (lit "/proj/gradle.build") = true :=
  ⟨directory_rule_matches_raw_suffix (scanIgnoreManager none) ⟨lit "build", true⟩
      (lit "/proj/rebuild") (by decide) rfl (by decide),
   directory_rule_matches_raw_suffix (scanIgnoreManager none) ⟨lit "build", true⟩
      (lit "/proj/gradle.build") (by decide) rfl (by decide)⟩

end ignore

/-! ## Theorems: the ignore line `/` -/

namespace ignore

/-- The rule `LoadFromFile` stores for a line that is `/` after trimming. -/
theorem loadLines_slash (lines : List GoString) (im : IgnoreManager)
    (h : ∃ l ∈ lines, strings.TrimSpace l = lit "/") :
    IgnorePattern.mk [] true ∈ (loadLines im lines).patterns := by
  obtain ⟨l, hl, ht⟩ := h
  rw [loadLines_patterns]
  apply List.mem_append_right
  rw [List.mem_map]
  refine ⟨l, List.mem_filter.2 ⟨hl, ?_⟩, ?_⟩
  · rw [keepsTrimmed, ht]; decide
  · rw [ht]; decide

/-- A directory rule with the empty pattern matches every path. -/
theorem empty_rule_ignores_all (im : IgnoreManager)
    (h : IgnorePattern.mk [] true ∈ im.patterns) (p : GoString) : im.ShouldIgnore p = true := by
  rw [ShouldIgnore_iff_exists]
  exact ⟨_, h, by simp [ruleMatches]⟩

end ignore

namespace scan

/-- C30. If the ignore file of a project holds a line that is `/` (after trimming),
`LoadFromFile` stores a directory rule with the empty pattern and `ShouldIgnore` is
then true for every path. `RunScan` then visits no file below a root directory,
hands no file to a parser and collects nothing, whatever the tree holds; and
whenever the store directory exists and the store has a project map, it hands to
`Save` a store with the empty sequence for the project, and when the write succeeds
it returns no error and the file holds the encoding of that store. -/
theorem slash_line_ignores_whole_project (content : GoString) (im : ignore.IgnoreManager)
    (env : ScanEnv) (w : StoreWorld) (projectPath projectName : GoString)
    (hline : ∃ l ∈ strings.Split content 0x0A, strings.TrimSpace l = lit "/")
    (henv : env.ttignore = some content) :
    ignore.IgnorePattern.mk [] true ∈ (im.LoadFromFile (some content)).1.patterns ∧
    (∀ p, (im.LoadFromFile (some content)).1.ShouldIgnore p = true) ∧
    (∀ entries, env.tree = Node.dir entries → scanVisited env projectPath = []) ∧
    (scanWalk env projectPath).1.parsed = [] ∧
    (scanWalk env projectPath).1.currentTodos = [] ∧
    (w.mkdirFails = false → (loadOrNew w.storeFile).1.Projects ≠ none →
      ∃ st1, (RunScan env w projectPath projectName).saved = some st1 ∧
        st1.GetProject (effectiveName projectPath projectName) = (some [], true) ∧
        (w.write = os.WriteOutcome.succeeds →
          (RunScan env w projectPath projectName).outcome = Outcome.ok ∧
          (RunScan env w projectPath projectName).storeFile =
            os.FileState.data (json.MarshalIndent st1))) := by
  have hrule : ∀ im0 : ignore.IgnoreManager,
      ignore.IgnorePattern.mk [] true ∈ (im0.LoadFromFile (some content)).1.patterns :=
    fun im0 => ignore.loadLines_slash _ im0 hline
  have hall : ∀ p, (ignore.scanIgnoreManager env.ttignore).ShouldIgnore p = true := by
    intro p
    rw [henv]
    exact ignore.empty_rule_ignores_all _ (hrule _) p
  obtain ⟨-, htodos, hparsed⟩ := Walk_scan env (NewManager env.plugins).1
    (ignore.scanIgnoreManager env.ttignore) projectPath env.tree
    { currentTodos := [], todoCount := 0, fileCount := 0, parsed := [] }
  have hcontrib : ∀ l : List GoString,
      l.flatMap (contribution env (NewManager env.plugins).1
        (ignore.scanIgnoreManager env.ttignore)) = [] := by
    intro l
    rw [List.flatMap_eq_nil_iff]
    intro p _
    simp [contribution, hall p]
  have hpars : ∀ l : List GoString,
      l.filter (parsable env (NewManager env.plugins).1
        (ignore.scanIgnoreManager env.ttignore)) = [] := by
    intro l
    rw [List.filter_eq_nil_iff]
    intro p _
    simp [parsable, hall p]
  have hcur : (scanWalk env projectPath).1.currentTodos = [] := by
    unfold scanWalk
    rw [htodos, hcontrib]
    rfl
  refine ⟨hrule im, fun p => ignore.empty_rule_ignores_all _ (hrule im) p, ?_, ?_, hcur, ?_⟩
  · intro entries htree
    rw [scanVisited_eq, htree]
    simp [visitedFiles, hall projectPath]
  · unfold scanWalk
    rw [hparsed, hpars]
    rfl
  · intro hmk hmap
    obtain ⟨st1, hupd, hsaved, -, hwrite⟩ := RunScan_runs env w projectPath projectName hmk hmap
    rw [hcur] at hupd
    exact ⟨st1, hsaved, store.storeUpdate_entry _ _ _ _ _ hupd, hwrite⟩

set_option maxRecDepth 100000 in
/-- C30 at a project with a Go file and the ignore file `/`: the scan succeeds and
the store that is saved has the empty sequence for the project. -/
theorem slash_line_ignores_whole_project_witness :
    (RunScan { demoEnv with ttignore := some (lit "/") } demoWorld (lit "/p") (lit "p")).outcome
      = Outcome.ok ∧
    ∃ st1, (RunScan { demoEnv with ttignore := some (lit "/") } demoWorld (lit "/p")
        (lit "p")).saved = some st1 ∧
      st1.GetProject (effectiveName (lit "/p") (lit "p")) = (some [], true) :=
  match (slash_line_ignores_whole_project (lit "/") ignore.NewIgnoreManager
    { demoEnv with ttignore := some (lit "/") } demoWorld (lit "/p") (lit "p")
    (by decide) rfl).2.2.2.2.2 rfl (by decide) with
  | ⟨st1, h1, h2, h3⟩ => ⟨(h3 rfl).1, st1, h1, h2⟩

end scan

/-! ## Theorems: containment of paths -/

namespace watcher

set_option maxRecDepth 100000 in
/-- C25 at the failing input. The path `/p/..cache/x.go` is a descendant of `/p`, its
relative path `..cache/x.go` starts with the two characters `..`, and `isInDirectory`
answers false; for `/p/cache/x.go` and for `/p` itself it answers true, for `/q/x.go`
false. -/
theorem isInDirectory_two_dots_name :
    filepath.Rel (lit "/p") (lit "/p/..cache/x.go") = some (lit "..cache/x.go") ∧
    isInDirectory none (lit "/p/..cache/x.go") (lit "/p") = false ∧
    isInDirectory none (lit "/p/cache/x.go") (lit "/p") = true ∧
    isInDirectory none (lit "/p") (lit "/p") = true ∧
    isInDirectory none (lit "/q/x.go") (lit "/p") = false := by
  decide

end watcher

/-! ## Theorems: one event, one sweep -/

namespace watcher

end watcher

end Ttracker
